import Mathlib

/-!
Batchstore reserve

A shallow embedding of `pkg/postage/batchstore` (`reserve.go`, `store.go`):
the reserve state machine (Radius, Inner, Outer, Available), the batch
registry with its value index, and the unreserve queue.

Conventions of the embedding

* `uint8`, `uint` and `int64` values are `Nat` / `Int` with the wrap-around
  written out (`sub8`, `subU64`, `wrapInt64`).
* `*big.Int` amounts (batch values, Inner, Outer, TotalAmount) are `Nat`:
  they are token amounts and `valueKey` encodes their magnitude.
* The state store backend keeps one component per key family of the key
  schema; its writes and deletes do not fail, a read of a missing key
  reports `notFound`.
* Methods that mutate the receiver return the new receiver.
* Metrics, logging, the mutex and the `RadiusSetter` notification have no
  effect on the state and are left out.
-/

namespace Batchstore

/-! ## Machine arithmetic -/

/-- Two's complement reduction of an integer to the `int64` range. -/
def wrapInt64 (x : Int) : Int := (x + 9223372036854775808) % 18446744073709551616 - 9223372036854775808

/-- Subtraction on `uint8`. -/
def sub8 (a b : Nat) : Nat := (a % 256 + (256 - b % 256)) % 256

/-- Subtraction on `uint` (64 bit). -/
def subU64 (a b : Nat) : Nat :=
  (a % 18446744073709551616 + (18446744073709551616 - b % 18446744073709551616)) % 18446744073709551616

/-- The function `exp2`: `1 << e` on `int64`; bit 63 is the sign bit and larger shifts give 0. -/
def exp2 (e : Nat) : Int :=
  if e < 63 then 2 ^ e else if e = 63 then -9223372036854775808 else 0

/-! ## Data model -/

/-- Byte strings (`[]byte`), one `Nat` below 256 per byte. -/
abbrev Bytes := List Nat

/-- Modelled from the spec: `swarm.MaxPO`, the maximum proximity order (glossary: 31). -/
def MaxPO : Nat := 31

/-- The variable `DefaultDepth`: the initial depth of the reserve. -/
def DefaultDepth : Nat := 12

/-- The variable `Capacity`: the number of chunks in reserve, `exp2(22)`. -/
def Capacity : Int := exp2 22

/-- The sections of the reserve (`tier`). -/
inductive tier where
  | unreserved
  | inner
  | outer
deriving DecidableEq, Repr

/-- The numeric value of a tier constant (`iota`). -/
def tier.toNat : tier → Nat
  | .unreserved => 0
  | .inner => 1
  | .outer => 2

/-- The struct `reserveState`. -/
structure reserveState where
  Radius : Nat
  StorageRadius : Nat
  Available : Int
  Outer : Nat
  Inner : Nat
deriving DecidableEq, Repr

/-- Modelled from the spec: `postage.Batch` (section 3.4), without the ancillary
fields Owner, StartBlock and Immutable. -/
structure Batch where
  ID : Bytes
  Value : Nat
  Depth : Nat
  Radius : Nat
deriving DecidableEq, Repr

/-- Modelled from the spec: `postage.ChainState` (section 4.2.4). -/
structure ChainState where
  Block : Nat
  TotalAmount : Nat
  CurrentPrice : Nat
deriving DecidableEq, Repr

/-- The struct `UnreserveItem`. -/
structure UnreserveItem where
  BatchID : Bytes
  Radius : Nat
deriving DecidableEq, Repr

/-- Errors a batchstore call can return; `outOfFuel` marks a run of `evictOuter`
that needs more recursive passes than the bound it was given. -/
inductive Error where
  | notFound
  | evictFn
  | outOfFuel
deriving DecidableEq, Repr

/-! ## State store backend -/

/-- Lexicographic order on byte strings. -/
def bytesLt : Bytes → Bytes → Bool
  | [], [] => false
  | [], _ :: _ => true
  | _ :: _, [] => false
  | a :: as, b :: bs => a < b || (a == b && bytesLt as bs)

/-- Order of two value keys: `prefix ‖ 32-byte big-endian value ‖ id` compares
first by value, then by id. -/
def keyLt (a b : Nat × Bytes) : Bool :=
  a.1 < b.1 || (a.1 == b.1 && bytesLt a.2 b.2)

/-- Insert a value key at its place in key order. -/
def insertKey (k : Nat × Bytes) : List (Nat × Bytes) → List (Nat × Bytes)
  | [] => [k]
  | h :: t => if keyLt k h then k :: h :: t else h :: insertKey k t

/-- Insert a queue entry at its place in key order (`be-u64(seq)`). -/
def insertQueue (e : Nat × UnreserveItem) : List (Nat × UnreserveItem) → List (Nat × UnreserveItem)
  | [] => [e]
  | h :: t => if e.1 < h.1 then e :: h :: t else h :: insertQueue e t

/-- Modelled from the spec: the backend `storage.StateStorer` (section 6.2) under the
key schema of section 6.1, one component per key family:
`batchstore_batch_‖id`, `batchstore_value_‖value‖id` (in key order),
`batchstore_chainstate`, `batchstore_reservestate`,
`batchstore_unreserve_queue_‖seq` (in key order), `batchstore_queue_cardinality`. -/
structure StateStorer where
  batches : List Batch
  values : List (Nat × Bytes)
  chainStateRec : Option ChainState
  reserveStateRec : Option reserveState
  queue : List (Nat × UnreserveItem)
  cardinality : Option Nat
deriving DecidableEq, Repr

/-- The empty backend. -/
def StateStorer.empty : StateStorer :=
  { batches := [], values := [], chainStateRec := none, reserveStateRec := none,
    queue := [], cardinality := none }

/-- Backend `Get(batchKey(id), b)`. -/
def StateStorer.getBatch (st : StateStorer) (id : Bytes) : Option Batch :=
  st.batches.find? (fun b => b.ID = id)

/-- Backend `Put(batchKey(b.ID), b)`. -/
def StateStorer.putBatch (st : StateStorer) (b : Batch) : StateStorer :=
  { st with batches := b :: st.batches.filter (fun x => x.ID ≠ b.ID) }

/-- Backend `Delete(batchKey(id))`. -/
def StateStorer.deleteBatch (st : StateStorer) (id : Bytes) : StateStorer :=
  { st with batches := st.batches.filter (fun x => x.ID ≠ id) }

/-- Backend `Put(valueKey(val, id), nil)`. -/
def StateStorer.putValue (st : StateStorer) (k : Nat × Bytes) : StateStorer :=
  { st with values := insertKey k (st.values.filter (fun x => x ≠ k)) }

/-- Backend `Delete(valueKey(val, id))`. -/
def StateStorer.deleteValue (st : StateStorer) (k : Nat × Bytes) : StateStorer :=
  { st with values := st.values.filter (fun x => x ≠ k) }

/-- Backend `Put(reserveStateKey, rs)`. -/
def StateStorer.putReserveState (st : StateStorer) (rs : reserveState) : StateStorer :=
  { st with reserveStateRec := some rs }

/-- Backend `Put(chainStateKey, cs)`. -/
def StateStorer.putChainState (st : StateStorer) (cs : ChainState) : StateStorer :=
  { st with chainStateRec := some cs }

/-- Backend `Put` of an unreserve queue entry under sequence number `c`. -/
def StateStorer.putQueue (st : StateStorer) (c : Nat) (i : UnreserveItem) : StateStorer :=
  { st with queue := insertQueue (c, i) (st.queue.filter (fun x => x.1 ≠ c)) }

/-- The function `putQueueCardinality`. -/
def StateStorer.putQueueCardinality (st : StateStorer) (val : Nat) : StateStorer :=
  { st with cardinality := some val }

/-- The function `valueKey`: the index key of a batch in the value index. -/
def valueKey (val : Nat) (id : Bytes) : Nat × Bytes := (val, id)

/-- The function `valueKeyToID`: the batch id of a value key. -/
def valueKeyToID (key : Nat × Bytes) : Bytes := key.2

/-! ## Reserve state -/

/-- The method `reserveState.tier`: which tier a value falls into. -/
def reserveState.tier (rs : reserveState) (x : Nat) : Batchstore.tier :=
  if x < rs.Inner ∨ rs.Inner = 0 then Batchstore.tier.unreserved
  else if x < rs.Outer then Batchstore.tier.inner
  else Batchstore.tier.outer

/-- The method `reserveState.radius`: the reserve radius of a tier. -/
def reserveState.radius (rs : reserveState) : Batchstore.tier → Nat
  | .unreserved => MaxPO
  | .inner => rs.Radius
  | .outer => sub8 rs.Radius 1

/-- The method `reserveState.size`: the number of chunks a batch takes in the reserve. -/
def reserveState.size (rs : reserveState) (depth : Nat) (t : Batchstore.tier) : Int :=
  let size := exp2 (sub8 (sub8 depth rs.Radius) 1)
  match t with
  | .inner => size
  | .outer => wrapInt64 (2 * size)
  | .unreserved => 0

/-- The method `reserveState.setLimits`: returns the adjusted tier and the updated limits. -/
def reserveState.setLimits (rs : reserveState) (val : Nat) (newTier : Batchstore.tier) :
    Batchstore.tier × reserveState :=
  if newTier ≠ Batchstore.tier.unreserved then (newTier, rs)
  else if rs.Inner = 0 ∨ rs.Inner > val then
    if rs.Outer = rs.Inner then (Batchstore.tier.outer, { rs with Outer := val, Inner := val })
    else (Batchstore.tier.inner, { rs with Inner := val })
  else (Batchstore.tier.unreserved, rs)

/-- The method `reserveState.change`: the change in capacity, the radius of reserve,
and the reserve state after `setLimits`. -/
def reserveState.change (rs : reserveState) (oldv newv : Nat) (oldDepth newDepth : Nat) :
    Int × Nat × reserveState :=
  let oldTier := rs.tier oldv
  let r := rs.setLimits newv (rs.tier newv)
  let newTier := r.1
  let rs1 := r.2
  let oldSize := rs1.size oldDepth oldTier
  let newSize := rs1.size newDepth newTier
  let availableCapacityChange := wrapInt64 (oldSize - newSize)
  let reserveRadius := rs1.radius newTier
  (availableCapacityChange, reserveRadius, rs1)

/-! ## Store -/

/-- The struct `store`. The field `evicted` records the ids passed to `evictFn`, in call order. -/
structure store where
  backend : StateStorer
  cs : ChainState
  rs : reserveState
  queueIdx : Nat
  evicted : List Bytes
deriving DecidableEq, Repr

/-- The function `New`: chain state, reserve state and queue cardinality are read from
the backend, with the defaults of the source when a key is missing. -/
def New (st : StateStorer) : store :=
  { backend := st
    cs := st.chainStateRec.getD { Block := 0, TotalAmount := 0, CurrentPrice := 0 }
    rs := st.reserveStateRec.getD
      { Radius := DefaultDepth, StorageRadius := 0, Available := Capacity, Outer := 0, Inner := 0 }
    queueIdx := st.cardinality.getD 0
    evicted := [] }

/-- The method `store.unreserve`: append the batch at the given radius to the unreserve queue. -/
def store.unreserve (s : store) (b : Bytes) (radius : Nat) : store :=
  let c := (s.queueIdx + 1) % 18446744073709551616
  { s with
    backend := (s.backend.putQueue c { BatchID := b, Radius := radius }).putQueueCardinality c
    queueIdx := c }

/-- The method `store.Get`: the stored batch with its Radius set from the reserve state. -/
def store.Get (s : store) (id : Bytes) : Except Error Batch :=
  match s.backend.getBatch id with
  | none => .error .notFound
  | some b =>
    if s.rs.StorageRadius < s.rs.Radius then .ok { b with Radius := s.rs.StorageRadius }
    else .ok { b with Radius := s.rs.radius (s.rs.tier b.Value) }

/-- The method `store.Exists`. -/
def store.Exists (s : store) (id : Bytes) : Bool :=
  (s.backend.getBatch id).isSome

/-- The iteration callback of `evictOuter` run over the value keys in key order. -/
def store.evictOuterIterate (last : Batch) : List (Nat × Bytes) → store → Except Error store
  | [], s => .ok s
  | key :: rest, s =>
    let batchID := valueKeyToID key
    match (if last.ID = batchID then Except.ok last else s.Get batchID) with
    | .error e => .error e
    | .ok b =>
      if b.Value < s.rs.Outer then store.evictOuterIterate last rest s
      else if 0 ≤ s.rs.Available ∧ s.rs.Outer ≠ b.Value then .ok s
      else
        let s1 := { s with rs := { s.rs with
          Available := wrapInt64 (s.rs.Available + exp2 (subU64 (subU64 b.Depth s.rs.Radius) 1))
          Outer := b.Value } }
        store.evictOuterIterate last rest (s1.unreserve b.ID s1.rs.Radius)

/-- One pass of `evictOuter`: the iteration over the value index, then `Outer ← Outer + 1`. -/
def store.evictOuterPass (s : store) (last : Batch) : Except Error store :=
  match store.evictOuterIterate last s.backend.values s with
  | .error e => .error e
  | .ok s1 => .ok { s1 with rs := { s1.rs with Outer := s1.rs.Outer + 1 } }

/-- The receiver of the recursive call of `evictOuter`: Radius is incremented
(on `uint8`) and Outer is reset to Inner. -/
def store.increaseRadius (s : store) : store :=
  { s with rs := { s.rs with Radius := (s.rs.Radius + 1) % 256, Outer := s.rs.Inner } }

/-- The method `store.evictOuter`; `fuel` bounds the number of recursive calls. -/
def store.evictOuter : Nat → store → Batch → Except Error store
  | 0, s, last =>
    if 0 ≤ s.rs.Available then .ok s
    else
      match s.evictOuterPass last with
      | .error e => .error e
      | .ok s2 =>
        if s2.rs.Available < 0 then .error .outOfFuel
        else .ok { s2 with backend := s2.backend.putReserveState s2.rs }
  | f + 1, s, last =>
    if 0 ≤ s.rs.Available then .ok s
    else
      match s.evictOuterPass last with
      | .error e => .error e
      | .ok s2 =>
        if s2.rs.Available < 0 then store.evictOuter f s2.increaseRadius last
        else .ok { s2 with backend := s2.backend.putReserveState s2.rs }

/-- The method `store.update`. -/
def store.update (fuel : Nat) (s : store) (b : Batch) (oldDepth : Nat) (oldValue : Nat) :
    Except Error store :=
  let newValue := b.Value
  let newDepth := b.Depth
  let ch := s.rs.change oldValue newValue oldDepth newDepth
  let capacityChange := ch.1
  let reserveRadius := ch.2.1
  let s1 := { s with rs := { ch.2.2 with Available := wrapInt64 (ch.2.2.Available + capacityChange) } }
  store.evictOuter fuel (s1.unreserve b.ID reserveRadius) b

/-- The method `store.Put`. -/
def store.Put (fuel : Nat) (s : store) (b : Batch) (value : Nat) (depth : Nat) : Except Error store :=
  let oldVal := b.Value
  let oldDepth := b.Depth
  let s1 := { s with backend := s.backend.deleteValue (valueKey oldVal b.ID) }
  let b1 := { b with Value := value, Depth := depth }
  let s2 := { s1 with backend := s1.backend.putValue (valueKey b1.Value b1.ID) }
  match store.update fuel s2 b1 oldDepth oldVal with
  | .error e => .error e
  | .ok s3 => .ok { s3 with backend := s3.backend.putBatch b1 }

/-- The method `store.delete`. -/
def store.delete : store → List Bytes → Except Error store
  | s, [] => .ok s
  | s, id :: ids =>
    match s.Get id with
    | .error e => .error e
    | .ok b =>
      store.delete
        { s with backend := (s.backend.deleteValue (valueKey b.Value id)).deleteBatch id } ids

/-- The iteration callback of `evictExpired` run over the value keys in key order;
it threads the store, the multiplier and the ids to delete. -/
def store.evictExpiredIterate (evictFn : Bytes → Bool) (until_ : Nat) :
    List (Nat × Bytes) → store → Int → List Bytes → Except Error (store × List Bytes)
  | [], s, _, toDelete => .ok (s, toDelete)
  | key :: rest, s, multiplier, toDelete =>
    match s.Get (valueKeyToID key) with
    | .error e => .error e
    | .ok b =>
      if until_ ≤ b.Value then .ok (s, toDelete)
      else
        let m1 := if multiplier = 0 ∧ s.rs.Inner ≤ b.Value then 1 else multiplier
        let m2 := if m1 = 1 ∧ s.rs.Outer ≤ b.Value then 2 else m1
        let s1 := { s with evicted := s.evicted ++ [b.ID] }
        if evictFn b.ID = false then .error .evictFn
        else
          let s2 := { s1 with rs := { s1.rs with
            Available := wrapInt64 (s1.rs.Available
              + wrapInt64 (m2 * exp2 (sub8 (sub8 b.Radius s1.rs.Radius) 1))) } }
          let toDelete1 := if b.Value ≤ s2.cs.TotalAmount then toDelete ++ [b.ID] else toDelete
          store.evictExpiredIterate evictFn until_ rest s2 m2 toDelete1

/-- The bound `until` of `evictExpired`. -/
def store.until_ (s : store) : Nat :=
  if 0 < s.rs.Inner ∧ s.rs.Inner ≤ s.cs.TotalAmount then s.cs.TotalAmount + 1 else s.rs.Inner

/-- The method `store.evictExpired`; `evictFn id = false` means the callback returned an error. -/
def store.evictExpired (evictFn : Bytes → Bool) (s : store) : Except Error store :=
  let until_ := s.until_
  match store.evictExpiredIterate evictFn until_ s.backend.values s 0 [] with
  | .error e => .error e
  | .ok (s1, toDelete) =>
    let rs1 := { s1.rs with Inner := until_ }
    let rs2 := if rs1.Outer < until_ then { rs1 with Outer := until_ } else rs1
    let s2 := { s1 with rs := rs2, backend := s1.backend.putReserveState rs2 }
    s2.delete toDelete

/-- The method `store.PutChainState`. -/
def store.PutChainState (evictFn : Bytes → Bool) (s : store) (cs : ChainState) : Except Error store :=
  let s1 := { s with cs := cs }
  match s1.evictExpired evictFn with
  | .error e => .error e
  | .ok s2 => .ok { s2 with backend := s2.backend.putChainState cs }

/-! ## Sequences of calls -/

/-- A call of the exported API; `put` carries the bound on the recursive calls of `evictOuter`. -/
inductive Call where
  | put (fuel : Nat) (b : Batch) (value : Nat) (depth : Nat)
  | putChainState (cs : ChainState)
deriving DecidableEq, Repr

/-- The value a `Put` call carries is positive (a `PutChainState` call carries none). -/
def Call.valuePositive : Call → Bool
  | .put _ _ value _ => decide (0 < value)
  | .putChainState _ => true

/-- Run a sequence of calls, each on the store the previous one left, up to the first error. -/
def runCalls (evictFn : Bytes → Bool) : store → List Call → Except Error store
  | s, [] => .ok s
  | s, .put fuel b value depth :: rest =>
    match s.Put fuel b value depth with
    | .error e => .error e
    | .ok s1 => runCalls evictFn s1 rest
  | s, .putChainState cs :: rest =>
    match s.PutChainState evictFn cs with
    | .error e => .error e
    | .ok s1 => runCalls evictFn s1 rest

/-! ## Example inputs -/

/-- A fresh batch of depth 35 with id `[1]`. -/
def batchOne : Batch := { ID := [1], Value := 0, Depth := 35, Radius := 0 }

/-- A fresh batch of depth 14 with id `[2]`. -/
def batchTwo : Batch := { ID := [2], Value := 0, Depth := 14, Radius := 0 }

/-- A callback `evictFn` that never returns an error. -/
def evictOk : Bytes → Bool := fun _ => true

/-- A sequence of calls with positive values: a `Put` that evicts, a `PutChainState`, and a
second `Put` that raises the radius. -/
def callsPositive : List Call :=
  [Call.put 0 batchOne 5 35,
   Call.putChainState { Block := 1, TotalAmount := 3, CurrentPrice := 1 },
   Call.put 4 { ID := [2], Value := 0, Depth := 36, Radius := 0 } 9 36]

/-- A sequence of calls whose first `Put` carries the value 0. -/
def callsZeroValue : List Call :=
  [Call.put 0 batchOne 0 35,
   Call.put 0 { ID := [2], Value := 0, Depth := 5, Radius := 0 } 10 5]

/-- The store of end-to-end scenario 5: `Inner = Outer = 100`, `Available = 0`, `Radius = 12`,
holding batches of value 120, 150 and 200. -/
def storeScenario5 : store :=
  { backend :=
      { batches := [{ ID := [1], Value := 120, Depth := 14, Radius := 0 },
                    { ID := [2], Value := 150, Depth := 15, Radius := 0 },
                    { ID := [3], Value := 200, Depth := 16, Radius := 0 }]
        values := [(120, [1]), (150, [2]), (200, [3])]
        chainStateRec := none
        reserveStateRec := none
        queue := []
        cardinality := none }
    cs := { Block := 0, TotalAmount := 0, CurrentPrice := 0 }
    rs := { Radius := 12, StorageRadius := 0, Available := 0, Outer := 100, Inner := 100 }
    queueIdx := 0
    evicted := [] }

/-- The chain state of end-to-end scenario 5: `TotalAmount = 150`. -/
def chainState150 : ChainState := { Block := 1, TotalAmount := 150, CurrentPrice := 1 }

/-- A store whose storage radius has caught up with the radius (`StorageRadius = Radius = 12`),
holding one batch below Inner and one above Outer. -/
def storeCaughtUp : store :=
  { backend :=
      { batches := [{ ID := [1], Value := 50, Depth := 14, Radius := 0 },
                    { ID := [2], Value := 150, Depth := 15, Radius := 0 }]
        values := [(50, [1]), (150, [2])]
        chainStateRec := none
        reserveStateRec := none
        queue := []
        cardinality := none }
    cs := { Block := 0, TotalAmount := 0, CurrentPrice := 0 }
    rs := { Radius := 12, StorageRadius := 12, Available := 0, Outer := 100, Inner := 100 }
    queueIdx := 0
    evicted := [] }

/-- A `Put` of a batch of depth 35 that fills the reserve, then a chain state under which that
batch expires. -/
def callsFillAndExpire : List Call :=
  [Call.put 0 batchOne 5 35,
   Call.putChainState { Block := 1, TotalAmount := 5, CurrentPrice := 1 }]

/-- The calls of `callsFillAndExpire` followed by a `Put` of a batch of depth 14, with room for
244 recursive calls of `evictOuter`. -/
def callsRadiusWrap : List Call :=
  callsFillAndExpire ++ [Call.put 244 batchTwo 10 14]

/-- The store of scenario 5 once `PutChainState` has set the chain state of total amount 150. -/
def storeScenario5Chain : store := { storeScenario5 with cs := chainState150 }

/-! ## Unreserve queue -/

/-- The constant `unreserveQueueKey`, as its bytes. -/
def unreserveQueueKey : Bytes := "batchstore_unreserve_queue_".toList.map Char.toNat

/-- The `n` low bytes of `c`, most significant first. -/
def beBytes : Nat → Nat → Bytes
  | 0, _ => []
  | n + 1, c => (c / 256 ^ n % 256) :: beBytes n c

/-- The key `unreserve` writes for sequence number `c`:
`fmt.Sprintf("%s_%s", unreserveQueueKey, string(v))` with `v` the 8 bytes of
`binary.BigEndian.PutUint64(v, c)`. -/
def queueKey (c : Nat) : Bytes :=
  unreserveQueueKey ++ "_".toList.map Char.toNat ++ beBytes 8 c

/-- Backend `Delete` of the unreserve queue entry under sequence number `c`. -/
def StateStorer.deleteQueue (st : StateStorer) (c : Nat) : StateStorer :=
  { st with queue := st.queue.filter (fun x => x.1 ≠ c) }

/-- Backend `Delete(chainStateKey)`. -/
def StateStorer.deleteChainState (st : StateStorer) : StateStorer :=
  { st with chainStateRec := none }

/-- Backend `Delete(reserveStateKey)`. -/
def StateStorer.deleteReserveState (st : StateStorer) : StateStorer :=
  { st with reserveStateRec := none }

/-- Backend `Delete(ureserveQueueCardinalityKey)`. -/
def StateStorer.deleteQueueCardinality (st : StateStorer) : StateStorer :=
  { st with cardinality := none }

/-- The state of a run of `Unreserve`: the store, the state of the callback, the keys of the
entries to clean up, the items the callback was invoked on with what it returned, in call
order, and the error returned. -/
structure UnreserveRun (σ ε : Type) where
  s : store
  cbState : σ
  entries : List Nat
  called : List (UnreserveItem × Except ε Bool)
  err : Option ε

/-- The iteration callback of `Unreserve` run over the queue entries in key order. The
callback `cb` is a function of its own state; it returns `stop` or an error. -/
def store.UnreserveIterate {σ ε : Type} (cb : σ → Bytes → Nat → σ × Except ε Bool) :
    List (Nat × UnreserveItem) → UnreserveRun σ ε → UnreserveRun σ ε
  | [], r => r
  | (key, v) :: rest, r =>
    match cb r.cbState v.BatchID v.Radius with
    | (c1, .error e) =>
      { r with cbState := c1, called := r.called ++ [(v, .error e)], err := some e }
    | (c1, .ok stop) =>
      let s1 :=
        if (r.s.rs.StorageRadius + 1) % 256 < v.Radius then
          { r.s with
            rs := { r.s.rs with StorageRadius := sub8 v.Radius 1 }
            backend := r.s.backend.putReserveState { r.s.rs with StorageRadius := sub8 v.Radius 1 } }
        else r.s
      let r1 := { r with s := s1, cbState := c1, called := r.called ++ [(v, .ok stop)],
                         entries := r.entries ++ [key] }
      if stop then r1 else store.UnreserveIterate cb rest r1

/-- The method `store.Unreserve`: the iteration over the queue, then the deferred deletion of
the entries collected. -/
def store.Unreserve {σ ε : Type} (cb : σ → Bytes → Nat → σ × Except ε Bool) (s : store) (c : σ) :
    UnreserveRun σ ε :=
  let r := store.UnreserveIterate cb s.backend.queue
    { s := s, cbState := c, entries := [], called := [], err := none }
  { r with s := { r.s with backend := r.entries.foldl (fun st k => st.deleteQueue k) r.s.backend } }

/-- The method `store.Reset`: every key with the prefix `batchstore_` is deleted, in key order
(batch records, chain state, queue cardinality, reserve state, queue entries, value keys),
then chain state and reserve state are set to their initial values. -/
def store.Reset (s : store) : store :=
  let st1 := s.backend.batches.foldl (fun st b => st.deleteBatch b.ID) s.backend
  let st2 := st1.deleteChainState
  let st3 := st2.deleteQueueCardinality
  let st4 := st3.deleteReserveState
  let st5 := s.backend.queue.foldl (fun st e => st.deleteQueue e.1) st4
  let st6 := s.backend.values.foldl (fun st k => st.deleteValue k) st5
  { s with
    backend := st6
    cs := { Block := 0, TotalAmount := 0, CurrentPrice := 0 }
    rs := { Radius := DefaultDepth, StorageRadius := 0, Available := Capacity, Outer := 0, Inner := 0 } }

/-- A callback that never stops and never fails. -/
def cbContinue : Unit → Bytes → Nat → Unit × Except Unit Bool := fun _ _ _ => ((), .ok false)

/-- The fresh store after enqueueing five items with the radii 3, 5, 4, 6, 5 (scenario 6). -/
def storeScenario6 : store :=
  [([1], 3), ([2], 5), ([3], 4), ([4], 6), ([5], 5)].foldl
    (fun s i => s.unreserve i.1 i.2) (New StateStorer.empty)

/-- A callback that counts its invocations and returns an error on the third. -/
def cbFailOnThird : Nat → Bytes → Nat → Nat × Except Unit Bool :=
  fun n _ _ => (n + 1, if n = 2 then .error () else .ok false)

/-! ## Binary encodings -/

/-- The method `UnreserveItem.MarshalBinary`: a 33-byte slice of zeros, the batch id copied to
its front, byte 32 set to the radius. The returned error is always nil. -/
def UnreserveItem.MarshalBinary (u : UnreserveItem) : Bytes :=
  ((u.BatchID ++ List.replicate 33 0).take 33).set 32 u.Radius

/-- The method `UnreserveItem.UnmarshalBinary`: fails unless the input has 33 bytes; the batch
id is the first 32 bytes, the radius is byte 32. -/
def UnreserveItem.UnmarshalBinary (b : Bytes) : Option UnreserveItem :=
  if b.length ≠ 33 then none
  else some { BatchID := b.take 32, Radius := b.getD 32 0 }

/-- The constant `valueKeyPrefix`. -/
def valueKeyPrefix : Bytes := "batchstore_value_".toList.map Char.toNat

/-- The function `valueKey` on bytes: the key prefix, the value as 32 big-endian bytes, the
id. `FillBytes` panics on a value that does not fit 32 bytes, which is `none` here. The typed
`valueKey` above stands for this key in the backend. -/
def valueKeyBytes (val : Nat) (id : Bytes) : Option Bytes :=
  if val < 2 ^ 256 then some ( valueKeyPrefix ++ beBytes 32 val ++ id) else none

/-- The function `valueKeyToID` on bytes: the last 32 bytes of the key; slicing panics on a
key shorter than that, which is `none` here. -/
def valueKeyToIDBytes (key : Bytes) : Option Bytes :=
  if key.length < 32 then none else some (key.drop (key.length - 32))

/-- An unreserve item with a 32-byte batch id. -/
def itemSample : UnreserveItem := { BatchID := List.range 32, Radius := 7 }

/-- A reserve state of Radius 200. -/
def reserveRadius200 : reserveState :=
  { Radius := 200, StorageRadius := 0, Available := 0, Outer := 0, Inner := 0 }

/-- Three calls after which the store holds a single batch, of depth 76 and in the inner tier:
a `Put` of the batch `[1]` of depth 76 and value 10, a `Put` of the batch `[2]` of depth 36
and value 5, whose eviction pass also unreserves the batch `[1]`, and a chain state under
which the batch `[2]` expires. -/
def callsInnerDepth76 : List Call :=
  [Call.put 0 { ID := [1], Value := 0, Depth := 76, Radius := 0 } 10 76,
   Call.put 0 { ID := [2], Value := 0, Depth := 36, Radius := 0 } 5 36,
   Call.putChainState { Block := 1, TotalAmount := 7, CurrentPrice := 1 }]

/-- The batch `[1]` as stored after `callsInnerDepth76`. -/
def batchDepth76 : Batch := { ID := [1], Value := 10, Depth := 76, Radius := 0 }

/-- The store after `callsInnerDepth76`. -/
def storeInnerDepth76 : store :=
  { backend :=
      { batches := [batchDepth76]
        values := [(10, [1])]
        chainStateRec := some { Block := 1, TotalAmount := 7, CurrentPrice := 1 }
        reserveStateRec := some
          { Radius := 12, StorageRadius := 0, Available := 9223372036850581504, Outer := 11,
            Inner := 8 }
        queue := [(1, { BatchID := [1], Radius := 11 }), (2, { BatchID := [2], Radius := 11 }),
                  (3, { BatchID := [2], Radius := 12 }), (4, { BatchID := [1], Radius := 12 })]
        cardinality := some 4 }
    cs := { Block := 1, TotalAmount := 7, CurrentPrice := 1 }
    rs := { Radius := 12, StorageRadius := 0, Available := 9223372036850581504, Outer := 11,
            Inner := 8 }
    queueIdx := 4
    evicted := [[2]] }

/-! ## One pass of evictOuter -/

/-- The depth of the batch that the iteration of `evictOuter` reads at a value key: that of
`last` when the key carries its id, that of the stored record otherwise. -/
def depthAt (last : Batch) (st : StateStorer) (key : Nat × Bytes) : Nat :=
  if last.ID = key.2 then last.Depth else ((st.getBatch key.2).map (fun b => b.Depth)).getD 0

/-- Available after `evictOuter` has unreserved batches of the given depths, in this order, at
the given Radius. -/
def availableAfter (radius : Nat) (a : Int) (depths : List Nat) : Int :=
  depths.foldl (fun a d => wrapInt64 (a + exp2 (subU64 (subU64 d radius) 1))) a

/-- The value index mirrors the batches read at its keys: the key of `last` carries the value
of `last`, every other key the value of the stored record of its id. -/
def indexConsistent (last : Batch) (st : StateStorer) (keys : List (Nat × Bytes)) : Prop :=
  ∀ key ∈ keys, (last.ID = key.2 ∧ last.Value = key.1) ∨
    (last.ID ≠ key.2 ∧ ∃ b, st.getBatch key.2 = some b ∧ b.Value = key.1)

/-- A store at Radius 12 with `Available = −3` that holds batches of the values 3, 5, 5, 5
and 7, all of depth 14; `Outer = 4`. -/
def storeEqualValues : store :=
  { backend :=
      { batches := [{ ID := [1], Value := 3, Depth := 14, Radius := 0 },
                    { ID := [2], Value := 5, Depth := 14, Radius := 0 },
                    { ID := [3], Value := 5, Depth := 14, Radius := 0 },
                    { ID := [4], Value := 5, Depth := 14, Radius := 0 },
                    { ID := [5], Value := 7, Depth := 14, Radius := 0 }]
        values := [(3, [1]), (5, [2]), (5, [3]), (5, [4]), (7, [5])]
        chainStateRec := none
        reserveStateRec := none
        queue := []
        cardinality := none }
    cs := { Block := 0, TotalAmount := 0, CurrentPrice := 0 }
    rs := { Radius := 12, StorageRadius := 0, Available := -3, Outer := 4, Inner := 2 }
    queueIdx := 0
    evicted := [] }

/-- A batch that is not in the store `storeEqualValues`. -/
def batchNine : Batch := { ID := [9], Value := 9, Depth := 14, Radius := 0 }

end Batchstore

namespace Localstore

/-!
Localstore garbage collection

A shallow embedding of `pkg/localstore/gc.go`. The database type, the index
type of package `shed` and the key encoders of the indexes are not part of
the sources at hand: the database is a record of its size fields and of the
entries of its seven indexes, and the key encoders are a parameter `key`.
Index reads and batch writes do not fail. What other tasks do between the
candidate iteration and the taking of the lock is a parameter `others`.
-/

/-- Byte strings (`[]byte`), one `Nat` below 256 per byte. -/
abbrev Bytes := List Nat

/-- Modelled from the spec: `shed.Item` (section 3.2), with the fields the index keys of
section 3.3 are made of. -/
structure Item where
  Address : Bytes
  AccessTimestamp : Int
  StoreTimestamp : Int
  BinID : Nat
  BatchID : Bytes
  Index : Bytes
deriving DecidableEq, Repr

/-- The seven indexes `collectGarbage` deletes from. -/
inductive IndexName where
  | retrievalData
  | retrievalAccess
  | push
  | pull
  | gc
  | postageChunks
  | postageIndex
deriving DecidableEq, Repr

/-- Modelled from the spec: the database `DB` (sections 3.3, 6.4): capacities, the persisted
size fields, the entries of each index in key order, and the dirty-address log. -/
structure DB where
  cacheCapacity : Nat
  reserveCapacity : Nat
  gcSize : Nat
  reserveSize : Nat
  index : IndexName → List Item
  gcRunning : Bool
  dirtyAddresses : List Bytes

/-- An operation of a write batch (`leveldb.Batch`). -/
inductive WriteOp where
  | delete (i : IndexName) (item : Item)
  | putGCSize (n : Nat)
  | putReserveSize (n : Nat)
deriving DecidableEq, Repr

/-- Apply one operation of a write batch; `delete` removes the entry stored under the key of
the item. -/
def DB.applyOp (key : IndexName → Item → Bytes) (db : DB) : WriteOp → DB
  | .delete i item =>
    { db with index := fun j =>
        if j = i then (db.index j).filter (fun x => key i x ≠ key i item) else db.index j }
  | .putGCSize n => { db with gcSize := n }
  | .putReserveSize n => { db with reserveSize := n }

/-- The method `shed.WriteBatch`: all operations of the batch, in order. -/
def DB.WriteBatch (key : IndexName → Item → Bytes) (db : DB) (batch : List WriteOp) : DB :=
  batch.foldl (DB.applyOp key) db

/-- The variable `gcBatchSize`. -/
def gcBatchSize : Nat := 2000

/-- The variable `reserveEvictionBatch`. -/
def reserveEvictionBatch : Nat := 200

/-- The seven `DeleteInBatch` calls of `collectGarbage` for one item, in source order. -/
def deleteOps (item : Item) : List WriteOp :=
  [.delete .retrievalData item, .delete .retrievalAccess item, .delete .push item,
   .delete .pull item, .delete .gc item, .delete .postageChunks item,
   .delete .postageIndex item]

/-- The candidate iteration of `collectGarbage` over the gc index in key order; it threads
`collectedCount` and `candidates`. -/
def gcIterate (gcSize target : Nat) : List Item → Nat → List Item → List Item × Nat
  | [], collectedCount, candidates => (candidates, collectedCount)
  | item :: rest, collectedCount, candidates =>
    if Batchstore.subU64 gcSize collectedCount ≤ target then (candidates, collectedCount)
    else
      let candidates1 := candidates ++ [item]
      let collectedCount1 := (collectedCount + 1) % 18446744073709551616
      if gcBatchSize ≤ collectedCount1 then (candidates1, collectedCount1)
      else gcIterate gcSize target rest collectedCount1 candidates1

/-- The loop of `collectGarbage` that gets rid of dirty entries; it threads `collectedCount`
and the write batch. -/
def gcDirty (dirtyAddresses : List Bytes) : List Item → Nat → List WriteOp → Nat × List WriteOp
  | [], collectedCount, batch => (collectedCount, batch)
  | item :: rest, collectedCount, batch =>
    if item.Address ∈ dirtyAddresses then
      gcDirty dirtyAddresses rest (Batchstore.subU64 collectedCount 1) batch
    else gcDirty dirtyAddresses rest collectedCount (batch ++ deleteOps item)

/-- What a run of `collectGarbage` returns and leaves: `collectedCount`, `done`, the database,
and the candidates of the iteration. -/
structure GCRun where
  collectedCount : Nat
  done : Bool
  db : DB
  candidates : List Item

/-- The method `DB.collectGarbage`, with `target` the value of `db.gcTarget()`. -/
def DB.collectGarbage (key : IndexName → Item → Bytes) (target : Nat) (others : DB → DB)
    (db : DB) : GCRun :=
  let db1 := { db with gcRunning := true }
  let gcSize := db1.gcSize
  if gcSize = target then
    { collectedCount := 0, done := true
      db := { db1 with gcRunning := false, dirtyAddresses := [] }, candidates := [] }
  else
    let it := gcIterate gcSize target (db1.index .gc) 0 []
    let candidates := it.1
    let db2 := others db1
    let gcSize2 := db2.gcSize
    let dl := gcDirty db2.dirtyAddresses candidates it.2 []
    let collectedCount := dl.1
    let done := if target < Batchstore.subU64 gcSize2 collectedCount then false else true
    let batch := dl.2 ++ [.putGCSize (Batchstore.subU64 gcSize2 collectedCount)]
    let db3 := db2.WriteBatch key batch
    { collectedCount := collectedCount, done := done
      db := { db3 with gcRunning := false, dirtyAddresses := [] }, candidates := candidates }

/-! ## Example inputs -/

/-- An item with the given address and access time. -/
def mkItem (addr : Nat) (ts : Int) : Item :=
  { Address := [addr], AccessTimestamp := ts, StoreTimestamp := 0, BinID := addr,
    BatchID := [7], Index := [addr] }

/-- Index keys for the examples: the address. -/
def keyAddress : IndexName → Item → Bytes := fun _ item => item.Address

/-- A database of capacity 5 whose cache holds six chunks, every index holding all six. -/
def dbSix : DB :=
  { cacheCapacity := 5, reserveCapacity := 10, gcSize := 6, reserveSize := 0
    index := fun _ => [mkItem 1 10, mkItem 2 20, mkItem 3 30, mkItem 4 40, mkItem 5 50, mkItem 6 60]
    gcRunning := false, dirtyAddresses := [] }

/-- Another task touches the chunk of address 1 while the garbage collection runs. -/
def touchOne : DB → DB := fun db => { db with dirtyAddresses := db.dirtyAddresses ++ [[1]] }

/-- Index keys for the examples: the gc index is keyed by access time and address, the other
indexes by the address. -/
def keyAccess : IndexName → Item → Bytes := fun i item =>
  if i = .gc then item.AccessTimestamp.toNat :: item.Address else item.Address

/-- Another task requests the chunk of address 1 while the garbage collection runs: its access
time becomes 70, its gc entry is deleted and inserted again under the new key, and its address
is logged in dirtyAddresses; gcSize stays as it is. -/
def accessOne : DB → DB := fun db =>
  { db with
    index := fun j =>
      if j = .gc ∨ j = .retrievalAccess then
        (db.index j).filter (fun x => x.Address ≠ [1]) ++ [mkItem 1 70]
      else db.index j
    dirtyAddresses := db.dirtyAddresses ++ [[1]] }

/-! ## Float arithmetic of the targets

`gcTarget` and `reserveEvictionTarget` convert a capacity to `float64`, multiply it by a
ratio and convert the product back to `uint64`. The floats that occur are nonnegative and
finite; such a float is a fraction `mant / 2 ^ exp`, and conversion and multiplication round
the exact result to 53 significant bits, ties to even. -/

/-- The number of binary digits of `n`, for `n < 2 ^ fuel`. -/
def bitLength : Nat → Nat → Nat
  | 0, _ => 0
  | f + 1, n => if n = 0 then 0 else bitLength f (n / 2) + 1

/-- Round a natural number to 53 significant bits, to nearest, ties to even: with `d` the
number of bits beyond 53, the result is the multiple of `2 ^ d` nearest to `m`. -/
def roundFloat64 (m : Nat) : Nat :=
  let d := bitLength 128 m - 53
  let q := m / 2 ^ d
  let r := m % 2 ^ d
  if 2 ^ d < 2 * r ∨ (2 * r = 2 ^ d ∧ q % 2 = 1) then (q + 1) * 2 ^ d else q * 2 ^ d

/-- A nonnegative finite `float64`: the value `mant / 2 ^ exp`. -/
structure Float64 where
  mant : Nat
  exp : Nat
deriving DecidableEq, Repr

/-- The conversion `float64(c)` of a `uint64`. -/
def Float64.ofUint64 (c : Nat) : Float64 := { mant := roundFloat64 c, exp := 0 }

/-- The product of two floats: the exact product rounded. -/
def Float64.mul (a b : Float64) : Float64 :=
  { mant := roundFloat64 (a.mant * b.mant), exp := a.exp + b.exp }

/-- The conversion `uint64(f)` of a float below `2 ^ 64`: truncation. -/
def Float64.toUint64 (a : Float64) : Nat := a.mant / 2 ^ a.exp

/-- The variable `gcTargetRatio = 0.9`: the float nearest to 0.9. -/
def gcTargetRatio : Float64 := { mant := 8106479329266893, exp := 53 }

/-- The variable `reserveCollectionRatio = 0.5`. -/
def reserveCollectionRatio : Float64 := { mant := 1, exp := 1 }

/-- The variable `maxPurgeablePercentageOfReserve = 0.1`: the float nearest to 0.1. -/
def maxPurgeablePercentageOfReserve : Float64 := { mant := 3602879701896397, exp := 55 }

/-- The method `DB.gcTarget`. -/
def DB.gcTarget (db : DB) : Nat :=
  ((Float64.ofUint64 db.cacheCapacity).mul gcTargetRatio).toUint64

/-- The method `DB.reserveEvictionTarget`; the subtractions are `uint64` subtractions. -/
def DB.reserveEvictionTarget (db : DB) : Nat :=
  let targetCache := Batchstore.subU64 db.reserveCapacity
    ((Float64.ofUint64 db.cacheCapacity).mul reserveCollectionRatio).toUint64
  let targetCeiling := Batchstore.subU64 db.reserveCapacity
    ((Float64.ofUint64 db.reserveCapacity).mul maxPurgeablePercentageOfReserve).toUint64
  if targetCeiling > targetCache then targetCeiling else targetCache

/-- A database with the given capacities and nothing stored. -/
def dbOfCapacity (cacheCapacity reserveCapacity : Nat) : DB :=
  { cacheCapacity := cacheCapacity, reserveCapacity := reserveCapacity, gcSize := 0
    reserveSize := 0, index := fun _ => [], gcRunning := false, dirtyAddresses := [] }

/-! ## Reserve eviction -/

/-- The variables the callback of `evictReserve` closes over, with the database that
`UnreserveBatch` works on; `observed` logs `totalEvicted` as each callback saw it after its
`UnreserveBatch` call. -/
structure EvictState where
  db : DB
  totalCallbacks : Nat
  totalEvicted : Nat
  done : Bool
  observed : List Nat

/-- The callback that `evictReserve` passes to `unreserveFunc`. The method `UnreserveBatch` is
the parameter `unreserveBatch`: from the database, a batch id and a radius it gives the
database afterwards and the number of chunks evicted, or an error. -/
def evictReserveCallback {ε : Type} (unreserveBatch : DB → Bytes → Nat → DB × Except ε Nat)
    (reserveSizeStart target : Nat) : EvictState → Bytes → Nat → EvictState × Except ε Bool :=
  fun st batchID radius =>
    let st1 := { st with totalCallbacks := st.totalCallbacks + 1 }
    match unreserveBatch st1.db batchID radius with
    | (db1, .error err) => ({ st1 with db := db1 }, .error err)
    | (db1, .ok e) =>
      let totalEvicted := (st1.totalEvicted + e) % 18446744073709551616
      let st2 := { st1 with db := db1, totalEvicted := totalEvicted
                            observed := st1.observed ++ [totalEvicted] }
      if Batchstore.subU64 reserveSizeStart totalEvicted ≤ target then
        ({ st2 with done := true }, .ok true)
      else if totalEvicted ≥ reserveEvictionBatch then (st2, .ok true)
      else (st2, .ok false)

/-- The outcome of a run of `evictReserve`: the three results, the database and the batch
store afterwards, the items the callback was invoked on with what it returned, and the values
of `totalEvicted` the callbacks observed. -/
structure EvictRun (ε : Type) where
  totalEvicted : Nat
  done : Bool
  err : Option ε
  db : DB
  bs : Batchstore.store
  called : List (Batchstore.UnreserveItem × Except ε Bool)
  observed : List Nat

/-- The method `DB.evictReserve`, with `unreserveFunc` the method `Unreserve` of the batch
store `bs`. Reading `reserveSize` does not fail. -/
def DB.evictReserve {ε : Type} (unreserveBatch : DB → Bytes → Nat → DB × Except ε Nat)
    (db : DB) (bs : Batchstore.store) : EvictRun ε :=
  let target := db.reserveEvictionTarget
  let reserveSizeStart := db.reserveSize
  if reserveSizeStart = target then
    { totalEvicted := 0, done := true, err := none, db := db, bs := bs, called := []
      observed := [] }
  else
    let r := Batchstore.store.Unreserve (evictReserveCallback unreserveBatch reserveSizeStart target)
      bs { db := db, totalCallbacks := 0, totalEvicted := 0, done := false, observed := [] }
    match r.err with
    | some err =>
      { totalEvicted := 0, done := false, err := some err, db := r.cbState.db, bs := r.s
        called := r.called, observed := r.cbState.observed }
    | none =>
      { totalEvicted := r.cbState.totalEvicted
        done := if r.cbState.totalCallbacks = 0 then true else r.cbState.done
        err := none, db := r.cbState.db, bs := r.s
        called := r.called, observed := r.cbState.observed }

/-- The running totals of evicted chunks when `UnreserveBatch` is called on the given items in
turn, each call on the database the call before it left: one total (of `uint64`) per call that
succeeds, up to the first call that fails. -/
def evictedTotals {ε : Type} (unreserveBatch : DB → Bytes → Nat → DB × Except ε Nat) :
    DB → Nat → List Batchstore.UnreserveItem → List Nat
  | _, _, [] => []
  | db, total, v :: rest =>
    match unreserveBatch db v.BatchID v.Radius with
    | (_, .error _) => []
    | (db1, .ok e) =>
      ((total + e) % 18446744073709551616) ::
        evictedTotals unreserveBatch db1 ((total + e) % 18446744073709551616) rest

/-- A full reserve of 4194304 chunks, with a cache capacity of 1000000. -/
def dbFullReserve : DB :=
  { dbOfCapacity 1000000 4194304 with reserveSize := 4194304 }

/-- An `UnreserveBatch` that evicts 1000 chunks of every batch. -/
def unreserveThousand : DB → Bytes → Nat → DB × Except Unit Nat :=
  fun db _ _ => ({ db with reserveSize := Batchstore.subU64 db.reserveSize 1000 }, .ok 1000)

/-! ## Push subscription

The implementation of `SubscribePush` and of `Put` is not part of the sources at hand; the
definitions of this section follow sections 3.1, 3.3, 4.1.1 and 4.3 of the specification. A
run of the subscription is a sequence of events: uploads, passes of the iterator (each with
the skip predicate as it is at that time) and restarts. -/

/-- Modelled from the spec: a chunk (section 3.1) with its address, data and stamp. -/
structure Chunk where
  Address : Bytes
  Data : Bytes
  Stamp : Bytes
deriving DecidableEq, Repr

/-- Modelled from the spec: the two indexes the push subscription reads (section 3.3): the
push index, its keys `storeTs ‖ address` in key order, and retrievalData. -/
structure PushDB where
  push : List (Nat × Bytes)
  retrievalData : List Chunk

/-- Modelled from the spec: the order of the keys `storeTs ‖ address` of the push index: by
store time, then by address. -/
def pushKeyLt (a b : Nat × Bytes) : Bool :=
  a.1 < b.1 || (a.1 == b.1 && Batchstore.bytesLt a.2 b.2)

/-- Modelled from the spec: insert a key into the push index at its place in key order. -/
def insertPush (k : Nat × Bytes) : List (Nat × Bytes) → List (Nat × Bytes)
  | [] => [k]
  | h :: t =>
    if pushKeyLt k h then k :: h :: t
    else if k = h then h :: t
    else h :: insertPush k t

/-- Modelled from the spec: `Put(Upload)` of one chunk at store time `storeTs` (section 4.1.1)
inserts the chunk into retrievalData and its key into the push index. -/
def PushDB.putUpload (db : PushDB) (storeTs : Nat) (c : Chunk) : PushDB :=
  { push := insertPush (storeTs, c.Address) db.push
    retrievalData := c :: db.retrievalData.filter (fun x => x.Address ≠ c.Address) }

/-- Modelled from the spec: the read of a chunk via retrievalData (section 4.3). -/
def PushDB.get (db : PushDB) (address : Bytes) : Option Chunk :=
  db.retrievalData.find? (fun c => c.Address == address)

/-- Modelled from the spec: a subscription (section 4.3): its cursor, the key of the entry
visited last, and the chunks emitted on its stream so far. -/
structure PushSub where
  cursor : Option (Nat × Bytes)
  stream : List Chunk

/-- Modelled from the spec: the visit of one entry of the push index (section 4.3): the chunk
is read via retrievalData and emitted unless `skip` holds of its address. -/
def PushSub.visit (skip : Bytes → Bool) (db : PushDB) (sub : PushSub) (k : Nat × Bytes) :
    PushSub :=
  match db.get k.2 with
  | some c =>
    if skip k.2 then { sub with cursor := some k }
    else { cursor := some k, stream := sub.stream ++ [c] }
  | none => { sub with cursor := some k }

/-- Modelled from the spec: one pass of the iterator (section 4.3): the entries of the push
index after the cursor are visited in key order. -/
def PushSub.pass (skip : Bytes → Bool) (db : PushDB) (sub : PushSub) : PushSub :=
  (db.push.filter (fun k =>
    match sub.cursor with
    | none => true
    | some c => pushKeyLt c k)).foldl (PushSub.visit skip db) sub

/-- Modelled from the spec: `restart` rewinds the iterator to the beginning (section 4.3). -/
def PushSub.restart (sub : PushSub) : PushSub := { sub with cursor := none }

/-- Modelled from the spec: the events of a run of a subscription. -/
inductive PushEvent where
  | upload (storeTs : Nat) (c : Chunk)
  | pass (skip : Bytes → Bool)
  | restart

/-- Modelled from the spec: the effect of one event on the database and the subscription. -/
def PushEvent.apply : PushEvent → PushDB × PushSub → PushDB × PushSub
  | .upload storeTs c, (db, sub) => (db.putUpload storeTs c, sub)
  | .pass skip, (db, sub) => (db, sub.pass skip db)
  | .restart, (db, sub) => (db, sub.restart)

/-- Modelled from the spec: a run of events, from the left. -/
def runPush (evs : List PushEvent) (st : PushDB × PushSub) : PushDB × PushSub :=
  evs.foldl (fun st e => e.apply st) st

/-- The key of an upload in the push index. -/
def uploadKey (u : Nat × Chunk) : Nat × Bytes := (u.1, u.2.Address)

/-- The uploads of a run, in upload order. -/
def uploadsOf : List PushEvent → List (Nat × Chunk)
  | [] => []
  | .upload storeTs c :: rest => (storeTs, c) :: uploadsOf rest
  | _ :: rest => uploadsOf rest

/-- The state of a run that has uploaded `A ++ B`, in this order, and emitted `A`: the push
index holds the keys of the uploads, retrievalData their chunks, the stream the chunks of `A`,
and the cursor is at the last upload of `A`. -/
def PushInv (st : PushDB × PushSub) (A B : List (Nat × Chunk)) : Prop :=
  st.1.push = (A ++ B).map uploadKey ∧
  (∀ u ∈ A ++ B, st.1.get u.2.Address = some u.2) ∧
  st.2.stream = A.map (fun u => u.2) ∧
  st.2.cursor = (A.map uploadKey).getLast?

/-- The skip predicate that is always false. -/
def skipNone : Bytes → Bool := fun _ => false

/-- The empty database with a subscription that has emitted nothing. -/
def pushStart : PushDB × PushSub :=
  ({ push := [], retrievalData := [] }, { cursor := none, stream := [] })

/-- The chunk with address `[n]`. -/
def chunkOf (n : Nat) : Chunk := { Address := [n], Data := [n, n], Stamp := [7, n] }

/-- Ten chunks uploaded before the subscription is opened, a pass, five more uploads, a pass,
three more uploads. -/
def eventsUpload : List PushEvent :=
  (List.range 10).map (fun i => PushEvent.upload (i + 1) (chunkOf i))
    ++ [PushEvent.pass skipNone]
    ++ (List.range 5).map (fun i => PushEvent.upload (i + 11) (chunkOf (i + 10)))
    ++ [PushEvent.pass skipNone]
    ++ (List.range 3).map (fun i => PushEvent.upload (i + 16) (chunkOf (i + 15)))

/-- Two chunks uploaded at the same store time, the one with the greater address first, then a
pass. -/
def eventsSameTime : List PushEvent :=
  [PushEvent.upload 1 (chunkOf 2), PushEvent.upload 1 (chunkOf 1), PushEvent.pass skipNone]

/-- The same two uploads with a pass of the iterator between them and a pass after them. -/
def eventsSameTimePass : List PushEvent :=
  [PushEvent.upload 1 (chunkOf 2), PushEvent.pass skipNone, PushEvent.upload 1 (chunkOf 1),
    PushEvent.pass skipNone]

/-- A database with the three chunks of addresses `[0]`, `[1]`, `[2]` uploaded. -/
def pushThree : PushDB :=
  (runPush ((List.range 3).map (fun i => PushEvent.upload (i + 1) (chunkOf i))) pushStart).1

/-- The skip predicate that holds of the address `[0]` only. -/
def skipFirst : Bytes → Bool := fun a => a == [0]

/-! ## Size counters -/

/-- The method `DB.incGCSizeInBatch` for a `change` of `int64`: the operations added to the
write batch and whether `triggerGarbageCollection` is called. Reading `gcSize` does not fail;
`uint64(-change)` is the negation on `int64` converted to `uint64`. -/
def DB.incGCSizeInBatch (db : DB) (change : Int) : List WriteOp × Bool :=
  if change = 0 then ([], false)
  else
    let gcSize := db.gcSize
    if change > 0 then
      let newSize := (gcSize + (change % 18446744073709551616).toNat) % 18446744073709551616
      ([.putGCSize newSize], decide (newSize ≥ db.cacheCapacity))
    else
      let c := (Batchstore.wrapInt64 (-change) % 18446744073709551616).toNat
      if c > gcSize then ([], false)
      else
        let newSize := Batchstore.subU64 gcSize c
        ([.putGCSize newSize], decide (newSize ≥ db.cacheCapacity))

/-- The method `DB.incReserveSizeInBatch` for a `change` of `int64`: the operations added to
the write batch and whether `triggerReserveEviction` is called. -/
def DB.incReserveSizeInBatch (db : DB) (change : Int) : List WriteOp × Bool :=
  if change = 0 then ([], false)
  else
    let reserveSize := db.reserveSize
    if change > 0 then
      let newSize := (reserveSize + (change % 18446744073709551616).toNat) % 18446744073709551616
      ([.putReserveSize newSize], decide (newSize ≥ db.reserveCapacity))
    else
      let c := (Batchstore.wrapInt64 (-change) % 18446744073709551616).toNat
      if c > reserveSize then ([], false)
      else
        let newSize := Batchstore.subU64 reserveSize c
        ([.putReserveSize newSize], decide (newSize ≥ db.reserveCapacity))

/-- A database whose cache and reserve hold `2^64 − 1` chunks. -/
def dbMaxSize : DB :=
  { dbOfCapacity 1000000 4194304 with
    gcSize := 18446744073709551615, reserveSize := 18446744073709551615 }

/-- A database with a cache of 90 chunks at capacity 100 and a reserve of 50 chunks at
capacity 60. -/
def dbSmall : DB := { dbOfCapacity 100 60 with gcSize := 90, reserveSize := 50 }

end Localstore

namespace Node

/-!
## Node state store

The overlay check of `pkg/node/statestore.go` over a key-value state store. The store is a
map from string keys to values; its operations do not fail except that `Get` and `Delete` of
an absent key report `notFound`.
-/

/-- A byte string. -/
abbrev Bytes := List Nat

/-- The errors of the overlay check: `storage.ErrNotFound` and the overlay-changed error with
the stored and the supplied overlay. -/
inductive Error where
  | notFound
  | overlayChanged (was now : Bytes)
  deriving DecidableEq, Repr

/-- The interface `storage.StateStorer` restricted to overlay values: a map from keys to
values. -/
structure StateStorer where
  data : String → Option Bytes

/-- The method `Get`: the value under a key, `notFound` when the key is absent. -/
def StateStorer.Get (st : StateStorer) (key : String) : Except Error Bytes :=
  match st.data key with
  | some v => .ok v
  | none => .error .notFound

/-- The method `Put`: set the value under a key. -/
def StateStorer.Put (st : StateStorer) (key : String) (v : Bytes) : StateStorer :=
  { data := fun k => if k = key then some v else st.data k }

/-- The method `Delete`: remove a key; an absent key is reported as `notFound`. -/
def StateStorer.Delete (st : StateStorer) (key : String) : StateStorer × Option Error :=
  ({ data := fun k => if k = key then none else st.data k },
    if (st.data key).isSome then none else some .notFound)

/-- The constant `overlayKey`: the legacy key. -/
def overlayKey : String := "overlay"

/-- The constant `secureOverlayKey`. -/
def secureOverlayKey : String := "non-mineable-overlay"

/-- The function `CheckOverlayWithStore`: delete the legacy key (not-found is ignored), read
the stored overlay; store the supplied one when none is stored, fail when the stored one
differs. The result is the store afterwards and the returned error. -/
def CheckOverlayWithStore (overlay : Bytes) (storer : StateStorer) : StateStorer × Option Error :=
  let del := storer.Delete overlayKey
  if del.2 ≠ none ∧ del.2 ≠ some .notFound then (del.1, del.2)
  else
    match del.1.Get secureOverlayKey with
    | .error e =>
      if e ≠ .notFound then (del.1, some e)
      else (del.1.Put secureOverlayKey overlay, none)
    | .ok storedOverlay =>
      if storedOverlay ≠ overlay then (del.1, some (.overlayChanged storedOverlay overlay))
      else (del.1, none)

/-- A store that holds a legacy overlay and no overlay under the new key. -/
def storeLegacy : StateStorer :=
  { data := fun k => if k = overlayKey then some [1, 2, 3] else none }

end Node

namespace Contextstore

/-!
## Context store

The method `modeWrapper.Put` of `pkg/contextstore/contextstore.go`. The underlying store is
an interface value; what its `Put` returns for a chunk, a slice of exists flags and an error,
is the parameter `lsPut`.
-/

/-- The method `modeWrapper.Put`: the first exists flag and the error of the underlying `Put`.
Indexing an empty slice is a run-time panic, which is `none` here. -/
def modeWrapper.Put {χ ε : Type} (lsPut : χ → List Bool × Option ε) (ch : χ) :
    Option (Bool × Option ε) :=
  let r := lsPut ch
  match r.1 with
  | [] => none
  | e0 :: _ => some (e0, r.2)

/-- An underlying `Put` that fails and returns no exists flags. -/
def putFails : Nat → List Bool × Option String := fun _ => ([], some "put failed")

end Contextstore

namespace Retrieval

/-!
## Skip list of the retrieval protocol

The type `skipPeers` of `pkg/retrieval/skip_peers.go`; the mutex is left out, every method
runs as a whole.
-/

/-- An overlay address (`swarm.Address`). -/
abbrev Address := List Nat

/-- The struct `skipPeers`. -/
structure skipPeers where
  overdraftAddresses : List Address
  addresses : List Address
deriving DecidableEq, Repr

/-- The function `newSkipPeers`. -/
def newSkipPeers : skipPeers := { overdraftAddresses := [], addresses := [] }

/-- The method `skipPeers.All`: a copy of the addresses followed by the overdraft addresses. -/
def skipPeers.All (s : skipPeers) : List Address :=
  ([] ++ s.addresses) ++ s.overdraftAddresses

/-- The method `skipPeers.Reset`. -/
def skipPeers.Reset (s : skipPeers) : skipPeers := { s with overdraftAddresses := [] }

/-- The method `skipPeers.Add`: nothing changes when the address is among the addresses,
otherwise it is appended. -/
def skipPeers.Add (s : skipPeers) (address : Address) : skipPeers :=
  if s.addresses.any (fun a => a == address) then s
  else { s with addresses := s.addresses ++ [address] }

/-- The method `skipPeers.AddOverdraft`. -/
def skipPeers.AddOverdraft (s : skipPeers) (address : Address) : skipPeers :=
  if s.overdraftAddresses.any (fun a => a == address) then s
  else { s with overdraftAddresses := s.overdraftAddresses ++ [address] }

/-- The method `skipPeers.Saturated`. -/
def skipPeers.Saturated (s : skipPeers) : Bool := decide (s.overdraftAddresses.length ≤ 0)

/-- A call of `Add` or of `AddOverdraft`. -/
inductive SkipCall where
  | add (address : Address)
  | addOverdraft (address : Address)
deriving DecidableEq, Repr

/-- A sequence of calls, from the left. -/
def runSkip (calls : List SkipCall) (s : skipPeers) : skipPeers :=
  calls.foldl (fun s c =>
    match c with
    | .add a => s.Add a
    | .addOverdraft a => s.AddOverdraft a) s

/-- The addresses passed to `Add`, in call order. -/
def addedOf : List SkipCall → List Address
  | [] => []
  | .add a :: rest => a :: addedOf rest
  | .addOverdraft _ :: rest => addedOf rest

/-- The addresses passed to `AddOverdraft`, in call order. -/
def overdraftOf : List SkipCall → List Address
  | [] => []
  | .add _ :: rest => overdraftOf rest
  | .addOverdraft a :: rest => a :: overdraftOf rest

/-- The elements of a list, each once, in the order of their first occurrence. -/
def firstInsertions : List Address → List Address
  | [] => []
  | a :: l => a :: (firstInsertions l).filter (fun x => x ≠ a)

/-- Calls that add `[1]`, `[2]`, `[1]` for good and `[3]`, `[1]`, `[3]` as overdraft. -/
def callsSkip : List SkipCall :=
  [.add [1], .addOverdraft [3], .add [2], .addOverdraft [1], .add [1], .addOverdraft [3]]

end Retrieval

namespace Batchstore

/-! ## Frame lemmas -/

theorem unreserve_rs (s : store) (b : Bytes) (r : Nat) : (s.unreserve b r).rs = s.rs := rfl
theorem unreserve_cs (s : store) (b : Bytes) (r : Nat) : (s.unreserve b r).cs = s.cs := rfl
theorem unreserve_evicted (s : store) (b : Bytes) (r : Nat) : (s.unreserve b r).evicted = s.evicted := rfl
theorem unreserve_batches (s : store) (b : Bytes) (r : Nat) :
    (s.unreserve b r).backend.batches = s.backend.batches := rfl
theorem unreserve_values (s : store) (b : Bytes) (r : Nat) :
    (s.unreserve b r).backend.values = s.backend.values := rfl
theorem unreserve_reserveStateRec (s : store) (b : Bytes) (r : Nat) :
    (s.unreserve b r).backend.reserveStateRec = s.backend.reserveStateRec := rfl
theorem unreserve_chainStateRec (s : store) (b : Bytes) (r : Nat) :
    (s.unreserve b r).backend.chainStateRec = s.backend.chainStateRec := rfl

/-- What the iteration of `evictOuter` leaves untouched: Inner, Radius, StorageRadius, the batch
records, the value index, the chain state and the persisted records; Outer only grows. -/
theorem evictOuterIterate_frame (last : Batch) (keys : List (Nat × Bytes)) :
    ∀ (s s1 : store), store.evictOuterIterate last keys s = .ok s1 →
      s1.rs.Inner = s.rs.Inner ∧ s.rs.Outer ≤ s1.rs.Outer ∧ s1.rs.Radius = s.rs.Radius ∧
      s1.rs.StorageRadius = s.rs.StorageRadius ∧
      s1.backend.batches = s.backend.batches ∧ s1.backend.values = s.backend.values ∧
      s1.cs = s.cs ∧ s1.evicted = s.evicted ∧
      s1.backend.reserveStateRec = s.backend.reserveStateRec ∧
      s1.backend.chainStateRec = s.backend.chainStateRec := by
  induction keys with
  | nil =>
    intro s s1 h
    simp only [store.evictOuterIterate, Except.ok.injEq] at h
    subst h
    simp
  | cons key rest ih =>
    intro s s1 h
    simp only [store.evictOuterIterate] at h
    split at h
    · exact absurd h (by simp)
    · rename_i b hb
      split at h
      · exact ih s s1 h
      · rename_i hlt
        split at h
        · simp only [Except.ok.injEq] at h
          subst h
          simp
        · have h2 := ih _ _ h
          simp only [unreserve_rs, unreserve_cs, unreserve_evicted, unreserve_batches,
            unreserve_values, unreserve_reserveStateRec, unreserve_chainStateRec] at h2
          obtain ⟨i1, i2, i3, i4, i5, i6, i7, i8, i9, i10⟩ := h2
          refine ⟨i1, ?_, i3, i4, i5, i6, i7, i8, i9, i10⟩
          omega

/-- One pass of `evictOuter` leaves Inner, Radius, the batch records and the value index as
they were, and Outer strictly larger. -/
theorem evictOuterPass_frame (last : Batch) (s s1 : store)
    (h : s.evictOuterPass last = .ok s1) :
    s1.rs.Inner = s.rs.Inner ∧ s.rs.Outer < s1.rs.Outer ∧ s1.rs.Radius = s.rs.Radius ∧
      s1.rs.StorageRadius = s.rs.StorageRadius ∧
      s1.backend.batches = s.backend.batches ∧ s1.backend.values = s.backend.values ∧
      s1.cs = s.cs ∧ s1.evicted = s.evicted ∧
      s1.backend.chainStateRec = s.backend.chainStateRec := by
  unfold store.evictOuterPass at h
  split at h
  · exact absurd h (by simp)
  · rename_i s0 h0
    simp only [Except.ok.injEq] at h
    subst h
    obtain ⟨i1, i2, i3, i4, i5, i6, i7, i8, _, i10⟩ := evictOuterIterate_frame last _ _ _ h0
    exact ⟨i1, Nat.lt_succ_of_le i2, i3, i4, i5, i6, i7, i8, i10⟩

/-- A run of `evictOuter` that returns without error leaves Available non-negative, keeps Inner,
the batch records and the value index, and keeps `Inner ≤ Outer`. -/
theorem evictOuter_spec (last : Batch) (fuel : Nat) :
    ∀ (s s1 : store), store.evictOuter fuel s last = .ok s1 →
      0 ≤ s1.rs.Available ∧ s1.rs.Inner = s.rs.Inner ∧
      (s.rs.Inner ≤ s.rs.Outer → s1.rs.Inner ≤ s1.rs.Outer) ∧
      s1.rs.StorageRadius = s.rs.StorageRadius ∧
      s1.backend.batches = s.backend.batches ∧ s1.backend.values = s.backend.values ∧
      s1.cs = s.cs ∧ s1.evicted = s.evicted ∧
      s1.backend.chainStateRec = s.backend.chainStateRec := by
  induction fuel with
  | zero =>
    intro s s1 h
    unfold store.evictOuter at h
    split at h
    · rename_i hav
      simp only [Except.ok.injEq] at h
      subst h
      simp [hav]
    · split at h
      · exact absurd h (by simp)
      · rename_i s2 h2
        obtain ⟨i1, i2, i3, i4, i5, i6, i7, i8, i9⟩ := evictOuterPass_frame last _ _ h2
        split at h
        · exact absurd h (by simp)
        · rename_i hav
          simp only [Except.ok.injEq] at h
          subst h
          refine ⟨by simpa using hav, i1, fun hle => ?_, i4, i5, i6, i7, i8, i9⟩
          show s2.rs.Inner ≤ s2.rs.Outer
          omega
  | succ f ih =>
    intro s s1 h
    unfold store.evictOuter at h
    split at h
    · rename_i hav
      simp only [Except.ok.injEq] at h
      subst h
      simp [hav]
    · split at h
      · exact absurd h (by simp)
      · rename_i s2 h2
        obtain ⟨i1, i2, i3, i4, i5, i6, i7, i8, i9⟩ := evictOuterPass_frame last _ _ h2
        split at h
        · obtain ⟨j0, j1, j2, j4, j5, j6, j7, j8, j9⟩ := ih _ _ h
          simp only [store.increaseRadius] at j1 j2 j4 j5 j6 j7 j8 j9
          refine ⟨j0, by omega, fun _ => j2 (Nat.le_refl _), by omega, ?_, ?_, ?_, ?_, ?_⟩
          · rw [j5, i5]
          · rw [j6, i6]
          · rw [j7, i7]
          · rw [j8, i8]
          · rw [j9, i9]
        · rename_i hav
          simp only [Except.ok.injEq] at h
          subst h
          refine ⟨by simpa using hav, i1, fun hle => ?_, i4, i5, i6, i7, i8, i9⟩
          show s2.rs.Inner ≤ s2.rs.Outer
          omega

/-- A run of `update` that returns without error: Available is non-negative, Inner is the one
`change` set, and the batch records, value index and chain state are untouched. -/
theorem update_spec (fuel : Nat) (s s1 : store) (b : Batch) (oldDepth oldValue : Nat)
    (h : store.update fuel s b oldDepth oldValue = .ok s1) :
    0 ≤ s1.rs.Available ∧
      s1.rs.Inner = (s.rs.change oldValue b.Value oldDepth b.Depth).2.2.Inner ∧
      ((s.rs.change oldValue b.Value oldDepth b.Depth).2.2.Inner
          ≤ (s.rs.change oldValue b.Value oldDepth b.Depth).2.2.Outer →
        s1.rs.Inner ≤ s1.rs.Outer) ∧
      s1.rs.StorageRadius = (s.rs.change oldValue b.Value oldDepth b.Depth).2.2.StorageRadius ∧
      s1.backend.batches = s.backend.batches ∧ s1.backend.values = s.backend.values ∧
      s1.cs = s.cs ∧ s1.evicted = s.evicted ∧
      s1.backend.chainStateRec = s.backend.chainStateRec := by
  unfold store.update at h
  exact evictOuter_spec b fuel _ _ h

/-- The receiver `Put` hands to `update`: the old value key is deleted, the new one written. -/
theorem Put_inv (fuel : Nat) (s s1 : store) (b : Batch) (value depth : Nat)
    (h : store.Put fuel s b value depth = .ok s1) :
    ∃ s3, store.update fuel
        { s with backend :=
            ((s.backend.deleteValue (valueKey b.Value b.ID)).putValue (valueKey value b.ID)) }
        { b with Value := value, Depth := depth } b.Depth b.Value = .ok s3 ∧
      s1 = { s3 with backend := s3.backend.putBatch { b with Value := value, Depth := depth } } := by
  simp only [store.Put] at h
  split at h
  · exact absurd h (by simp)
  · rename_i s3 h3
    simp only [Except.ok.injEq] at h
    exact ⟨s3, h3, h.symm⟩
/-- C4: whenever `evictOuter`, and therefore `update` or `Put`, returns without error, the
reserve state it leaves has `Available ≥ 0`. -/
theorem C4_available_nonneg (fuel : Nat) (s s1 : store) (b : Batch)
    (oldDepth oldValue value depth : Nat)
    (h : store.evictOuter fuel s b = .ok s1 ∨ store.update fuel s b oldDepth oldValue = .ok s1 ∨
      store.Put fuel s b value depth = .ok s1) :
    0 ≤ s1.rs.Available := by
  rcases h with h | h | h
  · exact (evictOuter_spec b fuel s s1 h).1
  · exact (update_spec fuel s s1 b oldDepth oldValue h).1
  · obtain ⟨s3, h3, rfl⟩ := Put_inv fuel s s1 b value depth h
    exact (update_spec fuel _ s3 _ _ _ h3).1

/-- C4 at a concrete call: the first `Put` of a batch of depth 35 on the empty store evicts
and leaves `Available = 0`. -/
theorem C4_available_nonneg_witness :
    ∃ s1, store.Put 0 (New StateStorer.empty) { ID := [1], Value := 0, Depth := 35, Radius := 0 }
        5 35 = .ok s1 ∧ 0 ≤ s1.rs.Available :=
  ⟨_, rfl, C4_available_nonneg 0 (New StateStorer.empty) _
    { ID := [1], Value := 0, Depth := 35, Radius := 0 } 0 0 5 35 (Or.inr (Or.inr rfl))⟩

/-- The iteration of `evictExpired` changes Available and the record of `evictFn` calls only. -/
theorem evictExpiredIterate_frame (evictFn : Bytes → Bool) (u : Nat) (keys : List (Nat × Bytes)) :
    ∀ (s : store) (m : Int) (td : List Bytes) (s1 : store) (td1 : List Bytes),
      store.evictExpiredIterate evictFn u keys s m td = .ok (s1, td1) →
      s1.rs.Inner = s.rs.Inner ∧ s1.rs.Outer = s.rs.Outer ∧ s1.rs.Radius = s.rs.Radius ∧
      s1.rs.StorageRadius = s.rs.StorageRadius ∧ s1.backend = s.backend ∧ s1.cs = s.cs ∧
      s1.queueIdx = s.queueIdx := by
  induction keys with
  | nil =>
    intro s m td s1 td1 h
    simp only [store.evictExpiredIterate, Except.ok.injEq, Prod.mk.injEq] at h
    obtain ⟨rfl, _⟩ := h
    simp
  | cons key rest ih =>
    intro s m td s1 td1 h
    simp only [store.evictExpiredIterate] at h
    split at h
    · exact absurd h (by simp)
    · split at h
      · simp only [Except.ok.injEq, Prod.mk.injEq] at h
        obtain ⟨rfl, _⟩ := h
        simp
      · split at h
        · exact absurd h (by simp)
        · have h2 := ih _ _ _ _ _ h
          exact h2

/-- The method `delete` changes the batch records and the value index only. -/
theorem delete_frame (ids : List Bytes) :
    ∀ (s s1 : store), s.delete ids = .ok s1 →
      s1.rs = s.rs ∧ s1.cs = s.cs ∧ s1.evicted = s.evicted ∧ s1.queueIdx = s.queueIdx ∧
      s1.backend.reserveStateRec = s.backend.reserveStateRec ∧
      s1.backend.chainStateRec = s.backend.chainStateRec ∧
      s1.backend.queue = s.backend.queue ∧ s1.backend.cardinality = s.backend.cardinality := by
  induction ids with
  | nil =>
    intro s s1 h
    simp only [store.delete, Except.ok.injEq] at h
    subst h
    simp
  | cons id rest ih =>
    intro s s1 h
    simp only [store.delete] at h
    split at h
    · exact absurd h (by simp)
    · have h2 := ih _ _ h
      exact h2

/-- A run of `evictExpired` that returns without error sets Inner to `until` and raises Outer
to it; Radius and StorageRadius stay. -/
theorem evictExpired_limits (evictFn : Bytes → Bool) (s s1 : store)
    (h : s.evictExpired evictFn = .ok s1) :
    s1.rs.Inner = s.until_ ∧ s1.rs.Outer = max s.rs.Outer s.until_ ∧
      s1.rs.Radius = s.rs.Radius ∧ s1.rs.StorageRadius = s.rs.StorageRadius ∧ s1.cs = s.cs := by
  simp only [store.evictExpired] at h
  split at h
  · exact absurd h (by simp)
  · rename_i s0 td h0
    obtain ⟨i1, i2, i3, i4, i5, i6, i7⟩ := evictExpiredIterate_frame evictFn _ _ _ _ _ _ _ h0
    obtain ⟨j1, j2, _⟩ := delete_frame td _ _ h
    rw [j1, j2]
    simp only
    refine ⟨?_, ?_, ?_, ?_, i6⟩
    · split <;> rfl
    · split
      · rename_i hlt
        rw [i2] at hlt
        show s.until_ = max s.rs.Outer s.until_
        omega
      · rename_i hlt
        rw [i2] at hlt
        show s0.rs.Outer = max s.rs.Outer s.until_
        omega
    · split <;> simp [i3]
    · split <;> simp [i4]

/-- A call of `PutChainState` that returns without error ran `evictExpired` on the store
holding the new chain state. -/
theorem PutChainState_inv (evictFn : Bytes → Bool) (s s1 : store) (cs : ChainState)
    (h : s.PutChainState evictFn cs = .ok s1) :
    ∃ s2, store.evictExpired evictFn { s with cs := cs } = .ok s2 ∧
      s1 = { s2 with backend := s2.backend.putChainState cs } := by
  simp only [store.PutChainState] at h
  split at h
  · exact absurd h (by simp)
  · rename_i s2 h2
    simp only [Except.ok.injEq] at h
    exact ⟨s2, h2, h.symm⟩

/-- With a positive new value, `change` leaves Inner positive and `Inner ≤ Outer`, provided
the limits were ordered and Outer was unset whenever Inner was. -/
theorem change_limits (rs : reserveState) (oldv newv oldDepth newDepth : Nat)
    (hpos : 0 < newv) (hle : rs.Inner ≤ rs.Outer) (hzero : rs.Inner = 0 → rs.Outer = 0) :
    0 < (rs.change oldv newv oldDepth newDepth).2.2.Inner ∧
      (rs.change oldv newv oldDepth newDepth).2.2.Inner
        ≤ (rs.change oldv newv oldDepth newDepth).2.2.Outer := by
  simp only [reserveState.change, reserveState.setLimits, reserveState.tier]
  by_cases h0 : rs.Inner = 0
  · have hO := hzero h0
    simp [h0, hO, hpos]
  · by_cases h1 : newv < rs.Inner
    · by_cases h2 : rs.Outer = rs.Inner
      · simp [h0, h1, h2, hpos]
      · simp [h0, h1, h2, hpos]
        omega
    · by_cases h2 : newv < rs.Outer
      · simp [h0, h1, h2]
        omega
      · simp [h0, h1, h2]
        omega

/-- A `Put` of a positive value that returns without error leaves Inner positive and
`Inner ≤ Outer`. -/
theorem Put_limits (fuel : Nat) (s s1 : store) (b : Batch) (value depth : Nat)
    (hpos : 0 < value) (hle : s.rs.Inner ≤ s.rs.Outer) (hzero : s.rs.Inner = 0 → s.rs.Outer = 0)
    (h : store.Put fuel s b value depth = .ok s1) :
    0 < s1.rs.Inner ∧ s1.rs.Inner ≤ s1.rs.Outer := by
  obtain ⟨s3, h3, rfl⟩ := Put_inv fuel s s1 b value depth h
  obtain ⟨_, i1, i2, _⟩ := update_spec fuel _ s3 _ _ _ h3
  have hc := change_limits s.rs b.Value value b.Depth depth hpos hle hzero
  simp only at i1 i2
  exact ⟨by rw [i1]; exact hc.1, i2 hc.2⟩

/-- A `PutChainState` that returns without error keeps `Inner ≤ Outer`, and keeps Outer unset
while Inner is. -/
theorem PutChainState_limits (evictFn : Bytes → Bool) (s s1 : store) (cs : ChainState)
    (hzero : s.rs.Inner = 0 → s.rs.Outer = 0)
    (h : s.PutChainState evictFn cs = .ok s1) :
    s1.rs.Inner ≤ s1.rs.Outer ∧ (s1.rs.Inner = 0 → s1.rs.Outer = 0) := by
  obtain ⟨s2, h2, rfl⟩ := PutChainState_inv evictFn s s1 cs h
  obtain ⟨i1, i2, _⟩ := evictExpired_limits evictFn _ s2 h2
  simp only [store.until_] at i1 i2
  simp only
  rw [i1, i2]
  split
  · omega
  · omega

/-- Over a sequence of calls whose `Put` values are positive, `Inner ≤ Outer` is kept, together
with `Inner = 0 → Outer = 0`. -/
theorem runCalls_limits (evictFn : Bytes → Bool) (calls : List Call) :
    ∀ (s s1 : store), (∀ c ∈ calls, c.valuePositive = true) →
      s.rs.Inner ≤ s.rs.Outer → (s.rs.Inner = 0 → s.rs.Outer = 0) →
      runCalls evictFn s calls = .ok s1 →
      s1.rs.Inner ≤ s1.rs.Outer ∧ (s1.rs.Inner = 0 → s1.rs.Outer = 0) := by
  induction calls with
  | nil =>
    intro s s1 _ hle hzero h
    simp only [runCalls, Except.ok.injEq] at h
    subst h
    exact ⟨hle, hzero⟩
  | cons c rest ih =>
    intro s s1 hpos hle hzero h
    have hrest : ∀ c ∈ rest, c.valuePositive = true := fun c hc => hpos c (List.mem_cons_of_mem _ hc)
    cases c with
    | put fuel b value depth =>
      have hv : 0 < value := by
        have := hpos (Call.put fuel b value depth) (List.mem_cons_self _ _)
        simpa [Call.valuePositive] using this
      simp only [runCalls] at h
      split at h
      · exact absurd h (by simp)
      · rename_i s2 h2
        obtain ⟨j1, j2⟩ := Put_limits fuel s s2 b value depth hv hle hzero h2
        exact ih s2 s1 hrest j2 (fun h0 => absurd h0 (by omega)) h
    | putChainState cs =>
      simp only [runCalls] at h
      split at h
      · exact absurd h (by simp)
      · rename_i s2 h2
        obtain ⟨j1, j2⟩ := PutChainState_limits evictFn s s2 cs hzero h2
        exact ih s2 s1 hrest j1 j2 h
/-- C1 (as stated) fails: from the initial reserve state, a `Put` of a batch of value 0 and
depth 35 followed by a `Put` of value 10 succeeds and leaves `Inner = 10 > Outer = 1`. -/
theorem C1_inner_le_outer_counterexample :
    ∃ s1, runCalls evictOk (New StateStorer.empty) callsZeroValue = .ok s1 ∧
      s1.rs.Inner = 10 ∧ s1.rs.Outer = 1 ∧ ¬ (s1.rs.Inner ≤ s1.rs.Outer) :=
  ⟨_, rfl, rfl, rfl, by decide⟩

/-- C1 (amended): starting from the initial reserve state (Radius = 12, Inner = Outer = 0,
Available = Capacity), after every sequence of successful `Put` and `PutChainState` calls
in which every `Put` carries a positive value, the reserve state satisfies `Inner ≤ Outer`. -/
theorem C1_inner_le_outer (evictFn : Bytes → Bool) (calls : List Call) (s1 : store)
    (hpos : ∀ c ∈ calls, c.valuePositive = true)
    (h : runCalls evictFn (New StateStorer.empty) calls = .ok s1) :
    s1.rs.Inner ≤ s1.rs.Outer :=
  (runCalls_limits evictFn calls (New StateStorer.empty) s1 hpos (Nat.le_refl _) (fun _ => rfl) h).1

/-- C1 (amended) at a concrete sequence: two `Put` calls that evict, with a `PutChainState`
in between. -/
theorem C1_inner_le_outer_witness :
    ∃ s1, runCalls evictOk (New StateStorer.empty) callsPositive = .ok s1 ∧
      s1.rs.Inner ≤ s1.rs.Outer :=
  ⟨_, rfl, C1_inner_le_outer evictOk callsPositive _ (by decide) rfl⟩

/-- C8: for every reserve state with limits `Inner = I`, `Outer = O` and every chain state with
total amount `T`, a successful `PutChainState` (or `evictExpired` on the store holding that chain
state) leaves `Inner = until` and `Outer = max O until`, where `until = T + 1` if `I > 0` and
`T ≥ I`, and `until = I` otherwise. -/
theorem C8_evictExpired_limits (evictFn : Bytes → Bool) (s s1 : store) (cs : ChainState)
    (h : s.PutChainState evictFn cs = .ok s1 ∨
      store.evictExpired evictFn { s with cs := cs } = .ok s1) :
    s1.rs.Inner
        = (if 0 < s.rs.Inner ∧ s.rs.Inner ≤ cs.TotalAmount then cs.TotalAmount + 1 else s.rs.Inner) ∧
      s1.rs.Outer = max s.rs.Outer
        (if 0 < s.rs.Inner ∧ s.rs.Inner ≤ cs.TotalAmount then cs.TotalAmount + 1 else s.rs.Inner) := by
  rcases h with h | h
  · obtain ⟨s2, h2, rfl⟩ := PutChainState_inv evictFn s s1 cs h
    obtain ⟨i1, i2, _⟩ := evictExpired_limits evictFn _ s2 h2
    exact ⟨i1, i2⟩
  · obtain ⟨i1, i2, _⟩ := evictExpired_limits evictFn _ s1 h
    exact ⟨i1, i2⟩

/-- C8 at the example of the claim: `I = O = 100` and `T = 150` give `Inner = Outer = 151`. -/
theorem C8_evictExpired_limits_witness :
    ∃ s1, storeScenario5.PutChainState evictOk chainState150 = .ok s1 ∧
      s1.rs.Inner = 151 ∧ s1.rs.Outer = 151 :=
  ⟨_, rfl, C8_evictExpired_limits evictOk storeScenario5 _ chainState150 (Or.inl rfl)⟩

/-- C2 (as stated) fails: with `StorageRadius = Radius = 12` a stored batch of value 50 below
`Inner = 100` is unreserved and `Get` returns it with `Radius = MaxPO = 31`, not
`min(StorageRadius, radius(tier(Value))) = 12`. -/
theorem C2_get_radius_counterexample :
    ∃ b, storeCaughtUp.Get [1] = .ok b ∧ b.Value = 50 ∧ b.Radius = 31 ∧
      b.Radius ≠ min storeCaughtUp.rs.StorageRadius
        (storeCaughtUp.rs.radius (storeCaughtUp.rs.tier b.Value)) :=
  ⟨_, rfl, rfl, rfl, by decide⟩

/-- C2 (amended): for every stored batch and every reserve state, `Get(id)` returns the stored
batch with its Radius field equal to StorageRadius when `StorageRadius < Radius`, and to
`radius(tier(Value))` otherwise; for a batch in the inner or outer tier, with
`1 ≤ Radius ≤ 255`, this is `min(StorageRadius, radius(tier(Value)))`. -/
theorem C2_get_radius (s : store) (id : Bytes) (b : Batch)
    (hb : s.backend.getBatch id = some b) :
    ∃ b1, s.Get id = .ok b1 ∧ b1.ID = b.ID ∧ b1.Value = b.Value ∧ b1.Depth = b.Depth ∧
      b1.Radius = (if s.rs.StorageRadius < s.rs.Radius then s.rs.StorageRadius
        else s.rs.radius (s.rs.tier b.Value)) ∧
      (s.rs.tier b.Value ≠ tier.unreserved → 1 ≤ s.rs.Radius → s.rs.Radius < 256 →
        b1.Radius = min s.rs.StorageRadius (s.rs.radius (s.rs.tier b.Value))) := by
  unfold store.Get
  rw [hb]
  by_cases hlt : s.rs.StorageRadius < s.rs.Radius
  · refine ⟨{ b with Radius := s.rs.StorageRadius }, by simp only [hlt, if_true], rfl, rfl, rfl,
      by simp only [hlt, if_true], ?_⟩
    intro ht h1 h256
    show s.rs.StorageRadius = min s.rs.StorageRadius (s.rs.radius (s.rs.tier b.Value))
    cases htier : s.rs.tier b.Value with
    | unreserved => exact absurd htier ht
    | inner =>
      simp only [reserveState.radius]
      omega
    | outer =>
      simp only [reserveState.radius, sub8]
      omega
  · refine ⟨{ b with Radius := s.rs.radius (s.rs.tier b.Value) }, by simp only [hlt, if_false],
      rfl, rfl, rfl, by simp only [hlt, if_false], ?_⟩
    intro ht h1 h256
    show s.rs.radius (s.rs.tier b.Value) = min s.rs.StorageRadius (s.rs.radius (s.rs.tier b.Value))
    cases htier : s.rs.tier b.Value with
    | unreserved => exact absurd htier ht
    | inner =>
      simp only [reserveState.radius]
      omega
    | outer =>
      simp only [reserveState.radius, sub8]
      omega

/-- C2 (amended) at a concrete store: the batch of value 150 above `Outer = 100` is in the
outer tier and `Get` returns it with `Radius = 11 = min(12, 11)`. -/
theorem C2_get_radius_witness :
    ∃ b1, storeCaughtUp.Get [2] = .ok b1 ∧ b1.Value = 150 ∧ b1.Radius = 11 ∧
      b1.Radius = min storeCaughtUp.rs.StorageRadius
        (storeCaughtUp.rs.radius (storeCaughtUp.rs.tier 150)) := by
  obtain ⟨b1, h1, _, h3, _, _, h6⟩ :=
    C2_get_radius storeCaughtUp [2] { ID := [2], Value := 150, Depth := 15, Radius := 0 } rfl
  have hr := h6 (by decide) (by decide) (by decide)
  exact ⟨b1, h1, h3, by rw [hr]; decide, hr⟩

/-! ## Put -/

/-- The method `setLimits` changes Inner and Outer only. -/
theorem setLimits_frame (rs : reserveState) (val : Nat) (t : tier) :
    (rs.setLimits val t).2.Radius = rs.Radius ∧
      (rs.setLimits val t).2.StorageRadius = rs.StorageRadius ∧
      (rs.setLimits val t).2.Available = rs.Available := by
  unfold reserveState.setLimits
  split
  · exact ⟨rfl, rfl, rfl⟩
  · split
    · split <;> exact ⟨rfl, rfl, rfl⟩
    · exact ⟨rfl, rfl, rfl⟩

/-- The method `size` reads the Radius of the reserve state only. -/
theorem size_congr (rs1 rs2 : reserveState) (h : rs1.Radius = rs2.Radius) (depth : Nat) (t : tier) :
    rs1.size depth t = rs2.size depth t := by
  unfold reserveState.size
  rw [h]

/-- The method `radius` reads the Radius of the reserve state only. -/
theorem radius_congr (rs1 rs2 : reserveState) (h : rs1.Radius = rs2.Radius) (t : tier) :
    rs1.radius t = rs2.radius t := by
  cases t <;> simp [reserveState.radius, h]

/-- An entry whose sequence number is above all those queued goes to the end of the queue. -/
theorem insertQueue_append (e : Nat × UnreserveItem) (q : List (Nat × UnreserveItem))
    (h : ∀ x ∈ q, x.1 < e.1) : insertQueue e q = q ++ [e] := by
  induction q with
  | nil => rfl
  | cons x t ih =>
    have hx : ¬ e.1 < x.1 := by
      have := h x (List.mem_cons_self _ _)
      omega
    simp only [insertQueue, hx, if_false, List.cons_append]
    rw [ih (fun y hy => h y (List.mem_cons_of_mem _ hy))]

/-- Writing a queue entry under a fresh, largest sequence number appends it. -/
theorem putQueue_append (st : StateStorer) (c : Nat) (i : UnreserveItem)
    (h : ∀ x ∈ st.queue, x.1 < c) : (st.putQueue c i).queue = st.queue ++ [(c, i)] := by
  have hf : st.queue.filter (fun x => x.1 ≠ c) = st.queue := by
    apply List.filter_eq_self.mpr
    intro x hx
    have := h x hx
    simp only [ne_eq, decide_not, Bool.not_eq_true', decide_eq_false_iff_not]
    omega
  show insertQueue (c, i) (st.queue.filter (fun x => x.1 ≠ c)) = st.queue ++ [(c, i)]
  rw [hf]
  exact insertQueue_append (c, i) st.queue h

/-- When nothing has to be evicted, `evictOuter` returns its receiver. -/
theorem evictOuter_nonneg (fuel : Nat) (s : store) (last : Batch) (h : 0 ≤ s.rs.Available) :
    store.evictOuter fuel s last = .ok s := by
  cases fuel <;> simp [store.evictOuter, h]

/-- Membership in a value index after inserting a key. -/
theorem mem_insertKey (k x : Nat × Bytes) (l : List (Nat × Bytes)) :
    x ∈ insertKey k l ↔ x = k ∨ x ∈ l := by
  induction l with
  | nil => simp [insertKey]
  | cons h t ih =>
    unfold insertKey
    split
    · simp
    · simp only [List.mem_cons, ih]
      tauto

/-- Reduction to `int64` leaves a value of the `int64` range as it is. -/
theorem wrapInt64_id (x : Int) (h1 : -9223372036854775808 ≤ x) (h2 : x < 9223372036854775808) :
    wrapInt64 x = x := by
  unfold wrapInt64
  omega

/-- C5: for every batch `b` with old value and depth `(ov, od)` and every new `(v, d)`: if
`Available + ΔAvail ≥ 0` (on `int64`), where
`ΔAvail = size(od, tier(ov)) − size(d, setLimits(v, tier(v)))`, then `Put(b, v, d)` succeeds,
sets Available to `Available + ΔAvail`, leaves Radius unchanged, and appends exactly one item
`(b.ID, r)` to the unreserve queue with `r = radius(setLimits(v, tier(v)))`. The queue holds
sequence numbers up to `queueIdx`, which has room for one more. -/
theorem C5_put_without_eviction (fuel : Nat) (s : store) (b : Batch) (v d : Nat)
    (dAvail : Int) (r : Nat)
    (hd : dAvail = wrapInt64 (s.rs.size b.Depth (s.rs.tier b.Value)
      - s.rs.size d (s.rs.setLimits v (s.rs.tier v)).1))
    (hr : r = s.rs.radius (s.rs.setLimits v (s.rs.tier v)).1)
    (hq : ∀ x ∈ s.backend.queue, x.1 ≤ s.queueIdx)
    (hidx : s.queueIdx + 1 < 18446744073709551616)
    (hav : 0 ≤ wrapInt64 (s.rs.Available + dAvail)) :
    ∃ s1, s.Put fuel b v d = .ok s1 ∧
      s1.rs.Available = wrapInt64 (s.rs.Available + dAvail) ∧
      s1.rs.Radius = s.rs.Radius ∧
      s1.backend.queue = s.backend.queue ++ [(s.queueIdx + 1, { BatchID := b.ID, Radius := r })] ∧
      (-9223372036854775808 ≤ s.rs.Available + dAvail →
        s.rs.Available + dAvail < 9223372036854775808 →
        s1.rs.Available = s.rs.Available + dAvail) := by
  obtain ⟨f1, f2, f3⟩ := setLimits_frame s.rs v (s.rs.tier v)
  have hsz1 := size_congr (s.rs.setLimits v (s.rs.tier v)).2 s.rs f1 b.Depth (s.rs.tier b.Value)
  have hsz2 := size_congr (s.rs.setLimits v (s.rs.tier v)).2 s.rs f1 d
    (s.rs.setLimits v (s.rs.tier v)).1
  have hrad := radius_congr (s.rs.setLimits v (s.rs.tier v)).2 s.rs f1
    (s.rs.setLimits v (s.rs.tier v)).1
  have hmod : (s.queueIdx + 1) % 18446744073709551616 = s.queueIdx + 1 := Nat.mod_eq_of_lt hidx
  simp only [store.Put, store.update, reserveState.change, hsz1, hsz2, hrad, f3, ← hd, ← hr]
  rw [evictOuter_nonneg]
  · refine ⟨_, rfl, rfl, f1, ?_, ?_⟩
    · simp only [store.unreserve, hmod]
      show ((_ : StateStorer).putQueue (s.queueIdx + 1) { BatchID := b.ID, Radius := r }).queue = _
      rw [putQueue_append]
      · rfl
      · intro x hx
        have := hq x hx
        omega
    · intro h1 h2
      exact wrapInt64_id _ h1 h2
  · exact hav

/-- C5 at a concrete call: the first `Put` of a batch of depth 13 on the empty store charges
`2 = size(13, outer)`, keeps `Radius = 12` and queues `([1], 11)`. -/
theorem C5_put_without_eviction_witness :
    ∃ s1, (New StateStorer.empty).Put 0 { ID := [1], Value := 0, Depth := 13, Radius := 0 } 5 13
        = .ok s1 ∧
      s1.rs.Available = 4194302 ∧ s1.rs.Radius = 12 ∧
      s1.backend.queue = [(1, { BatchID := [1], Radius := 11 })] := by
  obtain ⟨s1, h1, h2, h3, h4, _⟩ := C5_put_without_eviction 0 (New StateStorer.empty)
    { ID := [1], Value := 0, Depth := 13, Radius := 0 } 5 13 (-2) 11
    (by decide) (by decide) (by decide) (by decide) (by decide)
  exact ⟨s1, h1, by rw [h2]; decide, h3, h4⟩

/-- C7: after a successful `Put(b, v, d)` on a batch whose field Value is its indexed value
`ov`: the record stored under `batchKey(b.ID)` has `Value = v` and `Depth = d`, so `Get(b.ID)`
returns them and `Exists(b.ID)` is true; the value index contains `valueKey(v, b.ID)`, and when
`ov ≠ v` it no longer contains `valueKey(ov, b.ID)`. -/
theorem C7_put_records (fuel : Nat) (s s1 : store) (b : Batch) (v d : Nat)
    (h : s.Put fuel b v d = .ok s1) :
    s1.backend.getBatch b.ID = some { b with Value := v, Depth := d } ∧
      (∃ b1, s1.Get b.ID = .ok b1 ∧ b1.ID = b.ID ∧ b1.Value = v ∧ b1.Depth = d) ∧
      s1.Exists b.ID = true ∧
      valueKey v b.ID ∈ s1.backend.values ∧
      (b.Value ≠ v → valueKey b.Value b.ID ∉ s1.backend.values) := by
  obtain ⟨s3, h3, rfl⟩ := Put_inv fuel s s1 b v d h
  obtain ⟨_, _, _, _, _, hvals, _⟩ := update_spec fuel _ s3 _ _ _ h3
  have hget : (s3.backend.putBatch { b with Value := v, Depth := d }).getBatch b.ID
      = some { b with Value := v, Depth := d } := by
    simp [StateStorer.putBatch, StateStorer.getBatch]
  refine ⟨hget, ?_, ?_, ?_, ?_⟩
  · simp only [store.Get, hget]
    split
    · exact ⟨_, rfl, rfl, rfl, rfl⟩
    · exact ⟨_, rfl, rfl, rfl, rfl⟩
  · simp only [store.Exists, hget, Option.isSome_some]
  · show valueKey v b.ID ∈ s3.backend.values
    rw [hvals]
    simp only [StateStorer.putValue, StateStorer.deleteValue]
    exact (mem_insertKey _ _ _).mpr (Or.inl rfl)
  · intro hne
    show valueKey b.Value b.ID ∉ s3.backend.values
    rw [hvals]
    simp only [StateStorer.putValue, StateStorer.deleteValue]
    intro hmem
    rcases (mem_insertKey _ _ _).mp hmem with heq | hin
    · simp only [valueKey, Prod.mk.injEq] at heq
      exact hne heq.1
    · simp [valueKey] at hin

/-- C7 at a concrete call: a `Put` that moves the batch of value 50 to value 70. -/
theorem C7_put_records_witness :
    ∃ s1, storeCaughtUp.Put 0 { ID := [1], Value := 50, Depth := 14, Radius := 0 } 70 15 = .ok s1 ∧
      s1.backend.getBatch [1] = some { ID := [1], Value := 70, Depth := 15, Radius := 0 } ∧
      s1.Exists [1] = true ∧ valueKey 70 [1] ∈ s1.backend.values ∧
      valueKey 50 [1] ∉ s1.backend.values := by
  have h := C7_put_records 0 storeCaughtUp _
    { ID := [1], Value := 50, Depth := 14, Radius := 0 } 70 15 rfl
  exact ⟨_, rfl, h.1, h.2.2.1, h.2.2.2.1, h.2.2.2.2 (by decide)⟩

/-! ## Evaluations at failing inputs -/

set_option maxRecDepth 100000 in
/-- C3 (code at the failing input): after a `Put` that fills the reserve and a `PutChainState`
that expires the batch, Radius is 12 and Available is 0; the next `Put`, of a batch of depth 14,
succeeds after 244 recursive calls of `evictOuter` and leaves `Radius = 0`: the `uint8` counter
wrapped around at 255. -/
theorem C3_radius_wraps_around :
    (runCalls evictOk (New StateStorer.empty) callsFillAndExpire).toOption.map
        (fun s => (s.rs.Radius, s.rs.Available)) = some (12, 0) ∧
      (runCalls evictOk (New StateStorer.empty) callsRadiusWrap).toOption.map
        (fun s => s.rs.Radius) = some 0 := by
  decide

/-- C6 (code at the failing input): the first `Put` on the empty store succeeds without an
eviction; the reserve state in memory has `Inner = Outer = 5` and `Available = 4194302`, and
nothing is stored under `batchstore_reservestate`. -/
theorem C6_reserve_state_not_persisted :
    ∃ s1, (New StateStorer.empty).Put 0 { ID := [1], Value := 0, Depth := 13, Radius := 0 } 5 13
        = .ok s1 ∧
      s1.rs = { Radius := 12, StorageRadius := 0, Available := 4194302, Outer := 5, Inner := 5 } ∧
      s1.backend.reserveStateRec = none ∧ s1.backend.reserveStateRec ≠ some s1.rs :=
  ⟨_, rfl, rfl, rfl, by decide⟩

/-- C9 (code at the failing input): in scenario 5 the batches of value 120 (depth 14) and 150
(depth 15) are evicted with multiplier 2 and Available stays 0, where the claim gives an
increase of `2 × 2^(14 − 12 − 1) + 2 × 2^(15 − 12 − 1) = 12`. -/
theorem C9_available_not_reclaimed :
    ∃ s1, storeScenario5.PutChainState evictOk chainState150 = .ok s1 ∧
      s1.evicted = [[1], [2]] ∧ s1.rs.Available = 0 ∧
      storeScenario5.rs.Available + (2 * 2 ^ (14 - 12 - 1) + 2 * 2 ^ (15 - 12 - 1)) = 12 :=
  ⟨_, rfl, rfl, rfl, by decide⟩

/-! ## evictExpired -/

/-- A batch record found under an id carries that id. -/
theorem getBatch_id (st : StateStorer) (id : Bytes) (b : Batch) (h : st.getBatch id = some b) :
    b.ID = id := by
  have := List.find?_some h
  simpa using this

/-- The method `Get` on a stored batch returns it with the Radius field set. -/
theorem Get_of_getBatch (s : store) (id : Bytes) (b : Batch) (h : s.backend.getBatch id = some b) :
    ∃ b1, s.Get id = .ok b1 ∧ b1.ID = id ∧ b1.Value = b.Value ∧ b1.Depth = b.Depth := by
  have hid := getBatch_id _ _ _ h
  simp only [store.Get, h]
  split
  · exact ⟨_, rfl, hid, rfl, rfl⟩
  · exact ⟨_, rfl, hid, rfl, rfl⟩

/-- The method `Get` returns a stored record, up to the Radius field. -/
theorem getBatch_of_Get (s : store) (id : Bytes) (b1 : Batch) (h : s.Get id = .ok b1) :
    ∃ b, s.backend.getBatch id = some b ∧ b1.ID = id ∧ b1.Value = b.Value := by
  unfold store.Get at h
  split at h
  · exact absurd h (by simp)
  · rename_i b hb
    have hid := getBatch_id _ _ _ hb
    split at h
    · simp only [Except.ok.injEq] at h
      subst h
      exact ⟨b, hb, hid, rfl⟩
    · simp only [Except.ok.injEq] at h
      subst h
      exact ⟨b, hb, hid, rfl⟩

/-- Over a value index in ascending value order whose keys carry the values of the stored
records, the iteration of `evictExpired` calls `evictFn` on the ids of the keys below `until`,
in order, and marks for deletion those among them with value at most `TotalAmount`. -/
theorem evictExpiredIterate_spec (evictFn : Bytes → Bool) (u : Nat) (keys : List (Nat × Bytes)) :
    ∀ (s : store) (m : Int) (td : List Bytes) (s1 : store) (td1 : List Bytes),
      keys.Pairwise (fun a b => a.1 ≤ b.1) →
      (∀ k ∈ keys, (s.backend.getBatch k.2).map (fun b => b.Value) = some k.1) →
      store.evictExpiredIterate evictFn u keys s m td = .ok (s1, td1) →
      s1.evicted = s.evicted ++ (keys.filter (fun k => k.1 < u)).map (fun k => k.2) ∧
      td1 = td ++ (keys.filter (fun k => k.1 < u ∧ k.1 ≤ s.cs.TotalAmount)).map (fun k => k.2) := by
  induction keys with
  | nil =>
    intro s m td s1 td1 _ _ h
    simp only [store.evictExpiredIterate, Except.ok.injEq, Prod.mk.injEq] at h
    obtain ⟨rfl, rfl⟩ := h
    simp
  | cons key rest ih =>
    intro s m td s1 td1 hsorted hcons h
    simp only [store.evictExpiredIterate] at h
    have hkey := hcons key (List.mem_cons_self _ _)
    split at h
    · exact absurd h (by simp)
    · rename_i b hb
      obtain ⟨b0, hb0, hbid, hbval⟩ := getBatch_of_Get s _ b hb
      simp only [valueKeyToID] at hb0 hbid
      rw [hb0] at hkey
      simp only [Option.map_some', Option.some.injEq] at hkey
      have hval : b.Value = key.1 := by rw [hbval, hkey]
      rw [List.pairwise_cons] at hsorted
      split at h
      · rename_i hge
        simp only [Except.ok.injEq, Prod.mk.injEq] at h
        obtain ⟨h1, h2⟩ := h
        subst h1 h2
        have hnone : ∀ k ∈ key :: rest, ¬ k.1 < u := by
          intro k hk
          rcases List.mem_cons.mp hk with rfl | hk
          · omega
          · have := hsorted.1 k hk
            omega
        have e1 : (key :: rest).filter (fun k => k.1 < u) = [] := by
          apply List.filter_eq_nil_iff.mpr
          intro k hk
          simpa using hnone k hk
        have e2 : (key :: rest).filter (fun k => k.1 < u ∧ k.1 ≤ s.cs.TotalAmount) = [] := by
          apply List.filter_eq_nil_iff.mpr
          intro k hk
          have := hnone k hk
          simp only [decide_eq_true_eq, not_and]
          intro h1
          exact absurd h1 this
        rw [e1, e2]
        simp
      · rename_i hlt
        split at h
        · exact absurd h (by simp)
        · have hrec := ih _ _ _ _ _ hsorted.2 ?_ h
          swap
          · exact fun k hk => hcons k (List.mem_cons_of_mem _ hk)
          obtain ⟨r1, r2⟩ := hrec
          have hu : key.1 < u := by omega
          simp only at r1 r2
          rw [r1, r2]
          constructor
          · simp [List.filter_cons, hu, hbid]
          · by_cases hT : key.1 ≤ s.cs.TotalAmount
            · simp [List.filter_cons, hu, hT, hval, hbid]
            · simp [List.filter_cons, hu, hT, hval]

/-- The first element found does not depend on how the predicate is written. -/
theorem find?_congr_mem {α : Type} (l : List α) (p q : α → Bool) (h : ∀ x ∈ l, p x = q x) :
    l.find? p = l.find? q := by
  induction l with
  | nil => rfl
  | cons a t ih =>
    have ha := h a (List.mem_cons_self _ _)
    have ht := ih (fun x hx => h x (List.mem_cons_of_mem _ hx))
    simp only [List.find?_cons, ha, ht]

/-- Looking up an id among the records left after deleting another id. -/
theorem getBatch_deleteBatch (st : StateStorer) (id id1 : Bytes) (b : Batch)
    (h : (st.deleteBatch id).getBatch id1 = some b) : st.getBatch id1 = some b ∧ id1 ≠ id := by
  have hne : id1 ≠ id := by
    intro heq
    have h1 := List.find?_some h
    have h2 := List.mem_of_find?_eq_some h
    simp only [StateStorer.deleteBatch, List.mem_filter] at h2
    simp only [decide_eq_true_eq] at h1
    have h3 := h2.2
    simp only [ne_eq, decide_not, Bool.not_eq_true', decide_eq_false_iff_not] at h3
    exact h3 (h1.trans heq)
  refine ⟨?_, hne⟩
  simp only [StateStorer.deleteBatch, StateStorer.getBatch] at h ⊢
  rw [List.find?_filter] at h
  rw [← h]
  apply find?_congr_mem
  intro x _
  by_cases hx : x.ID = id1
  · have : x.ID ≠ id := fun hc => hne (hx.symm.trans hc)
    simp [hx, hne]
  · simp [hx]

/-- The method `delete`, run on the ids of keys that carry the values of the stored records,
removes those keys from the value index and the records of those ids. -/
theorem delete_spec (ks : List (Nat × Bytes)) :
    ∀ (s s1 : store),
      (∀ k ∈ ks, ∀ b, s.backend.getBatch k.2 = some b → b.Value = k.1) →
      s.delete (ks.map (fun k => k.2)) = .ok s1 →
      s1.backend.values = s.backend.values.filter (fun x => x ∉ ks) ∧
      s1.backend.batches = s.backend.batches.filter (fun b => b.ID ∉ ks.map (fun k => k.2)) := by
  induction ks with
  | nil =>
    intro s s1 _ h
    simp only [List.map_nil, store.delete, Except.ok.injEq] at h
    subst h
    simp
  | cons k rest ih =>
    intro s s1 hval h
    simp only [List.map_cons, store.delete] at h
    split at h
    · exact absurd h (by simp)
    · rename_i b hb
      obtain ⟨b0, hb0, _, hbv⟩ := getBatch_of_Get s _ b hb
      have hk : b.Value = k.1 := by
        rw [hbv]
        exact hval k (List.mem_cons_self _ _) b0 hb0
      have hrec := ih _ _ ?_ h
      swap
      · intro k1 hk1 b1 hb1
        have := getBatch_deleteBatch _ _ _ _ hb1
        exact hval k1 (List.mem_cons_of_mem _ hk1) b1 this.1
      obtain ⟨r1, r2⟩ := hrec
      rw [r1, r2]
      simp only [StateStorer.deleteBatch, StateStorer.deleteValue, valueKey, hk,
        List.filter_filter]
      constructor
      · apply List.filter_congr
        intro x _
        by_cases h1 : x ∈ rest <;> by_cases h2 : x = k <;> simp [h1, h2]
      · apply List.filter_congr
        intro x _
        by_cases h1 : x.ID ∈ rest.map (fun k => k.2) <;> by_cases h2 : x.ID = k.2 <;>
          simp [h1, h2]

/-- C10: given a value index iterated in ascending value order whose keys carry the values of
the stored batches, `evictExpired` calls `evictFn` on exactly the stored batches whose value is
below `until`, in index order, and on success deletes from the store (batch record and value
key) exactly those evicted batches whose value is at most the chain state's TotalAmount. -/
theorem C10_evictExpired_evicts_and_deletes (evictFn : Bytes → Bool) (s s1 : store)
    (hsorted : s.backend.values.Pairwise (fun a b => a.1 ≤ b.1))
    (hstored : ∀ k ∈ s.backend.values,
      (s.backend.getBatch k.2).map (fun b => b.Value) = some k.1)
    (h : s.evictExpired evictFn = .ok s1) :
    s1.evicted
        = s.evicted ++ (s.backend.values.filter (fun k => k.1 < s.until_)).map (fun k => k.2) ∧
      s1.backend.values
        = s.backend.values.filter (fun k => ¬ (k.1 < s.until_ ∧ k.1 ≤ s.cs.TotalAmount)) ∧
      s1.backend.batches
        = s.backend.batches.filter (fun b => b.ID ∉
          (s.backend.values.filter
            (fun k => k.1 < s.until_ ∧ k.1 ≤ s.cs.TotalAmount)).map (fun k => k.2)) := by
  simp only [store.evictExpired] at h
  split at h
  · exact absurd h (by simp)
  · rename_i s0 td h0
    obtain ⟨_, _, _, _, hbk, _, _⟩ := evictExpiredIterate_frame evictFn _ _ _ _ _ _ _ h0
    obtain ⟨e1, e2⟩ := evictExpiredIterate_spec evictFn _ _ _ _ _ _ _ hsorted hstored h0
    simp only [List.nil_append] at e2
    obtain ⟨_, _, d3, _⟩ := delete_frame td _ _ h
    rw [e2] at h
    have hdel := delete_spec _ _ _ ?_ h
    swap
    · intro k hk b hb
      have hk1 : k ∈ s.backend.values := (List.mem_filter.mp hk).1
      have hst := hstored k hk1
      have hb1 : s.backend.getBatch k.2 = some b := by
        rw [← hbk]
        exact hb
      rw [hb1] at hst
      simpa using hst
    obtain ⟨r1, r2⟩ := hdel
    refine ⟨?_, ?_, ?_⟩
    · rw [d3]
      exact e1
    · rw [r1]
      show List.filter _ s0.backend.values = _
      rw [hbk]
      apply List.filter_congr
      intro x hx
      simp only [List.mem_filter, hx, true_and, decide_eq_true_eq]
    · rw [r2]
      show List.filter _ s0.backend.batches = _
      rw [hbk]

/-- C10 at scenario 5: `evictFn` is called on the batches of value 120 and 150, both are
deleted, and the batch of value 200 stays. -/
theorem C10_evictExpired_evicts_and_deletes_witness :
    ∃ s1, storeScenario5Chain.evictExpired evictOk = .ok s1 ∧
      s1.evicted = [[1], [2]] ∧ s1.backend.values = [(200, [3])] ∧
      s1.backend.batches = [{ ID := [3], Value := 200, Depth := 16, Radius := 0 }] := by
  have h := C10_evictExpired_evicts_and_deletes evictOk storeScenario5Chain _
    (by decide) (by decide) rfl
  exact ⟨_, rfl, h.1, h.2.1, h.2.2⟩

/-! ## Unreserve queue -/

/-- A common prefix does not change the lexicographic order. -/
theorem bytesLt_append_left (p x y : Bytes) : bytesLt (p ++ x) (p ++ y) = bytesLt x y := by
  induction p with
  | nil => rfl
  | cons a t ih =>
    show bytesLt (a :: (t ++ x)) (a :: (t ++ y)) = bytesLt x y
    simp only [bytesLt, ih, Nat.lt_irrefl, decide_False, beq_self_eq_true,
      Bool.true_and, Bool.false_or]

/-- Fixed-width big-endian byte strings compare as the numbers they encode. -/
theorem bytesLt_beBytes (n a b : Nat) :
    bytesLt (beBytes n a) (beBytes n b) = decide (a % 256 ^ n < b % 256 ^ n) := by
  induction n with
  | zero => simp [beBytes, bytesLt, Nat.mod_one]
  | succ n ih =>
    simp only [beBytes, bytesLt, ih]
    rw [Nat.mod_pow_succ, Nat.mod_pow_succ]
    have hP : 0 < 256 ^ n := Nat.pow_pos (by decide)
    have ha : a % 256 ^ n < 256 ^ n := Nat.mod_lt _ hP
    have hb : b % 256 ^ n < 256 ^ n := Nat.mod_lt _ hP
    generalize a / 256 ^ n % 256 = da
    generalize b / 256 ^ n % 256 = db
    generalize a % 256 ^ n = ra at ha ⊢
    generalize b % 256 ^ n = rb at hb ⊢
    generalize 256 ^ n = P at hP ha hb ⊢
    rcases Nat.lt_trichotomy da db with hlt | heq | hgt
    · have h1 : P * da + P ≤ P * db := by
        have := Nat.mul_le_mul_left P (Nat.succ_le_of_lt hlt)
        rw [Nat.mul_succ] at this
        exact this
      have h2 : ra + P * da < rb + P * db := by omega
      simp [hlt, h2]
    · subst heq
      simp
    · have h1 : P * db + P ≤ P * da := by
        have := Nat.mul_le_mul_left P (Nat.succ_le_of_lt hgt)
        rw [Nat.mul_succ] at this
        exact this
      have h2 : ¬ ra + P * da < rb + P * db := by omega
      have h3 : ¬ da < db := by omega
      have h4 : da ≠ db := by omega
      simp [h2, h3, h4]

/-- The queue keys of two sequence numbers compare as the sequence numbers. -/
theorem bytesLt_queueKey (c1 c2 : Nat) (h1 : c1 < 18446744073709551616)
    (h2 : c2 < 18446744073709551616) :
    bytesLt (queueKey c1) (queueKey c2) = decide (c1 < c2) := by
  unfold queueKey
  rw [bytesLt_append_left, bytesLt_beBytes]
  have e : (256 : Nat) ^ 8 = 18446744073709551616 := by norm_num
  rw [e, Nat.mod_eq_of_lt h1, Nat.mod_eq_of_lt h2]

/-- The log of a run of the iteration of `Unreserve`: the callback is invoked on a prefix of
the queue, in order; only its last invocation may stop or fail; the keys collected for
deletion are those of the invocations that returned without error; the queue itself is not
touched by the iteration. -/
theorem UnreserveIterate_log {σ ε : Type} (cb : σ → Bytes → Nat → σ × Except ε Bool)
    (q : List (Nat × UnreserveItem)) :
    ∀ r0 : UnreserveRun σ ε, ∃ L : List (UnreserveItem × Except ε Bool),
      (store.UnreserveIterate cb q r0).called = r0.called ++ L ∧
      (store.UnreserveIterate cb q r0).entries
        = r0.entries ++ (q.take (L.filter (fun x => x.2.isOk)).length).map (fun e => e.1) ∧
      L.map (fun x => x.1) = (q.take L.length).map (fun e => e.2) ∧
      (∀ x ∈ L.dropLast, x.2 = .ok false) ∧
      L.length ≤ q.length ∧
      (store.UnreserveIterate cb q r0).s.backend.queue = r0.s.backend.queue := by
  induction q with
  | nil =>
    intro r0
    exact ⟨[], by simp [store.UnreserveIterate], by simp [store.UnreserveIterate], rfl,
      by simp, by simp, rfl⟩
  | cons kv rest ih =>
    intro r0
    obtain ⟨key, v⟩ := kv
    simp only [store.UnreserveIterate]
    split
    · rename_i c1 e hcb
      exact ⟨[(v, .error e)], rfl, by simp [Except.isOk, Except.toBool], by simp, by simp,
        by simp, rfl⟩
    · rename_i c1 stop hcb
      split
      · refine ⟨[(v, .ok stop)], rfl, by simp [Except.isOk, Except.toBool], by simp, by simp,
          by simp, ?_⟩
        split <;> rfl
      · rename_i hstop
        have hs : stop = false := by simpa using hstop
        subst hs
        obtain ⟨L, h1, h2, h3, h4, h5, h6⟩ := ih
          { s := if (r0.s.rs.StorageRadius + 1) % 256 < v.Radius then
                { r0.s with
                  rs := { r0.s.rs with StorageRadius := sub8 v.Radius 1 }
                  backend := r0.s.backend.putReserveState
                    { r0.s.rs with StorageRadius := sub8 v.Radius 1 } }
              else r0.s
            cbState := c1
            entries := r0.entries ++ [key]
            called := r0.called ++ [(v, .ok false)]
            err := r0.err }
        refine ⟨(v, .ok false) :: L, ?_, ?_, ?_, ?_, ?_, ?_⟩
        · rw [h1]
          simp
        · rw [h2]
          simp [Except.isOk, Except.toBool]
        · simp [h3]
        · intro x hx
          by_cases hL : L = []
          · subst hL
            simp at hx
          · rw [List.dropLast_cons_of_ne_nil hL] at hx
            rcases List.mem_cons.mp hx with rfl | hx
            · rfl
            · exact h4 x hx
        · simp
          omega
        · rw [h6]
          split <;> rfl

/-- Deleting a list of queue keys leaves the entries under the other keys. -/
theorem foldl_deleteQueue (ks : List Nat) :
    ∀ st : StateStorer, (ks.foldl (fun st k => st.deleteQueue k) st).queue
      = st.queue.filter (fun x => x.1 ∉ ks) := by
  induction ks with
  | nil =>
    intro st
    simp
  | cons k rest ih =>
    intro st
    simp only [List.foldl_cons]
    rw [ih]
    simp only [StateStorer.deleteQueue, List.filter_filter]
    apply List.filter_congr
    intro x _
    by_cases h1 : x.1 ∈ rest <;> by_cases h2 : x.1 = k <;> simp [h1, h2]

/-- In a queue whose keys are distinct, removing the keys of a prefix leaves the rest. -/
theorem filter_not_mem_take (q : List (Nat × UnreserveItem))
    (hnd : (q.map (fun e => e.1)).Nodup) (k : Nat) :
    q.filter (fun x => x.1 ∉ (q.take k).map (fun e => e.1)) = q.drop k := by
  induction q generalizing k with
  | nil => simp
  | cons a t ih =>
    cases k with
    | zero => simp
    | succ k =>
      rw [List.map_cons, List.nodup_cons] at hnd
      simp only [List.take_succ_cons, List.map_cons, List.drop_succ_cons]
      rw [List.filter_cons]
      simp only [List.mem_cons, true_or, not_true_eq_false, decide_False]
      rw [← ih hnd.2 k]
      apply List.filter_congr
      intro x hx
      have hne : x.1 ≠ a.1 := by
        intro heq
        apply hnd.1
        rw [← heq]
        exact List.mem_map_of_mem _ hx
      simp [hne]

/-- C12: for every queue content (with distinct keys) and every callback `cb`, after
`Unreserve(cb)` returns: `cb` was invoked on a prefix of the queue, in order; only its last
invocation stopped or returned an error; and the queue holds exactly the entries after the
invocations that returned without error, so every entry for which `cb` returned without
error (the one with `stop = true` included) is deleted, the deleted entries are a prefix of
the queue, and an entry for which `cb` returned an error stays. -/
theorem C12_unreserve_deletes_processed {σ ε : Type} (cb : σ → Bytes → Nat → σ × Except ε Bool)
    (s : store) (c : σ) (hnd : (s.backend.queue.map (fun e => e.1)).Nodup) :
    (s.Unreserve cb c).called.map (fun x => x.1)
        = (s.backend.queue.take (s.Unreserve cb c).called.length).map (fun e => e.2) ∧
      (∀ x ∈ (s.Unreserve cb c).called.dropLast, x.2 = .ok false) ∧
      (s.Unreserve cb c).s.backend.queue = s.backend.queue.drop
        ((s.Unreserve cb c).called.filter (fun x => x.2.isOk)).length := by
  obtain ⟨L, h1, h2, h3, h4, _, h6⟩ := UnreserveIterate_log cb s.backend.queue
    { s := s, cbState := c, entries := [], called := [], err := none }
  simp only [List.nil_append] at h1 h2
  simp only [store.Unreserve, h1]
  refine ⟨h3, h4, ?_⟩
  rw [foldl_deleteQueue, h6, h2]
  exact filter_not_mem_take _ hnd _

/-- C12 at scenario 6 with a callback that fails on the third item: the first two entries are
deleted, the third and the two after it stay. -/
theorem C12_unreserve_deletes_processed_witness :
    (storeScenario6.backend.queue.map (fun e => e.1)).Nodup ∧
      (storeScenario6.Unreserve cbFailOnThird 0).s.backend.queue
        = storeScenario6.backend.queue.drop 2 ∧
      (storeScenario6.Unreserve cbFailOnThird 0).s.backend.queue.map (fun e => e.1) = [3, 4, 5] := by
  have h := C12_unreserve_deletes_processed cbFailOnThird storeScenario6 0 (by decide)
  refine ⟨by decide, ?_, ?_⟩
  · rw [h.2.2]
    decide
  · rw [h.2.2]
    decide

/-- With a callback that never stops and never fails, iterating a queue in two parts is
iterating it whole. -/
theorem UnreserveIterate_append {σ ε : Type} (cb : σ → Bytes → Nat → σ × Except ε Bool)
    (hcont : ∀ c id r, (cb c id r).2 = .ok false) (q1 q2 : List (Nat × UnreserveItem)) :
    ∀ r0 : UnreserveRun σ ε, store.UnreserveIterate cb (q1 ++ q2) r0
      = store.UnreserveIterate cb q2 (store.UnreserveIterate cb q1 r0) := by
  induction q1 with
  | nil =>
    intro r0
    rfl
  | cons kv rest ih =>
    intro r0
    obtain ⟨key, v⟩ := kv
    have h := hcont r0.cbState v.BatchID v.Radius
    simp only [List.cons_append, store.UnreserveIterate]
    split
    · rename_i c1 e hcb
      rw [hcb] at h
      exact absurd h (by simp)
    · rename_i c1 stop hcb
      rw [hcb] at h
      simp only [Except.ok.injEq] at h
      subst h
      simp only [Bool.false_eq_true, if_false]
      exact ih _

/-- A fold of `max` does not go below its start. -/
theorem le_foldl_max (l : List Nat) : ∀ a : Nat, a ≤ l.foldl max a := by
  induction l with
  | nil =>
    intro a
    exact Nat.le_refl a
  | cons x t ih =>
    intro a
    exact Nat.le_trans (Nat.le_max_left a x) (ih (max a x))

/-- With a callback that never stops and never fails, a drain from a StorageRadius of at
most 254 ends at the maximum of the start and of the radii minus one. -/
theorem UnreserveIterate_storageRadius {σ ε : Type} (cb : σ → Bytes → Nat → σ × Except ε Bool)
    (hcont : ∀ c id r, (cb c id r).2 = .ok false) (q : List (Nat × UnreserveItem)) :
    ∀ r0 : UnreserveRun σ ε, r0.s.rs.StorageRadius ≤ 254 → (∀ e ∈ q, e.2.Radius < 256) →
      (store.UnreserveIterate cb q r0).s.rs.StorageRadius
        = (q.map (fun e => e.2.Radius - 1)).foldl max r0.s.rs.StorageRadius := by
  induction q with
  | nil =>
    intro r0 _ _
    rfl
  | cons kv rest ih =>
    intro r0 h0 hr
    obtain ⟨key, v⟩ := kv
    have h := hcont r0.cbState v.BatchID v.Radius
    have hv : v.Radius < 256 := hr (key, v) (List.mem_cons_self _ _)
    simp only [store.UnreserveIterate]
    split
    · rename_i c1 e hcb
      rw [hcb] at h
      exact absurd h (by simp)
    · rename_i c1 stop hcb
      rw [hcb] at h
      simp only [Except.ok.injEq] at h
      subst h
      simp only [Bool.false_eq_true, if_false, List.map_cons, List.foldl_cons]
      rw [ih _ ?_ (fun e he => hr e (List.mem_cons_of_mem _ he))]
      · congr 1
        split
        · simp only [sub8]
          omega
        · dsimp only
          omega
      · split
        · simp only [sub8]
          omega
        · exact h0

/-- With a callback that never stops and never fails, the callback is invoked on every entry
of the queue, in order. -/
theorem UnreserveIterate_called {σ ε : Type} (cb : σ → Bytes → Nat → σ × Except ε Bool)
    (hcont : ∀ c id r, (cb c id r).2 = .ok false) (q : List (Nat × UnreserveItem)) :
    ∀ r0 : UnreserveRun σ ε, (store.UnreserveIterate cb q r0).called
      = r0.called ++ q.map (fun e => (e.2, .ok false)) := by
  induction q with
  | nil =>
    intro r0
    simp [store.UnreserveIterate]
  | cons kv rest ih =>
    intro r0
    obtain ⟨key, v⟩ := kv
    have h := hcont r0.cbState v.BatchID v.Radius
    simp only [store.UnreserveIterate]
    split
    · rename_i c1 e hcb
      rw [hcb] at h
      exact absurd h (by simp)
    · rename_i c1 stop hcb
      rw [hcb] at h
      simp only [Except.ok.injEq] at h
      subst h
      simp only [Bool.false_eq_true, if_false]
      rw [ih]
      simp

/-- A sequence of `unreserve` calls appends its items to the queue, in call order. -/
theorem foldl_unreserve_queue (items : List (Bytes × Nat)) :
    ∀ s : store, (∀ x ∈ s.backend.queue, x.1 ≤ s.queueIdx) →
      s.queueIdx + items.length < 18446744073709551616 →
      ((items.foldl (fun s i => s.unreserve i.1 i.2) s).backend.queue).map (fun e => e.2)
        = s.backend.queue.map (fun e => e.2)
          ++ items.map (fun i => { BatchID := i.1, Radius := i.2 }) := by
  induction items with
  | nil =>
    intro s _ _
    simp
  | cons i rest ih =>
    intro s hq hidx
    simp only [List.length_cons] at hidx
    have hmod : (s.queueIdx + 1) % 18446744073709551616 = s.queueIdx + 1 :=
      Nat.mod_eq_of_lt (by omega)
    have hqueue : (s.unreserve i.1 i.2).backend.queue
        = s.backend.queue ++ [(s.queueIdx + 1, { BatchID := i.1, Radius := i.2 })] := by
      simp only [store.unreserve, hmod]
      show (s.backend.putQueue (s.queueIdx + 1) { BatchID := i.1, Radius := i.2 }).queue = _
      apply putQueue_append
      intro x hx
      have := hq x hx
      omega
    have hidx1 : (s.unreserve i.1 i.2).queueIdx = s.queueIdx + 1 := by
      simp only [store.unreserve, hmod]
    simp only [List.foldl_cons]
    rw [ih (s.unreserve i.1 i.2) ?_ ?_, hqueue]
    · simp
    · intro x hx
      rw [hqueue] at hx
      rw [hidx1]
      rcases List.mem_append.mp hx with hx | hx
      · have := hq x hx
        omega
      · simp only [List.mem_singleton] at hx
        subst hx
        exact Nat.le_refl _
    · rw [hidx1]
      omega

/-- C11: the unreserve queue is FIFO. For all sequence numbers `c1 < c2` (of `uint64`) the key
written by `unreserve` for `c1` is lexicographically smaller than the key written for `c2`;
and after a sequence of `unreserve` calls on a store whose queue holds sequence numbers up to
`queueIdx`, `Unreserve`, iterating the queue in key order with a callback that never stops or
fails, invokes the callback on the items already queued and then on the new items in the order
in which they were enqueued. -/
theorem C11_queue_fifo {σ ε : Type} (cb : σ → Bytes → Nat → σ × Except ε Bool) (s : store) (c : σ)
    (items : List (Bytes × Nat)) (c1 c2 : Nat)
    (h12 : c1 < c2) (h2 : c2 < 18446744073709551616)
    (hq : ∀ x ∈ s.backend.queue, x.1 ≤ s.queueIdx)
    (hidx : s.queueIdx + items.length < 18446744073709551616)
    (hcont : ∀ c id r, (cb c id r).2 = .ok false) :
    bytesLt (queueKey c1) (queueKey c2) = true ∧ bytesLt (queueKey c2) (queueKey c1) = false ∧
      (((items.foldl (fun s i => s.unreserve i.1 i.2) s).Unreserve cb c).called).map (fun x => x.1)
        = s.backend.queue.map (fun e => e.2)
          ++ items.map (fun i => { BatchID := i.1, Radius := i.2 }) := by
  refine ⟨?_, ?_, ?_⟩
  · rw [bytesLt_queueKey c1 c2 (by omega) h2]
    simpa using h12
  · rw [bytesLt_queueKey c2 c1 h2 (by omega)]
    simp only [decide_eq_false_iff_not]
    omega
  · simp only [store.Unreserve]
    rw [UnreserveIterate_called cb hcont]
    simp only [List.nil_append, List.map_map]
    rw [← foldl_unreserve_queue items s hq hidx]
    rfl

/-- C11 at concrete inputs: the keys for 255 and 256 are in order, and the five items of
scenario 6 reach the callback in the order of their enqueueing. -/
theorem C11_queue_fifo_witness :
    bytesLt (queueKey 255) (queueKey 256) = true ∧
      ((storeScenario6.Unreserve cbContinue ()).called).map (fun x => x.1)
        = [{ BatchID := [1], Radius := 3 }, { BatchID := [2], Radius := 5 },
           { BatchID := [3], Radius := 4 }, { BatchID := [4], Radius := 6 },
           { BatchID := [5], Radius := 5 }] := by
  have h := C11_queue_fifo cbContinue (New StateStorer.empty) ()
    [([1], 3), ([2], 5), ([3], 4), ([4], 6), ([5], 5)] 255 256 (by decide) (by decide)
    (by decide) (by decide) (fun _ _ _ => rfl)
  exact ⟨h.1, h.2.2⟩

/-- C13: for every initial StorageRadius `s0 ≤ 254` and every queue of items with radii
`r1..rn` (of `uint8`), if `Unreserve` drains the whole queue (`cb` never errs or stops), the
final StorageRadius is the maximum of `s0` and the `ri − 1`, and StorageRadius never
decreases during the drain: after any first part of the queue it is at least `s0` and at most
the final value. -/
theorem C13_storage_radius_drain {σ ε : Type} (cb : σ → Bytes → Nat → σ × Except ε Bool)
    (s : store) (c : σ)
    (hs0 : s.rs.StorageRadius ≤ 254) (hr : ∀ e ∈ s.backend.queue, e.2.Radius < 256)
    (hcont : ∀ c id r, (cb c id r).2 = .ok false) :
    (s.Unreserve cb c).s.rs.StorageRadius
        = (s.backend.queue.map (fun e => e.2.Radius - 1)).foldl max s.rs.StorageRadius ∧
      ∀ q1 q2, s.backend.queue = q1 ++ q2 →
        s.rs.StorageRadius ≤ (store.UnreserveIterate cb q1
            { s := s, cbState := c, entries := [], called := [], err := none }).s.rs.StorageRadius ∧
          (store.UnreserveIterate cb q1
            { s := s, cbState := c, entries := [], called := [], err := none }).s.rs.StorageRadius
            ≤ (s.Unreserve cb c).s.rs.StorageRadius := by
  have hfinal : (s.Unreserve cb c).s.rs.StorageRadius
      = (s.backend.queue.map (fun e => e.2.Radius - 1)).foldl max s.rs.StorageRadius :=
    UnreserveIterate_storageRadius cb hcont s.backend.queue
      { s := s, cbState := c, entries := [], called := [], err := none } hs0 hr
  refine ⟨hfinal, ?_⟩
  intro q1 q2 hsplit
  have h1 := UnreserveIterate_storageRadius cb hcont q1
    { s := s, cbState := c, entries := [], called := [], err := none } hs0
    (fun e he => hr e (by rw [hsplit]; exact List.mem_append_left _ he))
  rw [hfinal, h1, hsplit, List.map_append, List.foldl_append]
  exact ⟨le_foldl_max _ _, le_foldl_max _ _⟩

/-- C13 at scenario 6: the radii 3, 5, 4, 6, 5 from `StorageRadius = 0` end at 5. -/
theorem C13_storage_radius_drain_witness :
    storeScenario6.rs.StorageRadius = 0 ∧
      storeScenario6.backend.queue.map (fun e => e.2.Radius) = [3, 5, 4, 6, 5] ∧
      (storeScenario6.Unreserve cbContinue ()).s.rs.StorageRadius = 5 := by
  have h := C13_storage_radius_drain cbContinue storeScenario6 () (by decide) (by decide)
    (fun _ _ _ => rfl)
  refine ⟨rfl, by decide, ?_⟩
  rw [h.1]
  decide

/-! ## Tiers and radius -/

/-- The tier of a value does not go down when the value goes up. -/
theorem tier_mono (rs : reserveState) (vb va : Nat) (h : vb ≤ va) :
    (rs.tier vb).toNat ≤ (rs.tier va).toNat := by
  unfold reserveState.tier
  by_cases h0 : rs.Inner = 0
  · simp [h0, tier.toNat]
  · by_cases h1 : va < rs.Inner
    · have h2 : vb < rs.Inner := by omega
      simp [h1, h2, tier.toNat]
    · by_cases h2 : vb < rs.Inner
      · simp [h0, h1, h2, tier.toNat]
      · by_cases h3 : va < rs.Outer
        · have h4 : vb < rs.Outer := by omega
          simp [h0, h1, h2, h3, h4, tier.toNat]
        · by_cases h4 : vb < rs.Outer
          · simp [h0, h1, h2, h3, h4, tier.toNat]
          · simp [h0, h1, h2, h3, h4, tier.toNat]

/-- C14: reserve priority is monotone in value: for every reserve state and all values
`vb ≤ va`, `tier(vb) ≤ tier(va)` in the order unreserved < inner < outer; in particular, if
a batch of value `va` is unreserved, so is every batch of smaller value. -/
theorem C14_tier_monotone (rs : reserveState) (vb va : Nat) (h : vb ≤ va) :
    (rs.tier vb).toNat ≤ (rs.tier va).toNat ∧
      (rs.tier va = tier.unreserved → rs.tier vb = tier.unreserved) := by
  have hm := tier_mono rs vb va h
  refine ⟨hm, fun hva => ?_⟩
  rw [hva] at hm
  cases htb : rs.tier vb <;> simp [htb, tier.toNat] at hm ⊢

/-- C14 at a concrete reserve state: with `Inner = Outer = 100`, value 50 is unreserved and
value 150 is in the outer tier. -/
theorem C14_tier_monotone_witness :
    storeCaughtUp.rs.tier 50 = tier.unreserved ∧ storeCaughtUp.rs.tier 150 = tier.outer ∧
      (storeCaughtUp.rs.tier 50).toNat ≤ (storeCaughtUp.rs.tier 150).toNat :=
  ⟨rfl, rfl, (C14_tier_monotone storeCaughtUp.rs 50 150 (by decide)).1⟩

/-- C15 (as stated) fails: with `StorageRadius = Radius = 12` and `Inner = Outer = 100`, `Get`
assigns radius 31 to the batch of value 50 and radius 11 to the batch of value 150. -/
theorem C15_get_radius_order_counterexample :
    ∃ ra rb, storeCaughtUp.Get [2] = .ok ra ∧ storeCaughtUp.Get [1] = .ok rb ∧
      rb.Value < ra.Value ∧ rb.Radius = 31 ∧ ra.Radius = 11 ∧ ¬ (rb.Radius ≤ ra.Radius) :=
  ⟨_, _, rfl, rfl, by decide, rfl, rfl, by decide⟩

/-- C15 (amended): for every reserve state and every two stored batches `a`, `b` with
`Value(b) < Value(a)`: when `StorageRadius < Radius`, `Get` assigns StorageRadius to both;
otherwise, with `1 ≤ Radius ≤ MaxPO`, the radius `Get` assigns to `b` is at least the radius
it assigns to `a`. -/
theorem C15_get_radius_order (s : store) (ida idb : Bytes) (ra rb : Batch)
    (ha : s.Get ida = .ok ra) (hb : s.Get idb = .ok rb) (hv : rb.Value < ra.Value) :
    (s.rs.StorageRadius < s.rs.Radius →
        rb.Radius = s.rs.StorageRadius ∧ ra.Radius = s.rs.StorageRadius) ∧
      (¬ s.rs.StorageRadius < s.rs.Radius → 1 ≤ s.rs.Radius → s.rs.Radius ≤ MaxPO →
        ra.Radius ≤ rb.Radius) := by
  unfold store.Get at ha hb
  split at ha
  · exact absurd ha (by simp)
  · rename_i a _
    split at hb
    · exact absurd hb (by simp)
    · rename_i b _
      by_cases hlt : s.rs.StorageRadius < s.rs.Radius
      · simp only [hlt, if_true, Except.ok.injEq] at ha hb
        subst ha hb
        exact ⟨fun _ => ⟨rfl, rfl⟩, fun hn => absurd hlt hn⟩
      · simp only [hlt, if_false, Except.ok.injEq] at ha hb
        subst ha hb
        refine ⟨fun hc => absurd hc hlt, fun _ h1 h31 => ?_⟩
        simp only at hv
        show s.rs.radius (s.rs.tier a.Value) ≤ s.rs.radius (s.rs.tier b.Value)
        have hmono := (tier_mono s.rs b.Value a.Value (Nat.le_of_lt hv))
        simp only [MaxPO] at h31
        cases hta : s.rs.tier a.Value <;> cases htb : s.rs.tier b.Value <;>
          simp only [hta, htb, tier.toNat, reserveState.radius, sub8, MaxPO] at hmono ⊢ <;> omega

/-- C15 (amended) at a concrete store: with `StorageRadius = Radius = 12`, the batch of value
150 gets radius 11 and the batch of value 50 gets radius 31. -/
theorem C15_get_radius_order_witness :
    ∃ ra rb, storeCaughtUp.Get [2] = .ok ra ∧ storeCaughtUp.Get [1] = .ok rb ∧
      rb.Value < ra.Value ∧ ra.Radius ≤ rb.Radius :=
  ⟨_, _, rfl, rfl, by decide,
    (C15_get_radius_order storeCaughtUp [2] [1] _ _ rfl rfl (by decide)).2
      (by decide) (by decide) (by decide)⟩

/-! ## Reset -/

/-- Deleting the records of a list of ids leaves the records of the other ids, and nothing
else changes. -/
theorem foldl_deleteBatch (l : List Batch) :
    ∀ st : StateStorer, l.foldl (fun st b => st.deleteBatch b.ID) st
      = { st with batches := st.batches.filter (fun x => x.ID ∉ l.map (fun b => b.ID)) } := by
  induction l with
  | nil =>
    intro st
    simp
  | cons b rest ih =>
    intro st
    simp only [List.foldl_cons]
    rw [ih]
    simp only [StateStorer.deleteBatch, List.filter_filter, List.map_cons]
    congr 1
    apply List.filter_congr
    intro x _
    by_cases h1 : x.ID ∈ rest.map (fun b => b.ID) <;> by_cases h2 : x.ID = b.ID <;>
      simp [h1, h2]

/-- Deleting a list of value keys leaves the other keys, and nothing else changes. -/
theorem foldl_deleteValue (l : List (Nat × Bytes)) :
    ∀ st : StateStorer, l.foldl (fun st k => st.deleteValue k) st
      = { st with values := st.values.filter (fun x => x ∉ l) } := by
  induction l with
  | nil =>
    intro st
    simp
  | cons k rest ih =>
    intro st
    simp only [List.foldl_cons]
    rw [ih]
    simp only [StateStorer.deleteValue, List.filter_filter]
    congr 1
    apply List.filter_congr
    intro x _
    by_cases h1 : x ∈ rest <;> by_cases h2 : x = k <;> simp [h1, h2]

/-- Deleting the queue entries of a list of entries leaves the entries under other keys, and
nothing else changes. -/
theorem foldl_deleteQueue_entries (l : List (Nat × UnreserveItem)) :
    ∀ st : StateStorer, l.foldl (fun st e => st.deleteQueue e.1) st
      = { st with queue := st.queue.filter (fun x => x.1 ∉ l.map (fun e => e.1)) } := by
  induction l with
  | nil =>
    intro st
    simp
  | cons e rest ih =>
    intro st
    simp only [List.foldl_cons]
    rw [ih]
    simp only [StateStorer.deleteQueue, List.filter_filter, List.map_cons]
    congr 1
    apply List.filter_congr
    intro x _
    by_cases h1 : x.1 ∈ rest.map (fun e => e.1) <;> by_cases h2 : x.1 = e.1 <;> simp [h1, h2]

/-- C16: after `Reset`, no key with the prefix `batchstore_` remains in the backend, the
chain state is `{Block 0, TotalAmount 0, CurrentPrice 0}` and the reserve state is
`{Radius = DefaultDepth = 12, StorageRadius = 0, Inner = 0, Outer = 0,
Available = Capacity = 2^22 = 4194304}`. -/
theorem C16_reset (s : store) :
    s.Reset.backend = StateStorer.empty ∧
      s.Reset.cs = { Block := 0, TotalAmount := 0, CurrentPrice := 0 } ∧
      s.Reset.rs = { Radius := 12, StorageRadius := 0, Available := 4194304, Outer := 0, Inner := 0 } ∧
      DefaultDepth = 12 ∧ Capacity = 2 ^ 22 ∧ Capacity = 4194304 := by
  refine ⟨?_, rfl, rfl, rfl, by decide, by decide⟩
  simp only [store.Reset, foldl_deleteBatch, foldl_deleteValue, foldl_deleteQueue_entries,
    StateStorer.deleteChainState, StateStorer.deleteQueueCardinality,
    StateStorer.deleteReserveState, StateStorer.empty]
  congr 1
  · apply List.filter_eq_nil_iff.mpr
    intro x hx
    simp only [decide_eq_true_eq, not_not]
    exact List.mem_map_of_mem _ hx
  · apply List.filter_eq_nil_iff.mpr
    intro x hx
    simpa using hx
  · apply List.filter_eq_nil_iff.mpr
    intro x hx
    simp only [decide_eq_true_eq, not_not]
    exact List.mem_map_of_mem _ hx

/-- Appending to two byte strings of the same length keeps a strict order between them. -/
theorem bytesLt_append_of_lt : ∀ (u v x y : Bytes), u.length = v.length →
    bytesLt u v = true → bytesLt (u ++ x) (v ++ y) = true
  | [], [], _, _, _, h => by simp [bytesLt] at h
  | [], _ :: _, _, _, hl, _ => by simp at hl
  | _ :: _, [], _, _, hl, _ => by simp at hl
  | a :: u, b :: v, x, y, hl, h => by
    simp only [List.length_cons, Nat.add_right_cancel_iff] at hl
    simp only [bytesLt, Bool.or_eq_true, decide_eq_true_eq, Bool.and_eq_true, beq_iff_eq] at h
    show bytesLt (a :: (u ++ x)) (b :: (v ++ y)) = true
    simp only [bytesLt, Bool.or_eq_true, decide_eq_true_eq, Bool.and_eq_true, beq_iff_eq]
    rcases h with h | ⟨h1, h2⟩
    · exact Or.inl h
    · exact Or.inr ⟨h1, bytesLt_append_of_lt u v x y hl h2⟩

/-- The lexicographic order is asymmetric. -/
theorem bytesLt_asymm : ∀ (s t : Bytes), bytesLt s t = true → bytesLt t s = false
  | [], [], h => by simp [bytesLt] at h
  | [], _ :: _, _ => by simp [bytesLt]
  | _ :: _, [], h => by simp [bytesLt] at h
  | a :: s, b :: t, h => by
    simp only [bytesLt, Bool.or_eq_true, decide_eq_true_eq, Bool.and_eq_true, beq_iff_eq] at h
    simp only [bytesLt, Bool.or_eq_false_iff, decide_eq_false_iff_not, Bool.and_eq_false_imp,
      beq_iff_eq]
    rcases h with h | ⟨h1, h2⟩
    · exact ⟨by omega, fun hh => by omega⟩
    · exact ⟨by omega, fun _ => bytesLt_asymm s t h2⟩

/-- The big-endian encoding on `n` bytes has `n` bytes. -/
theorem length_beBytes (n c : Nat) : (beBytes n c).length = n := by
  induction n with
  | zero => rfl
  | succ n ih => simp [beBytes, ih]

/-- The byte-level value key orders like the typed key `(value, id)` of the backend model. -/
theorem bytesLt_valueKeyBytes (a b : Nat) (x y : Bytes) (ha : a < 2 ^ 256) (hb : b < 2 ^ 256) :
    ∃ ka kb, valueKeyBytes a x = some ka ∧ valueKeyBytes b y = some kb ∧
      bytesLt ka kb = keyLt (valueKey a x) (valueKey b y) := by
  refine ⟨_, _, if_pos ha, if_pos hb, ?_⟩
  rw [List.append_assoc, List.append_assoc, bytesLt_append_left]
  have e : (256 : Nat) ^ 32 = 2 ^ 256 := by norm_num
  have hbe := bytesLt_beBytes 32 a b
  rw [e, Nat.mod_eq_of_lt ha, Nat.mod_eq_of_lt hb] at hbe
  simp only [keyLt, valueKey]
  rcases Nat.lt_trichotomy a b with h | h | h
  · rw [bytesLt_append_of_lt _ _ x y (by simp [length_beBytes]) (by rw [hbe]; simp [h])]
    simp [h]
  · subst h
    rw [bytesLt_append_left]
    simp
  · have hlt : bytesLt (beBytes 32 b ++ y) (beBytes 32 a ++ x) = true :=
      bytesLt_append_of_lt _ _ y x (by simp [length_beBytes])
        (by rw [bytesLt_beBytes, e, Nat.mod_eq_of_lt ha, Nat.mod_eq_of_lt hb]; simp [h])
    rw [bytesLt_asymm _ _ hlt]
    have h1 : ¬ a < b := by omega
    have h2 : ¬ a = b := by omega
    simp [h1, h2]

/-- C30: for every reserve state and value `v`, `tier v` is `unreserved` exactly when
`Inner = 0` or `v < Inner`; otherwise it is `inner` exactly when `v < Outer`, and `outer`
exactly when `Outer ≤ v`. -/
theorem C30_tier_definition (rs : reserveState) (v : Nat) :
    (rs.tier v = Batchstore.tier.unreserved ↔ (rs.Inner = 0 ∨ v < rs.Inner)) ∧
    (rs.tier v = Batchstore.tier.inner ↔ (¬ (rs.Inner = 0 ∨ v < rs.Inner) ∧ v < rs.Outer)) ∧
    (rs.tier v = Batchstore.tier.outer ↔ (¬ (rs.Inner = 0 ∨ v < rs.Inner) ∧ ¬ v < rs.Outer)) := by
  unfold reserveState.tier
  by_cases h1 : v < rs.Inner ∨ rs.Inner = 0
  · have h1c : rs.Inner = 0 ∨ v < rs.Inner := h1.symm
    simp [h1, h1c]
  · have h1c : ¬ (rs.Inner = 0 ∨ v < rs.Inner) := fun h => h1 h.symm
    by_cases h2 : v < rs.Outer
    · simp [h1, h1c, h2]
    · simp [h1, h1c, h2]

/-- C28: for every unreserve item with a 32-byte batch id, `MarshalBinary` yields exactly 33
bytes, the batch id followed by the radius byte, and `UnmarshalBinary` of that output yields
the item again; `UnmarshalBinary` fails exactly when its input does not have 33 bytes. -/
theorem C28_unreserve_item_round_trip (u : UnreserveItem) (h : u.BatchID.length = 32) :
    u.MarshalBinary.length = 33 ∧
    u.MarshalBinary = u.BatchID ++ [u.Radius] ∧
    UnreserveItem.UnmarshalBinary u.MarshalBinary = some u ∧
    ∀ b : Bytes, UnreserveItem.UnmarshalBinary b = none ↔ b.length ≠ 33 := by
  have hm : u.MarshalBinary = u.BatchID ++ [u.Radius] := by
    unfold UnreserveItem.MarshalBinary
    have ht : (u.BatchID ++ List.replicate 33 0).take 33 = u.BatchID ++ [0] := by
      rw [List.take_append_eq_append_take, List.take_of_length_le (by omega), h]
      rfl
    rw [ht, List.set_append, h]
    simp
  have hu : ∀ b : Bytes, UnreserveItem.UnmarshalBinary b = none ↔ b.length ≠ 33 := by
    intro b
    unfold UnreserveItem.UnmarshalBinary
    by_cases hb : b.length = 33 <;> simp [hb]
  refine ⟨by rw [hm]; simp [h], hm, ?_, hu⟩
  rw [hm]
  unfold UnreserveItem.UnmarshalBinary
  have hl : (u.BatchID ++ [u.Radius]).length = 33 := by simp [h]
  rw [if_neg (by simp [hl])]
  have h1 : (u.BatchID ++ [u.Radius]).take 32 = u.BatchID := by
    rw [List.take_append_eq_append_take, List.take_of_length_le (by omega), h]
    simp
  have h2 : (u.BatchID ++ [u.Radius]).getD 32 0 = u.Radius := by
    rw [List.getD_append_right _ _ _ _ (by omega), h]
    rfl
  rw [h1, h2]

/-- C28 at the item with batch id `0, 1, …, 31` and radius 7. -/
theorem C28_unreserve_item_round_trip_witness :
    itemSample.BatchID.length = 32 ∧
    itemSample.MarshalBinary = List.range 32 ++ [7] ∧
    UnreserveItem.UnmarshalBinary itemSample.MarshalBinary = some itemSample :=
  ⟨by decide, (C28_unreserve_item_round_trip itemSample (by decide)).2.1,
    (C28_unreserve_item_round_trip itemSample (by decide)).2.2.1⟩

/-- C29: for all values `a < b < 2^256`, every 32-byte id `x` and every id `y`, the value key
of `(a, x)` is lexicographically smaller than the value key of `(b, y)`, and `valueKeyToID`
gives `x` back from the value key of `(a, x)`. -/
theorem C29_value_key_order (a b : Nat) (x y : Bytes) (hab : a < b) (hb : b < 2 ^ 256)
    (hx : x.length = 32) :
    ∃ ka kb, valueKeyBytes a x = some ka ∧ valueKeyBytes b y = some kb ∧
      bytesLt ka kb = true ∧ valueKeyToIDBytes ka = some x := by
  have ha : a < 2 ^ 256 := Nat.lt_trans hab hb
  refine ⟨_, _, if_pos ha, if_pos hb, ?_, ?_⟩
  · rw [List.append_assoc, List.append_assoc, bytesLt_append_left]
    have e : (256 : Nat) ^ 32 = 2 ^ 256 := by norm_num
    refine bytesLt_append_of_lt _ _ x y (by simp [length_beBytes]) ?_
    rw [bytesLt_beBytes, e, Nat.mod_eq_of_lt ha, Nat.mod_eq_of_lt hb]
    simp [hab]
  · unfold valueKeyToIDBytes
    have hl : ( valueKeyPrefix ++ beBytes 32 a ++ x).length
        = ( valueKeyPrefix ++ beBytes 32 a).length + 32 := by
      rw [List.length_append, hx]
    rw [if_neg (by omega), hl, Nat.add_sub_cancel, List.drop_left]

/-- C29 at the values 1 and 2 with the ids `0, 1, …, 31` and `[9]`. -/
theorem C29_value_key_order_witness :
    ((1 : Nat) < 2 ∧ (2 : Nat) < 2 ^ 256 ∧ (List.range 32).length = 32) ∧
    ∃ ka kb, valueKeyBytes 1 (List.range 32) = some ka ∧ valueKeyBytes 2 [9] = some kb ∧
      bytesLt ka kb = true ∧ valueKeyToIDBytes ka = some (List.range 32) :=
  ⟨⟨by decide, by norm_num, by decide⟩,
    C29_value_key_order 1 2 (List.range 32) [9] (by decide) (by norm_num) (by decide)⟩

/-! ## Sizes and limits -/

/-- C31: for every Radius and depth (of `uint8`) with `Radius < depth ≤ Radius + 62`,
`size(depth, inner) = 2^(depth − Radius − 1)`, `size(depth, outer) = 2 × 2^(depth − Radius − 1)`
and `size(depth, unreserved) = 0`. -/
theorem C31_size_values (rs : reserveState) (depth : Nat) (hd : depth < 256)
    (h1 : rs.Radius < depth) (h2 : depth ≤ rs.Radius + 62) :
    rs.size depth tier.inner = 2 ^ (depth - rs.Radius - 1) ∧
    rs.size depth tier.outer = 2 * 2 ^ (depth - rs.Radius - 1) ∧
    rs.size depth tier.unreserved = 0 := by
  have he : sub8 (sub8 depth rs.Radius) 1 = depth - rs.Radius - 1 := by
    unfold sub8
    omega
  have hlt : depth - rs.Radius - 1 < 63 := by omega
  have hpow : (2 : Int) ^ (depth - rs.Radius - 1) ≤ 2 ^ 61 :=
    pow_le_pow_right₀ (by norm_num) (by omega)
  have hpos : (0 : Int) < 2 ^ (depth - rs.Radius - 1) := by positivity
  simp only [reserveState.size, he, exp2, if_pos hlt]
  refine ⟨trivial, ?_, trivial⟩
  apply wrapInt64_id
  · omega
  · norm_num at hpow
    omega

/-- C31 at Radius 12 and depth 14: the sizes are 2, 4 and 0. -/
theorem C31_size_values_witness :
    ((14 : Nat) < 256 ∧ (New StateStorer.empty).rs.Radius < 14 ∧
      14 ≤ (New StateStorer.empty).rs.Radius + 62) ∧
    (New StateStorer.empty).rs.size 14 tier.inner = 2 ∧
    (New StateStorer.empty).rs.size 14 tier.outer = 4 ∧
    (New StateStorer.empty).rs.size 14 tier.unreserved = 0 :=
  ⟨⟨by decide, by decide, by decide⟩,
    C31_size_values (New StateStorer.empty).rs 14 (by decide) (by decide) (by decide)⟩

/-- C32: `setLimits(v, t)` returns `t` and leaves the reserve state unchanged whenever
`t ≠ unreserved`; when `t = unreserved` and (`Inner = 0` or `v < Inner`) it sets Inner to `v`
and, exactly when `Outer = Inner` held before the call, also sets Outer to `v` and returns
`outer`, and otherwise returns `inner` with Outer unchanged. -/
theorem C32_setLimits (rs : reserveState) (v : Nat) (t : tier) :
    (t ≠ tier.unreserved → rs.setLimits v t = (t, rs)) ∧
    (t = tier.unreserved → (rs.Inner = 0 ∨ v < rs.Inner) →
      (rs.setLimits v t).2.Inner = v ∧
      ((rs.setLimits v t).1 = tier.outer ↔ rs.Outer = rs.Inner) ∧
      (rs.Outer = rs.Inner → (rs.setLimits v t).2.Outer = v) ∧
      (rs.Outer ≠ rs.Inner →
        (rs.setLimits v t).1 = tier.inner ∧ (rs.setLimits v t).2.Outer = rs.Outer) ∧
      (rs.setLimits v t).2.Radius = rs.Radius ∧
      (rs.setLimits v t).2.StorageRadius = rs.StorageRadius ∧
      (rs.setLimits v t).2.Available = rs.Available) := by
  constructor
  · intro ht
    simp [reserveState.setLimits, ht]
  · intro ht hc
    subst ht
    have hc2 : rs.Inner = 0 ∨ rs.Inner > v := hc
    by_cases ho : rs.Outer = rs.Inner
    · simp [reserveState.setLimits, hc2, ho]
    · simp [reserveState.setLimits, hc2, ho]

/-- C32 at the initial reserve state and the value 10: Inner and Outer become 10 and the tier
returned is `outer`. -/
theorem C32_setLimits_witness :
    ((New StateStorer.empty).rs.setLimits 10 tier.unreserved).2.Inner = 10 ∧
    ((New StateStorer.empty).rs.setLimits 10 tier.unreserved).1 = tier.outer ∧
    ((New StateStorer.empty).rs.setLimits 10 tier.unreserved).2.Outer = 10 :=
  ⟨((C32_setLimits (New StateStorer.empty).rs 10 tier.unreserved).2 rfl (Or.inl rfl)).1,
    ((C32_setLimits (New StateStorer.empty).rs 10 tier.unreserved).2 rfl (Or.inl rfl)).2.1.2 rfl,
    ((C32_setLimits (New StateStorer.empty).rs 10 tier.unreserved).2 rfl (Or.inl rfl)).2.2.1 rfl⟩

/-- C35: for every reserve state and every new value `v`, the tier `setLimits(v, tier(v))`
that `change` charges for the new value is `inner` or `outer`, never `unreserved`; so the
radius returned by `change` is Radius or Radius − 1 (on `uint8`) and the capacity change is
the old size minus `size(newDepth, inner)` or minus `size(newDepth, outer)`. -/
theorem C35_new_tier_reserved (rs : reserveState) (oldv v oldDepth newDepth : Nat) :
    (rs.setLimits v (rs.tier v)).1 ≠ tier.unreserved ∧
    (((rs.setLimits v (rs.tier v)).1 = tier.inner ∧
        (rs.change oldv v oldDepth newDepth).2.1 = rs.Radius ∧
        (rs.change oldv v oldDepth newDepth).1
          = wrapInt64 (rs.size oldDepth (rs.tier oldv) - rs.size newDepth tier.inner)) ∨
      ((rs.setLimits v (rs.tier v)).1 = tier.outer ∧
        (rs.change oldv v oldDepth newDepth).2.1 = sub8 rs.Radius 1 ∧
        (rs.change oldv v oldDepth newDepth).1
          = wrapInt64 (rs.size oldDepth (rs.tier oldv) - rs.size newDepth tier.outer))) := by
  have hR := (setLimits_frame rs v (rs.tier v)).1
  have hs : ∀ d t, (rs.setLimits v (rs.tier v)).2.size d t = rs.size d t :=
    fun d t => size_congr _ _ hR d t
  have hr : ∀ t, (rs.setLimits v (rs.tier v)).2.radius t = rs.radius t :=
    fun t => radius_congr _ _ hR t
  have ht : (rs.setLimits v (rs.tier v)).1 = tier.inner ∨
      (rs.setLimits v (rs.tier v)).1 = tier.outer := by
    simp only [reserveState.setLimits, reserveState.tier]
    by_cases h0 : rs.Inner = 0
    · by_cases ho : rs.Outer = 0 <;> simp [h0, ho]
    · by_cases h1 : v < rs.Inner
      · by_cases ho : rs.Outer = rs.Inner <;> simp [h0, h1, ho]
      · by_cases h2 : v < rs.Outer <;> simp [h0, h1, h2]
  simp only [reserveState.change, hs, hr]
  rcases ht with ht | ht
  · exact ⟨by rw [ht]; decide, Or.inl ⟨ht, by rw [ht]; rfl, by rw [ht]⟩⟩
  · exact ⟨by rw [ht]; decide, Or.inr ⟨ht, by rw [ht]; rfl, by rw [ht]⟩⟩

/-- C37: a batch whose depth does not exceed the reserve radius is to occupy no reserve
capacity, yet at Radius 200 a batch of depth 8 has `size(8, inner) = −2^63`: `size` takes the
difference `8 − 200 − 1` on `uint8`, which is 63, while the amount `evictOuter` adds for the
same batch, with the difference taken on `uint`, is 0. -/
theorem C37_size_wraps_below_radius :
    (8 : Nat) ≤ reserveRadius200.Radius ∧
    reserveRadius200.size 8 tier.inner = -9223372036854775808 ∧
    exp2 (subU64 (subU64 8 reserveRadius200.Radius) 1) = 0 := by
  decide

/-- Where `size` is right below the radius: for every depth and Radius (of `uint8`) with
`depth ≤ Radius` and `Radius − depth ≤ 191`, `size(depth, tier) = 0` for every tier, and the
amount `evictOuter` adds to Available for such a batch, `exp2(uint(Depth) − uint(Radius) − 1)`,
is 0 and equals `size(Depth, inner)`; that amount is 0 whenever `depth ≤ Radius`. -/
theorem size_below_radius (rs : reserveState) (depth : Nat) (hR : rs.Radius < 256)
    (h : depth ≤ rs.Radius) :
    exp2 (subU64 (subU64 depth rs.Radius) 1) = 0 ∧
    (rs.Radius - depth ≤ 191 →
      (∀ t, rs.size depth t = 0) ∧
      exp2 (subU64 (subU64 depth rs.Radius) 1) = rs.size depth tier.inner) := by
  have h1 : ¬ subU64 (subU64 depth rs.Radius) 1 < 63 := by
    unfold subU64
    omega
  have h2 : ¬ subU64 (subU64 depth rs.Radius) 1 = 63 := by
    unfold subU64
    omega
  have hz : exp2 (subU64 (subU64 depth rs.Radius) 1) = 0 := by
    simp [exp2, h1, h2]
  refine ⟨hz, fun hk => ?_⟩
  have h3 : ¬ sub8 (sub8 depth rs.Radius) 1 < 63 := by
    unfold sub8
    omega
  have h4 : ¬ sub8 (sub8 depth rs.Radius) 1 = 63 := by
    unfold sub8
    omega
  have hs : ∀ t, rs.size depth t = 0 := by
    intro t
    cases t <;> simp [reserveState.size, exp2, h3, h4, wrapInt64]
  exact ⟨hs, by rw [hz, hs]⟩

/-- At the default Radius 12 a batch of depth 8 has size 0. -/
theorem size_below_radius_default :
    ((New StateStorer.empty).rs.Radius < 256 ∧ 8 ≤ (New StateStorer.empty).rs.Radius ∧
      (New StateStorer.empty).rs.Radius - 8 ≤ 191) ∧
    (∀ t, (New StateStorer.empty).rs.size 8 t = 0) ∧
    exp2 (subU64 (subU64 8 (New StateStorer.empty).rs.Radius) 1) = 0 :=
  ⟨⟨by decide, by decide, by decide⟩,
    ((size_below_radius (New StateStorer.empty).rs 8 (by decide) (by decide)).2
      (by decide)).1,
    (size_below_radius (New StateStorer.empty).rs 8 (by decide) (by decide)).1⟩

/-! ## Termination of evictOuter -/

/-- A run of calls over two lists is the run over the second list from the store the first
list leaves. -/
theorem runCalls_append (evictFn : Bytes → Bool) (l1 l2 : List Call) :
    ∀ s s1 : store, runCalls evictFn s l1 = .ok s1 →
      runCalls evictFn s (l1 ++ l2) = runCalls evictFn s1 l2 := by
  induction l1 with
  | nil =>
    intro s s1 h
    simp only [runCalls, Except.ok.injEq] at h
    subst h
    rfl
  | cons c rest ih =>
    intro s s1 h
    cases c with
    | put fuel b value depth =>
      simp only [List.cons_append, runCalls] at h ⊢
      split at h
      · exact absurd h (by simp)
      · rename_i s2 h2
        exact ih s2 s1 h
    | putChainState cs =>
      simp only [List.cons_append, runCalls] at h ⊢
      split at h
      · exact absurd h (by simp)
      · rename_i s2 h2
        exact ih s2 s1 h

/-- When the value index holds only the key of the batch `last` and `last` has depth 0, a
pass of `evictOuter` adds `exp2(uint(0) − uint(Radius) − 1) = 0` to Available at most: with
`Available < 0` no number of recursive calls suffices. -/
theorem evictOuter_depth_zero (last : Batch) (hd : last.Depth = 0) (fuel : Nat) :
    ∀ s : store, s.backend.values = [(last.Value, last.ID)] → s.rs.Available < 0 →
      -9223372036854775808 ≤ s.rs.Available → s.rs.Radius < 256 →
      store.evictOuter fuel s last = .error .outOfFuel := by
  have hz : ∀ r, r < 256 → exp2 (subU64 (subU64 0 r) 1) = 0 := by
    intro r hr
    have h1 : ¬ subU64 (subU64 0 r) 1 < 63 := by
      unfold subU64
      omega
    have h2 : ¬ subU64 (subU64 0 r) 1 = 63 := by
      unfold subU64
      omega
    simp [exp2, h1, h2]
  have hpass : ∀ s : store, s.backend.values = [(last.Value, last.ID)] → s.rs.Available < 0 →
      -9223372036854775808 ≤ s.rs.Available → s.rs.Radius < 256 →
      ∃ s2, s.evictOuterPass last = .ok s2 ∧ s2.backend.values = s.backend.values ∧
        s2.rs.Available = s.rs.Available ∧ s2.rs.Radius = s.rs.Radius := by
    intro s hv ha hlo hr
    have hna : ¬ (0 ≤ s.rs.Available) := by omega
    simp only [store.evictOuterPass, hv, store.evictOuterIterate, valueKeyToID, if_true]
    by_cases hlt : last.Value < s.rs.Outer
    · simp only [if_pos hlt]
      exact ⟨_, rfl, hv, rfl, rfl⟩
    · simp only [if_neg hlt, hna, false_and, if_false, hd, hz _ hr, Int.add_zero]
      refine ⟨_, rfl, ?_, ?_, rfl⟩
      · show (store.unreserve _ _ _).backend.values = _
        rw [unreserve_values]
        exact hv
      · show (store.unreserve _ _ _).rs.Available = _
        rw [unreserve_rs]
        exact wrapInt64_id _ hlo (by omega)
  induction fuel with
  | zero =>
    intro s hv ha hlo hr
    obtain ⟨s2, h2, _, h4, _⟩ := hpass s hv ha hlo hr
    have hna : ¬ (0 ≤ s.rs.Available) := by omega
    have h2a : s2.rs.Available < 0 := by omega
    simp only [store.evictOuter, if_neg hna, h2, if_pos h2a]
  | succ f ih =>
    intro s hv ha hlo hr
    obtain ⟨s2, h2, h3, h4, h5⟩ := hpass s hv ha hlo hr
    have hna : ¬ (0 ≤ s.rs.Available) := by omega
    have h2a : s2.rs.Available < 0 := by omega
    simp only [store.evictOuter, if_neg hna, h2, if_pos h2a]
    apply ih
    · show s2.backend.values = _
      rw [h3]; exact hv
    · show s2.rs.Available < 0
      exact h2a
    · show _ ≤ s2.rs.Available
      omega
    · show (s2.rs.Radius + 1) % 256 < 256
      omega

set_option maxRecDepth 100000 in
/-- C39 (code at the failing input): three calls leave a store that holds the single batch
`[1]`, of depth 76, in the inner tier at Radius 12, where its size is `exp2(63) = −2^63`; a
`Put` that sets its depth to 0 then brings Available to `−2^22`, and `evictOuter` does not
return within any number of recursive calls, since the only stored batch adds 0 to Available
at every Radius. -/
theorem C39_evictOuter_no_return :
    runCalls evictOk (New StateStorer.empty) callsInnerDepth76 = .ok storeInnerDepth76 ∧
    storeInnerDepth76.rs.size 76 (storeInnerDepth76.rs.tier 10) = -9223372036854775808 ∧
    (storeInnerDepth76.rs.change 10 10 76 0).1 = -9223372036854775808 ∧
    ∀ fuel : Nat,
      runCalls evictOk (New StateStorer.empty)
        (callsInnerDepth76 ++ [Call.put fuel batchDepth76 10 0]) = .error .outOfFuel := by
  have h3 : runCalls evictOk (New StateStorer.empty) callsInnerDepth76 = .ok storeInnerDepth76 :=
    rfl
  refine ⟨h3, by decide, by decide, ?_⟩
  intro fuel
  rw [runCalls_append evictOk _ _ _ _ h3]
  have hput : storeInnerDepth76.Put fuel batchDepth76 10 0 = .error .outOfFuel := by
    simp only [store.Put, store.update]
    rw [evictOuter_depth_zero _ rfl fuel _ (by decide) (by decide) (by decide) (by decide)]
  simp only [runCalls, hput]

/-! ## One pass of evictOuter -/

/-- The depth read at a key depends on the batch records only. -/
theorem depthAt_congr (last : Batch) (st1 st2 : StateStorer) (h : st1.batches = st2.batches)
    (key : Nat × Bytes) : depthAt last st1 key = depthAt last st2 key := by
  simp only [depthAt, StateStorer.getBatch, h]

/-- Consistency of the value index depends on the batch records only. -/
theorem indexConsistent_congr (last : Batch) (st1 st2 : StateStorer)
    (h : st1.batches = st2.batches) (keys : List (Nat × Bytes))
    (hc : indexConsistent last st1 keys) : indexConsistent last st2 keys := by
  intro key hk
  have := hc key hk
  simpa only [StateStorer.getBatch, h] using this

/-- At a key of a consistent value index the iteration of `evictOuter` reads a batch with the
value of the key, the id of the key and the depth `depthAt`. -/
theorem read_consistent (last : Batch) (s : store) (key : Nat × Bytes)
    (h : (last.ID = key.2 ∧ last.Value = key.1) ∨
      (last.ID ≠ key.2 ∧ ∃ b, s.backend.getBatch key.2 = some b ∧ b.Value = key.1)) :
    ∃ b, (if last.ID = valueKeyToID key then Except.ok last else s.Get (valueKeyToID key))
        = .ok b ∧
      b.Value = key.1 ∧ b.ID = key.2 ∧ b.Depth = depthAt last s.backend key := by
  rcases h with ⟨h1, h2⟩ | ⟨h1, b, h2, h3⟩
  · exact ⟨last, by simp [valueKeyToID, h1], h2, h1, by simp [depthAt, h1]⟩
  · obtain ⟨b1, g1, g2, g3, g4⟩ := Get_of_getBatch s key.2 b h2
    refine ⟨b1, by simp [valueKeyToID, h1, g1], by rw [g3, h3], g2, ?_⟩
    simp [depthAt, h1, h2, g4]

/-- An `unreserve` on a store whose queue keys are at most the queue counter appends its item
to the queue and keeps the keys at most the counter. -/
theorem unreserve_queue (s : store) (b : Bytes) (r : Nat)
    (hq : ∀ x ∈ s.backend.queue, x.1 ≤ s.queueIdx)
    (hn : s.queueIdx + 1 < 18446744073709551616) :
    (s.unreserve b r).backend.queue
      = s.backend.queue ++ [(s.queueIdx + 1, { BatchID := b, Radius := r })] ∧
    (s.unreserve b r).queueIdx = s.queueIdx + 1 ∧
    (∀ x ∈ (s.unreserve b r).backend.queue, x.1 ≤ (s.unreserve b r).queueIdx) := by
  have hc : (s.queueIdx + 1) % 18446744073709551616 = s.queueIdx + 1 := Nat.mod_eq_of_lt hn
  have h1 : (s.unreserve b r).backend.queue
      = s.backend.queue ++ [(s.queueIdx + 1, { BatchID := b, Radius := r })] := by
    show ((s.backend.putQueue _ _).putQueueCardinality _).queue = _
    rw [hc]
    show (s.backend.putQueue _ _).queue = _
    exact putQueue_append _ _ _ (fun x hx => Nat.lt_succ_of_le (hq x hx))
  have h2 : (s.unreserve b r).queueIdx = s.queueIdx + 1 := hc
  refine ⟨h1, h2, ?_⟩
  intro x hx
  rw [h1] at hx
  rw [h2]
  rcases List.mem_append.1 hx with hx | hx
  · exact Nat.le_succ_of_le (hq x hx)
  · rw [List.mem_singleton.1 hx]

/-- The iteration of `evictOuter` over a consistent value index in ascending value order: of
the keys whose value is at least Outer, a first part `P` is unreserved at the current Radius,
in index order, and the rest `Q` is left. Available is what the depths of `P` make it, Outer
is the value of the last key of `P`; when a rest is left, Available is non-negative and the
values of the rest are above Outer; the first key of `P` is unreserved with Available
negative or at the value Outer, and wherever two neighbours in `P` differ in value,
Available is negative after the first of them. -/
theorem evictOuterIterate_pass (last : Batch) (keys : List (Nat × Bytes)) :
    ∀ s : store,
      keys.Pairwise (fun a b => a.1 ≤ b.1) →
      indexConsistent last s.backend keys →
      (∀ x ∈ s.backend.queue, x.1 ≤ s.queueIdx) →
      s.queueIdx + keys.length < 18446744073709551616 →
      ∃ (s1 : store) (P Q : List (Nat × Bytes)),
        store.evictOuterIterate last keys s = .ok s1 ∧
        keys.filter (fun k => decide (s.rs.Outer ≤ k.1)) = P ++ Q ∧
        s1.backend.queue.map (fun e => e.2) = s.backend.queue.map (fun e => e.2) ++
          P.map (fun k => { BatchID := k.2, Radius := s.rs.Radius }) ∧
        s1.rs.Available
          = availableAfter s.rs.Radius s.rs.Available (P.map (depthAt last s.backend)) ∧
        s1.rs.Outer = (P.getLast?.map (fun k => k.1)).getD s.rs.Outer ∧
        (Q ≠ [] → 0 ≤ s1.rs.Available ∧ ∀ k ∈ Q, s1.rs.Outer < k.1) ∧
        (∀ y, P.head? = some y → s.rs.Available < 0 ∨ s.rs.Outer = y.1) ∧
        (∀ A x y B, P = A ++ x :: y :: B → x.1 ≠ y.1 →
          availableAfter s.rs.Radius s.rs.Available ((A ++ [x]).map (depthAt last s.backend))
            < 0) := by
  induction keys with
  | nil =>
    intro s _ _ _ _
    refine ⟨s, [], [], rfl, rfl, by simp, rfl, rfl, fun h => absurd rfl h, ?_, ?_⟩
    · intro y hy; simp at hy
    · intro A x y B h; simp at h
  | cons k rest ih =>
    intro s hs hc hq hn
    have hsr : rest.Pairwise (fun a b => a.1 ≤ b.1) := (List.pairwise_cons.1 hs).2
    have hkr : ∀ x ∈ rest, k.1 ≤ x.1 := (List.pairwise_cons.1 hs).1
    have hcr : indexConsistent last s.backend rest :=
      fun key hk => hc key (List.mem_cons_of_mem _ hk)
    have hnr : s.queueIdx + rest.length < 18446744073709551616 := by
      simp only [List.length_cons] at hn
      omega
    obtain ⟨b, hb, hbv, hbi, hbd⟩ := read_consistent last s k (hc k (List.mem_cons_self _ _))
    simp only [store.evictOuterIterate, hb]
    by_cases hlt : b.Value < s.rs.Outer
    · -- the key is below Outer: skipped
      simp only [if_pos hlt]
      obtain ⟨s1, P, Q, h1, h2, h3, h4, h5, h6, h7, h8⟩ := ih s hsr hcr hq hnr
      refine ⟨s1, P, Q, h1, ?_, h3, h4, h5, h6, h7, h8⟩
      rw [List.filter_cons_of_neg (by simp; omega)]
      exact h2
    · have hge : s.rs.Outer ≤ k.1 := by omega
      have hfr : rest.filter (fun x => decide (s.rs.Outer ≤ x.1)) = rest := by
        rw [List.filter_eq_self]
        intro x hx
        have := hkr x hx
        simp only [decide_eq_true_eq]
        omega
      have hfk : (k :: rest).filter (fun x => decide (s.rs.Outer ≤ x.1)) = k :: rest := by
        rw [List.filter_cons_of_pos (by simpa using hge), hfr]
      simp only [if_neg hlt]
      by_cases hstop : 0 ≤ s.rs.Available ∧ s.rs.Outer ≠ b.Value
      · -- the pass stops at this key
        simp only [if_pos hstop]
        refine ⟨s, [], k :: rest, rfl, by rw [hfk]; rfl, by simp, rfl, rfl, ?_, ?_, ?_⟩
        · intro _
          refine ⟨hstop.1, ?_⟩
          intro x hx
          show s.rs.Outer < x.1
          have hne := hstop.2
          rcases List.mem_cons.1 hx with hx | hx
          · rw [hx]; omega
          · have := hkr x hx
            omega
        · intro y hy; simp at hy
        · intro A x y B h; simp at h
      · -- the batch of this key is unreserved
        simp only [if_neg hstop]
        obtain ⟨q1, q2, q3⟩ := unreserve_queue
          { s with rs := { s.rs with
            Available := wrapInt64 (s.rs.Available + exp2 (subU64 (subU64 b.Depth s.rs.Radius) 1))
            Outer := b.Value } } b.ID s.rs.Radius hq
          (by show s.queueIdx + 1 < _; simp only [List.length_cons] at hn; omega)
        generalize hs2 : store.unreserve
          { s with rs := { s.rs with
            Available := wrapInt64 (s.rs.Available + exp2 (subU64 (subU64 b.Depth s.rs.Radius) 1))
            Outer := b.Value } } b.ID s.rs.Radius = s2 at q1 q2 q3
        have q1 : s2.backend.queue
            = s.backend.queue ++ [(s.queueIdx + 1, { BatchID := b.ID, Radius := s.rs.Radius })] :=
          q1
        have q2 : s2.queueIdx = s.queueIdx + 1 := q2
        have hrs : s2.rs = { s.rs with
            Available := wrapInt64 (s.rs.Available + exp2 (subU64 (subU64 b.Depth s.rs.Radius) 1))
            Outer := b.Value } := by rw [← hs2]; rfl
        have hbat : s2.backend.batches = s.backend.batches := by rw [← hs2]; rfl
        have hO : s2.rs.Outer = k.1 := by rw [hrs]; exact hbv
        have hR : s2.rs.Radius = s.rs.Radius := by rw [hrs]
        have hA : s2.rs.Available
            = wrapInt64 (s.rs.Available
                + exp2 (subU64 (subU64 (depthAt last s.backend k) s.rs.Radius) 1)) := by
          rw [hrs, hbd]
        have hd2 : depthAt last s2.backend = depthAt last s.backend :=
          funext (fun key => depthAt_congr last _ _ hbat key)
        obtain ⟨s1, P, Q, h1, h2, h3, h4, h5, h6, h7, h8⟩ := ih s2 hsr
          (indexConsistent_congr last _ _ hbat.symm rest hcr) q3
          (by rw [q2]; simp only [List.length_cons] at hn; omega)
        have hfr2 : rest.filter (fun x => decide (s2.rs.Outer ≤ x.1)) = rest := by
          rw [List.filter_eq_self]
          intro x hx
          have := hkr x hx
          simp only [decide_eq_true_eq]
          omega
        rw [hfr2] at h2
        rw [hd2] at h4 h8
        refine ⟨s1, k :: P, Q, h1, by rw [hfk, h2]; rfl, ?_, ?_, ?_, ?_, ?_, ?_⟩
        · rw [h3, q1, hR, hbi]
          simp
        · rw [h4, hR, hA]
          rfl
        · rw [h5, hO]
          cases P with
          | nil => rfl
          | cons p t =>
            have hl : (k :: p :: t).getLast? = (p :: t).getLast? := List.getLast?_cons_cons
            obtain ⟨z, hz⟩ : ∃ z, (p :: t).getLast? = some z :=
              ⟨_, List.getLast?_eq_getLast _ (by simp)⟩
            rw [hl, hz]
            rfl
        · intro hQ
          obtain ⟨g1, g2⟩ := h6 hQ
          exact ⟨g1, g2⟩
        · intro y hy
          simp only [List.head?_cons, Option.some.injEq] at hy
          subst hy
          by_cases ha : 0 ≤ s.rs.Available
          · right
            by_contra hne
            exact hstop ⟨ha, by rw [hbv]; exact hne⟩
          · left; omega
        · intro A x y B hP hxy
          cases A with
          | nil =>
            simp only [List.nil_append, List.cons.injEq] at hP
            obtain ⟨hkx, hPy⟩ := hP
            subst hkx
            have := h7 y (by rw [hPy]; rfl)
            rcases this with h | h
            · simpa [availableAfter, hA] using h
            · exact absurd (hO ▸ h) hxy
          | cons a A' =>
            simp only [List.cons_append, List.cons.injEq] at hP
            obtain ⟨hka, hPy⟩ := hP
            subst hka
            have := h8 A' x y B hPy hxy
            rw [hR, hA] at this
            simpa [availableAfter] using this

/-- In a list in ascending order of value no element has a value above that of the last. -/
theorem le_getLast_of_pairwise (P : List (Nat × Bytes)) (z : Nat × Bytes)
    (hs : P.Pairwise (fun a b => a.1 ≤ b.1)) (hz : P.getLast? = some z) :
    ∀ p ∈ P, p.1 ≤ z.1 := by
  rcases List.eq_nil_or_concat P with h | ⟨t, y, h⟩
  · subst h; simp at hz
  · subst h
    rw [List.concat_eq_append] at hs hz ⊢
    simp only [List.getLast?_append, List.getLast?_singleton, Option.or,
      Option.some.injEq] at hz
    subst hz
    intro p hp
    rcases List.mem_append.1 hp with hp | hp
    · exact (List.pairwise_append.1 hs).2.2 p hp y (by simp)
    · rw [List.mem_singleton.1 hp]

/-- C33: one pass of `evictOuter`, started with `Available < 0` over a value index in
ascending value order that mirrors the stored batches: of the keys with a value of at least
Outer a first part `P` is unreserved, each at the current Radius and in index order, and the
rest `Q` is left. Every key of the index with the value of a key of `P` is in `P`; the pass
leaves a rest only with `Available ≥ 0`, and the values of the rest are above all values of
`P`; wherever two neighbours in `P` differ in value, Available was negative after the first
of them, so the pass stops at the first key whose value differs from the value at which
Available became non-negative; and Outer ends at the value of the last key of `P` plus 1. -/
theorem C33_equal_values_alike (s : store) (last : Batch)
    (hs : s.backend.values.Pairwise (fun a b => a.1 ≤ b.1))
    (hc : indexConsistent last s.backend s.backend.values)
    (hq : ∀ x ∈ s.backend.queue, x.1 ≤ s.queueIdx)
    (hn : s.queueIdx + s.backend.values.length < 18446744073709551616)
    (ha : s.rs.Available < 0) :
    ∃ (s1 : store) (P Q : List (Nat × Bytes)),
      s.evictOuterPass last = .ok s1 ∧
      s.backend.values.filter (fun k => decide (s.rs.Outer ≤ k.1)) = P ++ Q ∧
      s1.backend.queue.map (fun e => e.2) = s.backend.queue.map (fun e => e.2) ++
        P.map (fun k => { BatchID := k.2, Radius := s.rs.Radius }) ∧
      (∀ k ∈ s.backend.values, ∀ p ∈ P, k.1 = p.1 → k ∈ P) ∧
      (Q ≠ [] → P ≠ [] ∧ 0 ≤ s1.rs.Available ∧ ∀ k ∈ Q, ∀ p ∈ P, p.1 < k.1) ∧
      (∀ A x y B, P = A ++ x :: y :: B → x.1 ≠ y.1 →
        availableAfter s.rs.Radius s.rs.Available ((A ++ [x]).map (depthAt last s.backend))
          < 0) ∧
      s1.rs.Available
        = availableAfter s.rs.Radius s.rs.Available (P.map (depthAt last s.backend)) ∧
      (∀ p, P.getLast? = some p → s1.rs.Outer = p.1 + 1) ∧
      (P = [] → s1.rs.Outer = s.rs.Outer + 1) := by
  obtain ⟨s0, P, Q, h1, h2, h3, h4, h5, h6, _, h8⟩ :=
    evictOuterIterate_pass last s.backend.values s hs hc hq hn
  have hsPQ : (P ++ Q).Pairwise (fun a b => a.1 ≤ b.1) := by
    rw [← h2]
    exact hs.filter _
  have hsP : P.Pairwise (fun a b => a.1 ≤ b.1) := (List.pairwise_append.1 hsPQ).1
  have hPne : Q ≠ [] → P ≠ [] := by
    intro hQ hP
    have := (h6 hQ).1
    rw [h4, hP] at this
    simp only [List.map_nil, availableAfter, List.foldl_nil] at this
    omega
  have hQP : Q ≠ [] → ∀ k ∈ Q, ∀ p ∈ P, p.1 < k.1 := by
    intro hQ k hk p hp
    have hlt := (h6 hQ).2 k hk
    obtain ⟨z, hz⟩ : ∃ z, P.getLast? = some z :=
      ⟨_, List.getLast?_eq_getLast _ (List.ne_nil_of_mem hp)⟩
    rw [h5, hz] at hlt
    have := le_getLast_of_pairwise P z hsP hz p hp
    simp only [Option.map_some', Option.getD_some] at hlt
    omega
  refine ⟨{ s0 with rs := { s0.rs with Outer := s0.rs.Outer + 1 } }, P, Q, ?_, h2, h3, ?_, ?_,
    h8, h4, ?_, ?_⟩
  · simp only [store.evictOuterPass, h1]
  · intro k hk p hp hkp
    have hpf : p ∈ s.backend.values.filter (fun k => decide (s.rs.Outer ≤ k.1)) := by
      rw [h2]; exact List.mem_append_left _ hp
    have hpo : s.rs.Outer ≤ p.1 := by simpa using (List.mem_filter.1 hpf).2
    have hkf : k ∈ P ++ Q := by
      rw [← h2]
      exact List.mem_filter.2 ⟨hk, by simp only [decide_eq_true_eq]; omega⟩
    rcases List.mem_append.1 hkf with h | h
    · exact h
    · have := hQP (List.ne_nil_of_mem h) k h p hp
      omega
  · intro hQ
    exact ⟨hPne hQ, (h6 hQ).1, hQP hQ⟩
  · intro p hp
    show s0.rs.Outer + 1 = p.1 + 1
    rw [h5, hp]
    rfl
  · intro hP
    show s0.rs.Outer + 1 = s.rs.Outer + 1
    rw [h5, hP]
    rfl

set_option maxRecDepth 100000 in
/-- C33 at a store with batches of the values 3, 5, 5, 5 and 7, `Outer = 4` and
`Available = −3`, every batch adding 2: the second batch of value 5 brings Available to 1,
the third one is unreserved all the same, the pass stops at the batch of value 7 and Outer
ends at 6. -/
theorem C33_equal_values_alike_witness :
    (∃ (s1 : store) (P Q : List (Nat × Bytes)),
      storeEqualValues.evictOuterPass batchNine = .ok s1 ∧
      storeEqualValues.backend.values.filter
        (fun k => decide (storeEqualValues.rs.Outer ≤ k.1)) = P ++ Q ∧
      (∀ k ∈ storeEqualValues.backend.values, ∀ p ∈ P, k.1 = p.1 → k ∈ P) ∧
      (Q ≠ [] → P ≠ [] ∧ 0 ≤ s1.rs.Available ∧ ∀ k ∈ Q, ∀ p ∈ P, p.1 < k.1)) ∧
    (storeEqualValues.evictOuterPass batchNine).toOption.map
        (fun s => (s.rs.Outer, s.rs.Available, s.backend.queue.map (fun e => e.2)))
      = some (6, 3, [{ BatchID := [2], Radius := 12 }, { BatchID := [3], Radius := 12 },
                     { BatchID := [4], Radius := 12 }]) := by
  obtain ⟨s1, P, Q, h1, h2, _, h4, h5, _⟩ := C33_equal_values_alike storeEqualValues batchNine
    (by decide)
    (by
      intro key hk
      simp only [storeEqualValues, List.mem_cons, List.mem_singleton, List.not_mem_nil,
        or_false] at hk
      rcases hk with rfl | rfl | rfl | rfl | rfl <;>
        exact Or.inr ⟨by decide, _, rfl, rfl⟩)
    (by decide) (by decide) (by decide)
  exact ⟨⟨s1, P, Q, h1, h2, h4, h5⟩, by decide⟩

end Batchstore

namespace Localstore

/-! ## Garbage collection -/

/-- The candidate iteration collects the next entries of the gc index until `collectedCount`
reaches `min (gcSize − target) gcBatchSize`. -/
theorem gcIterate_spec (gcSize target : Nat) (hg : gcSize < 18446744073709551616)
    (l : List Item) :
    ∀ (cc : Nat) (cands : List Item), cc < 2000 → cc ≤ gcSize - target →
      gcIterate gcSize target l cc cands
        = (cands ++ l.take (min (gcSize - target) 2000 - cc),
           cc + min l.length (min (gcSize - target) 2000 - cc)) := by
  induction l with
  | nil =>
    intro cc cands _ _
    simp [gcIterate]
  | cons item rest ih =>
    intro cc cands h1 h2
    have hsub : Batchstore.subU64 gcSize cc = gcSize - cc := by
      unfold Batchstore.subU64
      omega
    simp only [gcIterate, hsub, gcBatchSize]
    by_cases hstop : gcSize - cc ≤ target
    · have hk : min (gcSize - target) 2000 - cc = 0 := by omega
      simp [hstop, hk]
    · have hmod : (cc + 1) % 18446744073709551616 = cc + 1 := by omega
      simp only [hstop, if_false, hmod]
      by_cases hfull : 2000 ≤ cc + 1
      · have hk : min (gcSize - target) 2000 - cc = 1 := by omega
        simp [hfull, hk]
      · simp only [hfull, if_false]
        rw [ih (cc + 1) _ (by omega) (by omega)]
        have hk : min (gcSize - target) 2000 - cc = (min (gcSize - target) 2000 - (cc + 1)) + 1 := by
          omega
        rw [hk, List.take_succ_cons, List.length_cons]
        simp only [List.append_assoc, List.singleton_append, Prod.mk.injEq, true_and]
        omega

/-- The dirty loop drops the dirty candidates from the count and puts the seven deletes of
every other candidate into the batch. -/
theorem gcDirty_spec (dirty : List Bytes) (cands : List Item) :
    ∀ (cc : Nat) (batch : List WriteOp),
      (cands.filter (fun x => x.Address ∈ dirty)).length ≤ cc → cc < 18446744073709551616 →
      gcDirty dirty cands cc batch
        = (cc - (cands.filter (fun x => x.Address ∈ dirty)).length,
           batch ++ (cands.filter (fun x => x.Address ∉ dirty)).flatMap deleteOps) := by
  induction cands with
  | nil =>
    intro cc batch _ _
    simp [gcDirty]
  | cons item rest ih =>
    intro cc batch h1 h2
    by_cases hd : item.Address ∈ dirty
    · simp only [List.filter_cons, hd, decide_True, if_true, List.length_cons] at h1
      have hsub : Batchstore.subU64 cc 1 = cc - 1 := by
        unfold Batchstore.subU64
        omega
      simp only [gcDirty, hd, if_true, hsub]
      rw [ih (cc - 1) batch (by omega) (by omega)]
      simp only [List.filter_cons, hd, decide_True, if_true, List.length_cons, not_true_eq_false,
        decide_False, Prod.mk.injEq, and_true]
      simp
      omega
    · simp only [List.filter_cons, hd, decide_False] at h1
      simp only [gcDirty, hd, if_false]
      rw [ih cc _ (by simpa using h1) h2]
      simp [List.filter_cons, hd, List.flatMap_cons]

/-- The seven deletes of one item remove, from every index, the entry under the key of the
item, and leave the size fields. -/
theorem applyOp_deleteOps (key : IndexName → Item → Bytes) (db : DB) (item : Item) :
    (∀ j, ((deleteOps item).foldl (DB.applyOp key) db).index j
        = (db.index j).filter (fun x => key j x ≠ key j item)) ∧
      ((deleteOps item).foldl (DB.applyOp key) db).gcSize = db.gcSize ∧
      ((deleteOps item).foldl (DB.applyOp key) db).cacheCapacity = db.cacheCapacity := by
  refine ⟨fun j => ?_, ?_, ?_⟩
  · cases j <;> simp [deleteOps, DB.applyOp]
  · simp [deleteOps, DB.applyOp]
  · simp [deleteOps, DB.applyOp]

/-- The deletes of a list of items remove, from every index, the entries under the keys of
the items, and leave the size fields. -/
theorem WriteBatch_deletes (key : IndexName → Item → Bytes) (deleted : List Item) :
    ∀ db : DB,
      (∀ j, (db.WriteBatch key (deleted.flatMap deleteOps)).index j
        = (db.index j).filter (fun x => key j x ∉ deleted.map (key j))) ∧
      (db.WriteBatch key (deleted.flatMap deleteOps)).gcSize = db.gcSize ∧
      (db.WriteBatch key (deleted.flatMap deleteOps)).cacheCapacity = db.cacheCapacity := by
  induction deleted with
  | nil =>
    intro db
    simp [DB.WriteBatch]
  | cons item rest ih =>
    intro db
    obtain ⟨a1, a2, a3⟩ := applyOp_deleteOps key db item
    obtain ⟨b1, b2, b3⟩ := ih ((deleteOps item).foldl (DB.applyOp key) db)
    simp only [DB.WriteBatch, List.flatMap_cons, List.foldl_append] at b1 b2 b3 ⊢
    refine ⟨fun j => ?_, by rw [b2, a2], by rw [b3, a3]⟩
    rw [b1 j, a1 j, List.filter_filter]
    apply List.filter_congr
    intro x _
    by_cases h1 : key j x ∈ rest.map (key j) <;> by_cases h2 : key j x = key j item <;>
      simp [h1, h2]

/-- A batch of deletes closed by a write of gcSize. -/
theorem WriteBatch_deletes_putGCSize (key : IndexName → Item → Bytes) (deleted : List Item)
    (n : Nat) (db : DB) :
    (∀ j, (db.WriteBatch key (deleted.flatMap deleteOps ++ [.putGCSize n])).index j
        = (db.index j).filter (fun x => key j x ∉ deleted.map (key j))) ∧
      (db.WriteBatch key (deleted.flatMap deleteOps ++ [.putGCSize n])).gcSize = n ∧
      (db.WriteBatch key (deleted.flatMap deleteOps ++ [.putGCSize n])).cacheCapacity
        = db.cacheCapacity := by
  obtain ⟨b1, _, b3⟩ := WriteBatch_deletes key deleted db
  simp only [DB.WriteBatch, List.foldl_append, List.foldl_cons, List.foldl_nil] at b1 b3 ⊢
  exact ⟨fun j => b1 j, rfl, b3⟩

/-- A run of `collectGarbage` that starts with `gcSize = target` returns at once. -/
theorem collectGarbage_at_target (key : IndexName → Item → Bytes) (target : Nat)
    (others : DB → DB) (db : DB) (h : db.gcSize = target) :
    (db.collectGarbage key target others).collectedCount = 0 ∧
      (db.collectGarbage key target others).done = true ∧
      (db.collectGarbage key target others).candidates = [] ∧
      (db.collectGarbage key target others).db.gcSize = db.gcSize ∧
      (db.collectGarbage key target others).db.index = db.index := by
  simp [DB.collectGarbage, h]

/-- The dirty and the other candidates make up the candidates. -/
theorem length_filter_dirty (d : List Bytes) (c : List Item) :
    (c.filter (fun x => x.Address ∈ d)).length + (c.filter (fun x => x.Address ∉ d)).length
      = c.length := by
  induction c with
  | nil => rfl
  | cons a t ih =>
    by_cases ha : a.Address ∈ d
    · simp only [List.filter_cons, ha, decide_True, if_true, List.length_cons,
        not_true_eq_false, decide_False]
      simp only [Bool.false_eq_true, if_false]
      omega
    · simp only [List.filter_cons, ha, decide_False, List.length_cons,
        not_false_eq_true, decide_True, if_true]
      simp only [Bool.false_eq_true, if_false]
      omega

/-- A run of `collectGarbage` that starts with `gcSize ≠ target`: the candidates are the first
entries of the gc index, the count is that of the candidates that are not dirty, their
entries are deleted from every index of the database found under the lock, and gcSize is
written as the refreshed gcSize minus the count. -/
theorem collectGarbage_run (key : IndexName → Item → Bytes) (target : Nat)
    (others : DB → DB) (db : DB) (hg : db.gcSize < 18446744073709551616)
    (hne : db.gcSize ≠ target) :
    (db.collectGarbage key target others).candidates
        = (db.index .gc).take (min (db.gcSize - target) 2000) ∧
      (db.collectGarbage key target others).collectedCount
        = ((db.collectGarbage key target others).candidates.filter
            (fun x => x.Address ∉ (others { db with gcRunning := true }).dirtyAddresses)).length ∧
      (∀ j, (db.collectGarbage key target others).db.index j
        = ((others { db with gcRunning := true }).index j).filter (fun x => key j x ∉
            ((db.collectGarbage key target others).candidates.filter
              (fun x => x.Address ∉ (others { db with gcRunning := true }).dirtyAddresses)).map
              (key j))) ∧
      (db.collectGarbage key target others).db.gcSize
        = Batchstore.subU64 (others { db with gcRunning := true }).gcSize
            (db.collectGarbage key target others).collectedCount ∧
      (db.collectGarbage key target others).done
        = decide (¬ target < (db.collectGarbage key target others).db.gcSize) := by
  have hit := gcIterate_spec db.gcSize target hg (db.index .gc) 0 [] (by omega) (by omega)
  simp only [Nat.sub_zero, List.nil_append, Nat.zero_add] at hit
  have hlen : ((db.index .gc).take (min (db.gcSize - target) 2000)).length
      = min (db.index .gc).length (min (db.gcSize - target) 2000) := by
    rw [List.length_take]
    omega
  have hbig : ((db.index .gc).take (min (db.gcSize - target) 2000)).length
      < 18446744073709551616 := by
    rw [hlen]
    omega
  simp only [DB.collectGarbage, hne, if_false, hit, ← hlen]
  generalize others { db with gcRunning := true } = db2
  generalize (db.index .gc).take (min (db.gcSize - target) 2000) = cands at hbig ⊢
  have hsplit := length_filter_dirty db2.dirtyAddresses cands
  have hdl := gcDirty_spec db2.dirtyAddresses cands cands.length [] (by omega) hbig
  simp only [List.nil_append] at hdl
  rw [hdl]
  obtain ⟨w1, w2, _⟩ := WriteBatch_deletes_putGCSize key
    (cands.filter (fun x => x.Address ∉ db2.dirtyAddresses))
    (Batchstore.subU64 db2.gcSize
      (cands.length - (cands.filter (fun x => x.Address ∈ db2.dirtyAddresses)).length)) db2
  refine ⟨trivial, by show _ - _ = _; omega, fun j => w1 j, w2, ?_⟩
  rw [w2]
  split <;> simp_all

/-- A batch closed by a write of gcSize leaves that gcSize. -/
theorem WriteBatch_putGCSize (key : IndexName → Item → Bytes) (db : DB) (batch : List WriteOp)
    (n : Nat) : (db.WriteBatch key (batch ++ [.putGCSize n])).gcSize = n := by
  simp only [DB.WriteBatch, List.foldl_append, List.foldl_cons, List.foldl_nil]
  rfl

/-- C17: whenever `collectGarbage` returns `done = true`, the gcSize it leaves persisted is at
most the target (the value of `gcTarget()`), and hence at most cacheCapacity when the target
is; so whenever the persisted gcSize after the run exceeds the target, `done` is false. -/
theorem C17_done_means_at_target (key : IndexName → Item → Bytes) (target : Nat)
    (others : DB → DB) (db : DB)
    (hdone : (db.collectGarbage key target others).done = true) :
    (db.collectGarbage key target others).db.gcSize ≤ target ∧
      (target ≤ db.cacheCapacity →
        (db.collectGarbage key target others).db.gcSize ≤ db.cacheCapacity) := by
  have hle : (db.collectGarbage key target others).db.gcSize ≤ target := by
    unfold DB.collectGarbage at hdone ⊢
    by_cases h : db.gcSize = target
    · simp only [h, if_true]
      exact Nat.le_refl _
    · simp only [h, if_false] at hdone ⊢
      rw [WriteBatch_putGCSize]
      split at hdone
      · exact absurd hdone (by simp)
      · omega
  exact ⟨hle, fun hcap => Nat.le_trans hle hcap⟩

/-- C17 at a concrete database: six cached chunks, capacity 5 and target 4; the run collects
two chunks, returns `done = true` and leaves `gcSize = 4`. -/
theorem C17_done_means_at_target_witness :
    (dbSix.collectGarbage keyAddress 4 id).done = true ∧
      (dbSix.collectGarbage keyAddress 4 id).db.gcSize = 4 ∧
      (dbSix.collectGarbage keyAddress 4 id).db.gcSize ≤ dbSix.cacheCapacity :=
  ⟨by decide, by decide,
    (C17_done_means_at_target keyAddress 4 id dbSix (by decide)).2 (by decide)⟩

/-- C19: for every gc index of `n` entries and every `gcSize ≠ target` (of `uint64`), the
candidates `collectGarbage` selects are exactly the first `k` entries of the gc index in key
order with `k = min(n, gcSize ∸ target, gcBatchSize = 2000)`; hence a single run never deletes
more than 2000 chunks and never selects a candidate when `gcSize < target`. -/
theorem C19_candidates_oldest_first (key : IndexName → Item → Bytes) (target : Nat)
    (others : DB → DB) (db : DB) (hg : db.gcSize < 18446744073709551616)
    (hne : db.gcSize ≠ target) :
    (db.collectGarbage key target others).candidates
        = (db.index .gc).take (min (db.index .gc).length (min (db.gcSize - target) gcBatchSize)) ∧
      (db.collectGarbage key target others).candidates.length
        = min (db.index .gc).length (min (db.gcSize - target) gcBatchSize) ∧
      gcBatchSize = 2000 ∧
      (db.collectGarbage key target others).candidates.length ≤ 2000 ∧
      (db.collectGarbage key target others).collectedCount ≤ 2000 ∧
      (db.gcSize < target → (db.collectGarbage key target others).candidates = []) := by
  obtain ⟨h1, h2, _⟩ := collectGarbage_run key target others db hg hne
  have hlen : (db.collectGarbage key target others).candidates.length
      = min (db.index .gc).length (min (db.gcSize - target) 2000) := by
    rw [h1, List.length_take]
    omega
  have htake : (db.index .gc).take (min (db.index .gc).length (min (db.gcSize - target) 2000))
      = (db.index .gc).take (min (db.gcSize - target) 2000) := by
    rw [List.take_eq_take]
    omega
  have hcc : (db.collectGarbage key target others).collectedCount
      ≤ (db.collectGarbage key target others).candidates.length := by
    rw [h2]
    exact List.length_filter_le _ _
  refine ⟨?_, ?_, rfl, ?_, ?_, ?_⟩
  · simp only [gcBatchSize]
    rw [htake]
    exact h1
  · simp only [gcBatchSize]
    exact hlen
  · omega
  · omega
  · intro hlt
    apply List.eq_nil_of_length_eq_zero
    omega

/-- C19 at a concrete database: with `gcSize = 6` and target 4 the candidates are the two
oldest entries of the gc index. -/
theorem C19_candidates_oldest_first_witness :
    (dbSix.collectGarbage keyAddress 4 id).candidates = [mkItem 1 10, mkItem 2 20] ∧
      (dbSix.collectGarbage keyAddress 4 id).candidates = (dbSix.index .gc).take 2 := by
  have h := (C19_candidates_oldest_first keyAddress 4 id dbSix (by decide) (by decide)).1
  exact ⟨by rw [h]; decide, by rw [h]; decide⟩

/-- In an index whose keys are distinct, removing the keys of some of its entries removes as
many entries. -/
theorem length_filter_keys (f : Item → Bytes) {d l : List Item} (hsub : d.Sublist l)
    (hnd : (l.map f).Nodup) :
    (l.filter (fun x => f x ∉ d.map f)).length + d.length = l.length := by
  induction hsub with
  | slnil => rfl
  | cons a hdl ih =>
    rename_i d l
    rw [List.map_cons, List.nodup_cons] at hnd
    have ha : f a ∉ d.map f := by
      intro hmem
      apply hnd.1
      obtain ⟨y, hy, hfy⟩ := List.mem_map.mp hmem
      rw [← hfy]
      exact List.mem_map_of_mem _ (hdl.subset hy)
    have := ih hnd.2
    simp only [List.filter_cons, ha, not_false_eq_true, decide_True, if_true, List.length_cons]
    omega
  | cons₂ a hdl ih =>
    rename_i d l
    rw [List.map_cons, List.nodup_cons] at hnd
    have := ih hnd.2
    have hfil : l.filter (fun x => f x ∉ (a :: d).map f) = l.filter (fun x => f x ∉ d.map f) := by
      apply List.filter_congr
      intro x hx
      have hne : f x ≠ f a := by
        intro heq
        apply hnd.1
        rw [← heq]
        exact List.mem_map_of_mem _ hx
      simp [hne]
    rw [List.filter_cons, hfil]
    simp only [List.map_cons, List.mem_cons, true_or, not_true_eq_false, decide_False,
      List.length_cons]
    simp only [Bool.false_eq_true, if_false]
    omega

/-- C18: for every gc index, gcSize (of `uint64`) and set of dirty addresses: a run that
starts at `gcSize = target` deletes nothing and returns 0; any other run deletes, from every
index, the entries under the keys of the candidates whose address is not in dirtyAddresses
and nothing else, so no entry of a dirty address is deleted from an index whose key determines
the address; and the `collectedCount` it returns and subtracts from gcSize is the number of
candidates it deleted, the candidates minus the dirty candidates. -/
theorem C18_dirty_excluded (key : IndexName → Item → Bytes) (target : Nat)
    (others : DB → DB) (db : DB) (hg : db.gcSize < 18446744073709551616) :
    (db.gcSize = target →
        (db.collectGarbage key target others).collectedCount = 0 ∧
        (db.collectGarbage key target others).db.index = db.index) ∧
      (db.gcSize ≠ target →
        (db.collectGarbage key target others).collectedCount
          = ((db.collectGarbage key target others).candidates.filter
              (fun x => x.Address ∉ (others { db with gcRunning := true }).dirtyAddresses)).length ∧
        (db.collectGarbage key target others).collectedCount
          = (db.collectGarbage key target others).candidates.length
            - ((db.collectGarbage key target others).candidates.filter
              (fun x => x.Address ∈ (others { db with gcRunning := true }).dirtyAddresses)).length ∧
        (∀ j, (db.collectGarbage key target others).db.index j
          = ((others { db with gcRunning := true }).index j).filter (fun x => key j x ∉
              ((db.collectGarbage key target others).candidates.filter
                (fun x => x.Address ∉ (others { db with gcRunning := true }).dirtyAddresses)).map
                (key j))) ∧
        (db.collectGarbage key target others).db.gcSize
          = Batchstore.subU64 (others { db with gcRunning := true }).gcSize
              (db.collectGarbage key target others).collectedCount ∧
        (∀ j, (∀ x y, key j x = key j y → x.Address = y.Address) →
          ∀ x ∈ (others { db with gcRunning := true }).index j,
            x.Address ∈ (others { db with gcRunning := true }).dirtyAddresses →
            x ∈ (db.collectGarbage key target others).db.index j)) := by
  constructor
  · intro h
    obtain ⟨h1, _, _, _, h5⟩ := collectGarbage_at_target key target others db h
    exact ⟨h1, h5⟩
  · intro hne
    obtain ⟨_, h2, h3, h4, _⟩ := collectGarbage_run key target others db hg hne
    have hs := length_filter_dirty (others { db with gcRunning := true }).dirtyAddresses
      (db.collectGarbage key target others).candidates
    refine ⟨h2, by omega, h3, h4, ?_⟩
    intro j hkey x hx hdirty
    rw [h3 j]
    apply List.mem_filter.mpr
    refine ⟨hx, ?_⟩
    simp only [decide_eq_true_eq]
    intro hmem
    obtain ⟨y, hy, hfy⟩ := List.mem_map.mp hmem
    have hya := (List.mem_filter.mp hy).2
    simp only [decide_eq_true_eq] at hya
    have := hkey y x hfy
    rw [this] at hya
    exact hya hdirty

/-- C18 at a concrete run: of the two candidates the one of address 1 is touched during the
run; only the chunk of address 2 is deleted and the count returned is 1. -/
theorem C18_dirty_excluded_witness :
    (dbSix.collectGarbage keyAddress 4 touchOne).candidates = [mkItem 1 10, mkItem 2 20] ∧
      (dbSix.collectGarbage keyAddress 4 touchOne).collectedCount = 1 ∧
      ((dbSix.collectGarbage keyAddress 4 touchOne).db.index .retrievalData).map
        (fun x => x.Address) = [[1], [3], [4], [5], [6]] := by
  have h := (C18_dirty_excluded keyAddress 4 touchOne dbSix (by decide)).2 (by decide)
  refine ⟨by decide, ?_, ?_⟩
  · rw [h.1]
    decide
  · rw [h.2.2.1]
    decide

/-- Removing from a list with distinct keys the keys of a list with distinct keys that all
occur in it removes as many entries as the second list has. -/
theorem length_filter_keys_subset (f : Item → Bytes) (d l : List Item)
    (hl : (l.map f).Nodup) (hd : (d.map f).Nodup) (hsub : ∀ c ∈ d, f c ∈ l.map f) :
    (l.filter (fun x => f x ∉ d.map f)).length + d.length = l.length := by
  have e1 : (l.filter (fun x => f x ∉ d.map f)).length
      = ((l.map f).filter (fun k => k ∉ d.map f)).length := by
    rw [List.filter_map, List.length_map]
    rfl
  have hf : ((l.map f).filter (fun k => k ∉ d.map f)).Nodup := hl.filter _
  have e2 : ((l.map f).filter (fun k => k ∉ d.map f)).toFinset
      = (l.map f).toFinset \ (d.map f).toFinset := by
    ext k
    simp only [List.toFinset_filter, Finset.mem_filter, List.mem_toFinset, Finset.mem_sdiff,
      decide_eq_true_eq]
  have hsubset : (d.map f).toFinset ⊆ (l.map f).toFinset := by
    intro k hk
    rw [List.mem_toFinset] at hk ⊢
    obtain ⟨c, hc, rfl⟩ := List.mem_map.mp hk
    exact hsub c hc
  have e3 := Finset.card_sdiff hsubset
  have e4 := Finset.card_le_card hsubset
  rw [← e2, List.toFinset_card_of_nodup hf, List.toFinset_card_of_nodup hl,
    List.toFinset_card_of_nodup hd, List.length_map, List.length_map] at e3
  rw [List.toFinset_card_of_nodup hl, List.toFinset_card_of_nodup hd, List.length_map,
    List.length_map] at e4
  omega

/-- C20: `collectGarbage` preserves the accounting invariant `gcSize = number of entries in
the gc index` (the entries under distinct keys, gcSize of `uint64`). If it holds before the
run and still holds in the database the run finds under the lock (others may have re-keyed,
added and removed gc entries meanwhile, with or without a change of gcSize), and every
candidate whose gc entry others took away is logged in dirtyAddresses, then after the
committed batch the persisted gcSize again equals the number of gc entries, their keys are
distinct, and every deleted candidate (one whose address is not dirty) is gone from all seven
indexes. -/
theorem C20_gc_accounting (key : IndexName → Item → Bytes) (target : Nat)
    (others : DB → DB) (db : DB) (hg : db.gcSize < 18446744073709551616)
    (hinv : db.gcSize = (db.index .gc).length)
    (hnd : ((db.index .gc).map (key .gc)).Nodup)
    (hg2 : (others { db with gcRunning := true }).gcSize < 18446744073709551616)
    (hinv2 : (others { db with gcRunning := true }).gcSize
      = ((others { db with gcRunning := true }).index .gc).length)
    (hnd2 : (((others { db with gcRunning := true }).index .gc).map (key .gc)).Nodup)
    (hdirty : ∀ c ∈ (db.collectGarbage key target others).candidates,
      c.Address ∉ (others { db with gcRunning := true }).dirtyAddresses →
      key .gc c ∈ ((others { db with gcRunning := true }).index .gc).map (key .gc)) :
    (db.collectGarbage key target others).db.gcSize
        = ((db.collectGarbage key target others).db.index .gc).length ∧
      (((db.collectGarbage key target others).db.index .gc).map (key .gc)).Nodup ∧
      ∀ c ∈ (db.collectGarbage key target others).candidates,
        c.Address ∉ (others { db with gcRunning := true }).dirtyAddresses →
        ∀ j : IndexName, ∀ x ∈ (db.collectGarbage key target others).db.index j,
          key j x ≠ key j c := by
  by_cases h : db.gcSize = target
  · obtain ⟨_, _, h3, h4, h5⟩ := collectGarbage_at_target key target others db h
    rw [h3, h4, h5]
    exact ⟨hinv, hnd, fun c hc => absurd hc (List.not_mem_nil c)⟩
  · obtain ⟨h1, h2, h3, h4, _⟩ := collectGarbage_run key target others db hg h
    have hsub : ((db.collectGarbage key target others).candidates.filter
        (fun x => x.Address ∉ (others { db with gcRunning := true }).dirtyAddresses)).Sublist
        (db.index .gc) := by
      rw [h1]
      exact (List.filter_sublist _).trans (List.take_sublist _ _)
    have hclean : (((db.collectGarbage key target others).candidates.filter
        (fun x => x.Address ∉ (others { db with gcRunning := true }).dirtyAddresses)).map
        (key .gc)).Nodup := hnd.sublist (hsub.map _)
    have hcount := length_filter_keys_subset (key .gc) _ _ hnd2 hclean
      (fun c hc => hdirty c (List.mem_filter.mp hc).1
        (by simpa using (List.mem_filter.mp hc).2))
    refine ⟨?_, ?_, ?_⟩
    · rw [h4, h3 .gc, h2]
      unfold Batchstore.subU64
      omega
    · rw [h3 .gc]
      exact hnd2.sublist ((List.filter_sublist _).map _)
    · intro c hc hclean j x hx
      rw [h3 j] at hx
      have hx2 := (List.mem_filter.mp hx).2
      simp only [decide_eq_true_eq] at hx2
      intro heq
      apply hx2
      rw [heq]
      apply List.mem_map_of_mem
      apply List.mem_filter.mpr
      exact ⟨hc, by simpa using hclean⟩

/-- C20 at a concrete run: six gc entries and `gcSize = 6` before; while the run is under way
another task requests the chunk of address 1, the oldest candidate, whose gc entry moves to a
new key and whose address is logged dirty. The run deletes the other candidate only: five gc
entries and `gcSize = 5` after, the chunk of address 2 gone from every index, the chunk of
address 1 still in the gc index. -/
theorem C20_gc_accounting_witness :
    dbSix.gcSize = (dbSix.index .gc).length ∧
      (accessOne { dbSix with gcRunning := true }).index .gc ≠ dbSix.index .gc ∧
      (dbSix.collectGarbage keyAccess 4 accessOne).candidates = [mkItem 1 10, mkItem 2 20] ∧
      (dbSix.collectGarbage keyAccess 4 accessOne).db.gcSize = 5 ∧
      ((dbSix.collectGarbage keyAccess 4 accessOne).db.index .gc).length = 5 ∧
      mkItem 1 70 ∈ (dbSix.collectGarbage keyAccess 4 accessOne).db.index .gc ∧
      ∀ j : IndexName, ∀ x ∈ (dbSix.collectGarbage keyAccess 4 accessOne).db.index j,
        keyAccess j x ≠ keyAccess j (mkItem 2 20) := by
  have h := C20_gc_accounting keyAccess 4 accessOne dbSix (by decide) (by decide) (by decide)
    (by decide) (by decide) (by decide) (by decide)
  refine ⟨by decide, by decide, by decide, by decide, ?_, by decide, ?_⟩
  · rw [← h.1]
    decide
  · exact h.2.2 (mkItem 2 20) (by decide) (by decide)

/-! ## Float arithmetic -/

/-- Zero has no binary digits. -/
theorem bitLength_zero (f : Nat) : bitLength f 0 = 0 := by
  cases f <;> simp [bitLength]

/-- With enough fuel `bitLength` is the number of binary digits: `n < 2 ^ bitLength n ≤ 2 n`. -/
theorem bitLength_spec : ∀ (f n : Nat), n < 2 ^ f →
    n < 2 ^ bitLength f n ∧ (n ≠ 0 → 2 ^ bitLength f n ≤ 2 * n)
  | 0, n, h => by
    have h0 : n = 0 := by simpa using h
    subst h0
    simp [bitLength]
  | f + 1, n, h => by
    by_cases hn : n = 0
    · subst hn
      simp [bitLength]
    · have h2 : n / 2 < 2 ^ f := by
        rw [Nat.pow_succ] at h
        omega
      have ih := bitLength_spec f (n / 2) h2
      simp only [bitLength, if_neg hn, Nat.pow_succ]
      by_cases hh : n / 2 = 0
      · rw [hh, bitLength_zero]
        have : n = 1 := by omega
        subst this
        simp
      · have ih2 := ih.2 hh
        have ih1 := ih.1
        generalize 2 ^ bitLength f (n / 2) = X at ih1 ih2
        constructor
        · omega
        · intro _; omega

/-- A number below `2 ^ B` has at most `B` binary digits. -/
theorem bitLength_le : ∀ (f n B : Nat), n < 2 ^ B → bitLength f n ≤ B
  | 0, _, _, _ => by simp [bitLength]
  | f + 1, n, B, h => by
    by_cases hn : n = 0
    · simp [bitLength, hn]
    · simp only [bitLength, if_neg hn]
      cases B with
      | zero => simp at h; exact absurd h hn
      | succ B =>
        have h2 : n / 2 < 2 ^ B := by
          rw [Nat.pow_succ] at h
          omega
        have := bitLength_le f (n / 2) B h2
        omega

/-- Rounding moves to a neighbouring multiple of the unit `2 ^ d`, by at most half a unit
upwards. -/
theorem roundFloat64_bounds (m : Nat) :
    m / 2 ^ (bitLength 128 m - 53) * 2 ^ (bitLength 128 m - 53) ≤ roundFloat64 m ∧
    2 * roundFloat64 m ≤ 2 * m + 2 ^ (bitLength 128 m - 53) := by
  unfold roundFloat64
  simp only []
  have hX : 0 < 2 ^ (bitLength 128 m - 53) := Nat.pow_pos (by decide)
  have hm := Nat.div_add_mod m (2 ^ (bitLength 128 m - 53))
  have hr := Nat.mod_lt m hX
  generalize 2 ^ (bitLength 128 m - 53) = X at hX hm hr ⊢
  generalize m % X = r at hm hr ⊢
  generalize m / X = q at hm ⊢
  rw [Nat.mul_comm X q] at hm
  split
  · rename_i hc
    rw [Nat.add_mul, Nat.one_mul]
    constructor
    · omega
    · rcases hc with hc | ⟨hc, _⟩ <;> omega
  · constructor
    · omega
    · omega

/-- A number of at most 53 bits is a float. -/
theorem roundFloat64_exact (m : Nat) (h : m < 2 ^ 53) : roundFloat64 m = m := by
  have hb : bitLength 128 m - 53 = 0 := by
    have := bitLength_le 128 m 53 h
    omega
  unfold roundFloat64
  simp [hb, Nat.mod_one]

/-- The relative error of rounding upwards is at most `2 ^ -53`. -/
theorem roundFloat64_le (m : Nat) (h : m < 2 ^ 128) :
    2 ^ 53 * roundFloat64 m ≤ (2 ^ 53 + 1) * m := by
  by_cases hm : m < 2 ^ 53
  · rw [roundFloat64_exact m hm]
    exact Nat.mul_le_mul_right m (by norm_num)
  · have hb := roundFloat64_bounds m
    have hs := bitLength_spec 128 m h
    have hm0 : m ≠ 0 := by
      intro h0; subst h0; simp at hm
    have h2 := hs.2 hm0
    have hge : 54 ≤ bitLength 128 m := by
      by_contra hlt
      have hle : bitLength 128 m ≤ 53 := by omega
      have := Nat.pow_le_pow_right (show 0 < 2 by decide) hle
      have := hs.1
      omega
    have he : 2 ^ bitLength 128 m = 2 ^ (bitLength 128 m - 53) * 2 ^ 53 := by
      rw [← Nat.pow_add]
      congr 1
      omega
    rw [he] at h2
    have hb2 := hb.2
    generalize 2 ^ (bitLength 128 m - 53) = X at h2 hb2
    generalize roundFloat64 m = R at hb2 ⊢
    norm_num at h2 ⊢
    omega

/-- When `p` lies in the interval `[t 2^K, (t+1) 2^K)` with at least half a rounding unit
below its upper end, the float nearest to `p` lies in the same interval. -/
theorem roundFloat64_floor (p t K D : Nat) (hp : p < 2 ^ (53 + D)) (hD : D ≤ K)
    (hlo : t * 2 ^ K ≤ p) (hhi : 2 * p + 2 ^ D < 2 * ((t + 1) * 2 ^ K)) :
    roundFloat64 p / 2 ^ K = t := by
  have hb := roundFloat64_bounds p
  have hd : bitLength 128 p - 53 ≤ D := by
    have := bitLength_le 128 p (53 + D) hp
    omega
  have hXD : 2 ^ (bitLength 128 p - 53) ≤ 2 ^ D := Nat.pow_le_pow_right (by decide) hd
  have hK : 2 ^ K = 2 ^ (K - (bitLength 128 p - 53)) * 2 ^ (bitLength 128 p - 53) := by
    rw [← Nat.pow_add]
    congr 1
    omega
  have hX : 0 < 2 ^ (bitLength 128 p - 53) := Nat.pow_pos (by decide)
  have hlow : t * 2 ^ K ≤ p / 2 ^ (bitLength 128 p - 53) * 2 ^ (bitLength 128 p - 53) := by
    rw [hK, ← Nat.mul_assoc]
    apply Nat.mul_le_mul_right
    rw [Nat.le_div_iff_mul_le hX, Nat.mul_assoc, ← hK]
    exact hlo
  have h1 : t * 2 ^ K ≤ roundFloat64 p := Nat.le_trans hlow hb.1
  have h2 : roundFloat64 p < (t + 1) * 2 ^ K := by omega
  have hKpos : 0 < 2 ^ K := Nat.pow_pos (by decide)
  apply Nat.div_eq_of_lt_le
  · exact h1
  · exact h2
/-- For a cache capacity of at most `2 ^ 50` the float product of `gcTarget` truncates to
`⌊0.9 c⌋`. -/
theorem gcTarget_floor (db : DB) (h : db.cacheCapacity ≤ 2 ^ 50) :
    db.gcTarget = db.cacheCapacity * 9 / 10 := by
  simp only [DB.gcTarget, Float64.toUint64, Float64.mul, Float64.ofUint64, gcTargetRatio,
    Nat.zero_add]
  generalize db.cacheCapacity = c at h
  norm_num at h
  rw [roundFloat64_exact c (by norm_num; omega)]
  apply roundFloat64_floor _ _ 53 50
  · norm_num; omega
  · decide
  · norm_num; omega
  · norm_num; omega

/-- For every `uint64` cache capacity `gcTarget` is at most the capacity. -/
theorem gcTarget_le (db : DB) (h : db.cacheCapacity < 2 ^ 64) :
    db.gcTarget ≤ db.cacheCapacity := by
  simp only [DB.gcTarget, Float64.toUint64, Float64.mul, Float64.ofUint64, gcTargetRatio,
    Nat.zero_add]
  generalize db.cacheCapacity = c at h
  have h1 := roundFloat64_le c (Nat.lt_trans h (by norm_num))
  have hp : roundFloat64 c * 8106479329266893 < 2 ^ 128 := by
    norm_num at h h1 ⊢
    omega
  have h2 := roundFloat64_le _ hp
  apply Nat.div_le_of_le_mul
  generalize roundFloat64 (roundFloat64 c * 8106479329266893) = R at h2
  generalize roundFloat64 c = F at h1 h2
  norm_num at h1 h2 ⊢
  omega

/-- For a cache capacity below `2 ^ 53` the product with `reserveCollectionRatio` truncates to
`⌊c / 2⌋`. -/
theorem reserveCollection_floor (c : Nat) (h : c < 2 ^ 53) :
    ((Float64.ofUint64 c).mul reserveCollectionRatio).toUint64 = c / 2 := by
  simp only [Float64.toUint64, Float64.mul, Float64.ofUint64, reserveCollectionRatio,
    Nat.zero_add, Nat.mul_one, Nat.pow_one]
  rw [roundFloat64_exact c h, roundFloat64_exact c h]

/-- For a reserve capacity of at most `2 ^ 52` the product with
`maxPurgeablePercentageOfReserve` truncates to `⌊c / 10⌋`. -/
theorem maxPurgeable_floor (c : Nat) (h : c ≤ 2 ^ 52) :
    ((Float64.ofUint64 c).mul maxPurgeablePercentageOfReserve).toUint64 = c / 10 := by
  simp only [Float64.toUint64, Float64.mul, Float64.ofUint64, maxPurgeablePercentageOfReserve,
    Nat.zero_add]
  norm_num at h
  rw [roundFloat64_exact c (by norm_num; omega)]
  apply roundFloat64_floor _ _ 55 51
  · norm_num; omega
  · decide
  · norm_num; omega
  · norm_num; omega
/-- C21 is refuted as stated: with both capacities 1000 the target is 900, the reserve capacity
minus the smaller of `⌊1000 × 0.5⌋ = 500` and `⌊1000 × 0.1⌋ = 100`, not 500. -/
theorem C21_reserve_eviction_target_counterexample :
    (dbOfCapacity 1000 1000).reserveEvictionTarget = 900 ∧
    1000 - max (1000 / 2) (1000 / 10) = 500 := by
  decide

/-- C21 (amended): for a cache capacity below `2 ^ 53` and a reserve capacity of at most
`2 ^ 52` with `⌊cacheCapacity × 0.5⌋ ≤ reserveCapacity`, `reserveEvictionTarget()` is
`reserveCapacity − min(⌊cacheCapacity × 0.5⌋, ⌊reserveCapacity × 0.1⌋)`: the larger of the two
candidate targets, so the smaller of the two amounts is subtracted. -/
theorem C21_reserve_eviction_target (db : DB) (hc : db.cacheCapacity < 2 ^ 53)
    (hr : db.reserveCapacity ≤ 2 ^ 52) (hw : db.cacheCapacity / 2 ≤ db.reserveCapacity) :
    db.reserveEvictionTarget
      = db.reserveCapacity - min (db.cacheCapacity / 2) (db.reserveCapacity / 10) := by
  simp only [DB.reserveEvictionTarget, reserveCollection_floor _ hc, maxPurgeable_floor _ hr,
    Batchstore.subU64]
  norm_num at hc hr
  split <;> omega

/-- C21 (amended) at a cache capacity of 1000000 and a reserve capacity of 4194304. -/
theorem C21_reserve_eviction_target_witness :
    ((1000000 : Nat) < 2 ^ 53 ∧ (4194304 : Nat) ≤ 2 ^ 52 ∧ 1000000 / 2 ≤ 4194304) ∧
    (dbOfCapacity 1000000 4194304).reserveEvictionTarget = 3774874 :=
  ⟨⟨by norm_num, by norm_num, by norm_num⟩,
    C21_reserve_eviction_target (dbOfCapacity 1000000 4194304) (by norm_num [dbOfCapacity])
      (by norm_num [dbOfCapacity]) (by norm_num [dbOfCapacity])⟩

set_option maxRecDepth 100000 in
/-- C22 is refuted as stated: for a cache capacity of `2 × 10^15 + 1` the float product rounds
up to `1800000000000001`, one more than `⌊c × 0.9⌋`. -/
theorem C22_gc_target_counterexample :
    (dbOfCapacity 2000000000000001 0).gcTarget = 1800000000000001 ∧
    2000000000000001 * 9 / 10 = 1800000000000000 := by
  decide

/-- C22 (amended): for every cache capacity `c ≤ 2 ^ 50`, `gcTarget() = ⌊c × 0.9⌋`; and for
every cache capacity (a `uint64`), `gcTarget() ≤ cacheCapacity`. -/
theorem C22_gc_target (db : DB) (h : db.cacheCapacity < 2 ^ 64) :
    (db.cacheCapacity ≤ 2 ^ 50 → db.gcTarget = db.cacheCapacity * 9 / 10) ∧
    db.gcTarget ≤ db.cacheCapacity :=
  ⟨gcTarget_floor db, gcTarget_le db h⟩

/-- C22 (amended) at a cache capacity of 100: the target is 90. -/
theorem C22_gc_target_witness :
    (100 : Nat) < 2 ^ 64 ∧ (dbOfCapacity 100 0).gcTarget = 90 ∧
    (dbOfCapacity 100 0).gcTarget ≤ 100 :=
  ⟨by norm_num, (C22_gc_target (dbOfCapacity 100 0) (by norm_num [dbOfCapacity])).1
      (by norm_num [dbOfCapacity]),
    (C22_gc_target (dbOfCapacity 100 0) (by norm_num [dbOfCapacity])).2⟩

/-! ## Reserve eviction -/

/-- The run of the callback of `evictReserve` over a queue, from a state in which no callback
has yet seen the target reached or the batch limit exceeded: the callback counter counts the
invocations; every value of `totalEvicted` observed before the last one is below the batch
limit and above the target; after an error none of the observed values reached the target;
without an error `done` is set exactly when an observed value reached the target; when no
`UnreserveBatch` call evicts more than `m` chunks, `totalEvicted` is at most `199 + m`; and an
error comes from a callback. -/
theorem evictReserve_iterate {ε : Type} (unreserveBatch : DB → Bytes → Nat → DB × Except ε Nat)
    (start target : Nat) (q : List (Nat × Batchstore.UnreserveItem)) :
    ∀ r0 : Batchstore.UnreserveRun EvictState ε,
      r0.err = none → r0.cbState.done = false →
      (∀ t ∈ r0.cbState.observed, ¬ Batchstore.subU64 start t ≤ target ∧ t < 200) →
      r0.cbState.totalCallbacks = r0.called.length →
      r0.cbState.totalEvicted < 200 →
      (Batchstore.store.UnreserveIterate (evictReserveCallback unreserveBatch start target) q r0
        ).cbState.totalCallbacks
        = (Batchstore.store.UnreserveIterate (evictReserveCallback unreserveBatch start target) q r0
          ).called.length ∧
      (∀ t ∈ (Batchstore.store.UnreserveIterate (evictReserveCallback unreserveBatch start target)
          q r0).cbState.observed.dropLast, ¬ Batchstore.subU64 start t ≤ target ∧ t < 200) ∧
      ((Batchstore.store.UnreserveIterate (evictReserveCallback unreserveBatch start target) q r0
          ).err ≠ none →
        ∀ t ∈ (Batchstore.store.UnreserveIterate (evictReserveCallback unreserveBatch start target)
          q r0).cbState.observed, ¬ Batchstore.subU64 start t ≤ target) ∧
      ((Batchstore.store.UnreserveIterate (evictReserveCallback unreserveBatch start target) q r0
          ).err = none →
        ((Batchstore.store.UnreserveIterate (evictReserveCallback unreserveBatch start target) q r0
          ).cbState.done = true ↔
          ∃ t ∈ (Batchstore.store.UnreserveIterate
            (evictReserveCallback unreserveBatch start target) q r0).cbState.observed,
            Batchstore.subU64 start t ≤ target)) ∧
      (∀ m, (∀ db id rad e, (unreserveBatch db id rad).2 = .ok e → e ≤ m) →
        (Batchstore.store.UnreserveIterate (evictReserveCallback unreserveBatch start target) q r0
          ).cbState.totalEvicted ≤ 199 + m) ∧
      ((Batchstore.store.UnreserveIterate (evictReserveCallback unreserveBatch start target) q r0
          ).err ≠ none →
        (Batchstore.store.UnreserveIterate (evictReserveCallback unreserveBatch start target) q r0
          ).called ≠ []) := by
  induction q with
  | nil =>
    intro r0 he hd ho hc ht
    simp only [Batchstore.store.UnreserveIterate]
    refine ⟨hc, fun t h => ho t (List.mem_of_mem_dropLast h), fun h => absurd he h, fun _ => ?_,
      fun m _ => by omega, fun h => absurd he h⟩
    rw [hd]
    constructor
    · intro h; cases h
    · rintro ⟨t, h1, h2⟩; exact absurd h2 (ho t h1).1
  | cons kv rest ih =>
    intro r0 he hd ho hc ht
    obtain ⟨key, v⟩ := kv
    simp only [Batchstore.store.UnreserveIterate, evictReserveCallback]
    cases hu : unreserveBatch r0.cbState.db v.BatchID v.Radius with
    | mk db1 res =>
      cases res with
      | error err =>
        simp only []
        refine ⟨by simp [hc], fun t h => ho t (List.mem_of_mem_dropLast h),
          fun _ t h => (ho t h).1, fun h => by simp at h, fun m _ => by omega, fun _ => by simp⟩
      | ok e =>
        simp only []
        generalize htt : (r0.cbState.totalEvicted + e) % 18446744073709551616 = tt
        have htle : ∀ m, (∀ db id rad e, (unreserveBatch db id rad).2 = .ok e → e ≤ m) →
            tt ≤ 199 + m := by
          intro m hm
          have hle : e ≤ m := hm _ _ _ e (by rw [hu])
          omega
        by_cases h1 : Batchstore.subU64 start tt ≤ target
        · simp only [if_pos h1, if_true]
          refine ⟨by simp [hc], ?_, fun h => absurd he h, fun _ => ?_, htle, fun h => absurd he h⟩
          · rw [List.dropLast_concat]; exact ho
          · simp only [true_iff]
            exact ⟨tt, by simp, h1⟩
        · by_cases h2 : tt ≥ reserveEvictionBatch
          · simp only [if_neg h1, if_pos h2, if_true]
            refine ⟨by simp [hc], ?_, fun h => absurd he h, fun _ => ?_, htle, fun h => absurd he h⟩
            · rw [List.dropLast_concat]; exact ho
            · rw [hd]
              constructor
              · intro h; cases h
              · rintro ⟨t, h3, h4⟩
                rcases List.mem_append.1 h3 with h5 | h5
                · exact absurd h4 (ho t h5).1
                · rw [List.mem_singleton.1 h5] at h4
                  exact absurd h4 h1
          · simp only [if_neg h1, if_neg h2]
            have h2b : tt < 200 := by
              simp only [reserveEvictionBatch] at h2
              omega
            apply ih
            · exact he
            · exact hd
            · intro t h3
              rcases List.mem_append.1 h3 with h5 | h5
              · exact ho t h5
              · rw [List.mem_singleton.1 h5]
                exact ⟨h1, h2b⟩
            · simp [hc]
            · exact h2b

/-- The callbacks of a run of `Unreserve` with the callback of `evictReserve`, told from the
queue: the callback is invoked on the items of the queue in queue order, on at least one item
unless the queue is empty; the values of `totalEvicted` it observes are the running totals of
what `UnreserveBatch` evicted; it answers `stop` exactly when the total has brought the reserve
to the target or has reached `reserveEvictionBatch`; and the iteration goes on to the next item
exactly after an answer `stop = false`. -/
theorem evictReserve_trace {ε : Type} (unreserveBatch : DB → Bytes → Nat → DB × Except ε Nat)
    (start target : Nat) (q : List (Nat × Batchstore.UnreserveItem)) :
    ∀ r0 : Batchstore.UnreserveRun EvictState ε,
      ∃ calls : List (Batchstore.UnreserveItem × Except ε Bool),
        (Batchstore.store.UnreserveIterate (evictReserveCallback unreserveBatch start target) q r0
          ).called = r0.called ++ calls ∧
        (Batchstore.store.UnreserveIterate (evictReserveCallback unreserveBatch start target) q r0
          ).cbState.observed = r0.cbState.observed ++
            evictedTotals unreserveBatch r0.cbState.db r0.cbState.totalEvicted
              (calls.map (fun x => x.1)) ∧
        calls.map (fun x => x.1) = (q.map (fun x => x.2)).take calls.length ∧
        (calls = [] ↔ q = []) ∧
        (∀ x ∈ calls.dropLast, x.2 = .ok false) ∧
        (calls.length < q.length → ∃ x, calls.getLast? = some x ∧ x.2 ≠ .ok false) ∧
        calls.filterMap (fun x => x.2.toOption)
          = (evictedTotals unreserveBatch r0.cbState.db r0.cbState.totalEvicted
              (calls.map (fun x => x.1))).map
              (fun t => decide (Batchstore.subU64 start t ≤ target ∨ t ≥ reserveEvictionBatch)) ∧
        (((Batchstore.store.UnreserveIterate (evictReserveCallback unreserveBatch start target)
            q r0).err = r0.err ∧ ∀ x ∈ calls, ∃ stop, x.2 = .ok stop) ∨
          ∃ err, (Batchstore.store.UnreserveIterate
              (evictReserveCallback unreserveBatch start target) q r0).err = some err ∧
            ∃ x, calls.getLast? = some x ∧ x.2 = .error err) := by
  induction q with
  | nil =>
    intro r0
    exact ⟨[], by simp [Batchstore.store.UnreserveIterate],
      by simp [Batchstore.store.UnreserveIterate, evictedTotals], rfl, by simp, by simp,
      by simp, by simp [evictedTotals], Or.inl ⟨rfl, by simp⟩⟩
  | cons kv rest ih =>
    intro r0
    obtain ⟨key, v⟩ := kv
    simp only [Batchstore.store.UnreserveIterate, evictReserveCallback]
    cases hu : unreserveBatch r0.cbState.db v.BatchID v.Radius with
    | mk db1 res =>
      cases res with
      | error err =>
        simp only []
        refine ⟨[(v, .error err)], rfl, ?_, by simp, by simp, by simp, ?_, ?_,
          Or.inr ⟨err, rfl, (v, .error err), rfl, rfl⟩⟩
        · simp [evictedTotals, hu]
        · intro _
          exact ⟨(v, .error err), rfl, by simp⟩
        · simp [evictedTotals, hu, Except.toOption]
      | ok e =>
        simp only []
        generalize htt : (r0.cbState.totalEvicted + e) % 18446744073709551616 = tt
        by_cases h1 : Batchstore.subU64 start tt ≤ target
        · simp only [if_pos h1, if_true]
          refine ⟨[(v, .ok true)], rfl, ?_, by simp, by simp, by simp, ?_, ?_,
            Or.inl ⟨trivial, by simp⟩⟩
          · simp [evictedTotals, hu, htt]
          · intro _
            exact ⟨(v, .ok true), rfl, by simp⟩
          · simp [evictedTotals, hu, htt, Except.toOption, h1]
        · by_cases h2 : tt ≥ reserveEvictionBatch
          · simp only [if_neg h1, if_pos h2, if_true]
            refine ⟨[(v, .ok true)], rfl, ?_, by simp, by simp, by simp, ?_, ?_,
            Or.inl ⟨trivial, by simp⟩⟩
            · simp [evictedTotals, hu, htt]
            · intro _
              exact ⟨(v, .ok true), rfl, by simp⟩
            · simp [evictedTotals, hu, htt, Except.toOption, h2]
          · simp only [if_neg h1, if_neg h2]
            have step : ∀ r1 : Batchstore.UnreserveRun EvictState ε,
                r1.called = r0.called ++ [(v, .ok false)] →
                r1.cbState.observed = r0.cbState.observed ++ [tt] →
                r1.cbState.db = db1 → r1.cbState.totalEvicted = tt → r1.err = r0.err →
                ∃ calls : List (Batchstore.UnreserveItem × Except ε Bool),
                  (Batchstore.store.UnreserveIterate
                    (evictReserveCallback unreserveBatch start target) rest r1).called
                    = r0.called ++ calls ∧
                  (Batchstore.store.UnreserveIterate
                    (evictReserveCallback unreserveBatch start target) rest r1).cbState.observed
                    = r0.cbState.observed ++
                      evictedTotals unreserveBatch r0.cbState.db r0.cbState.totalEvicted
                        (calls.map (fun x => x.1)) ∧
                  calls.map (fun x => x.1)
                    = (((key, v) :: rest).map (fun x => x.2)).take calls.length ∧
                  (calls = [] ↔ (key, v) :: rest = []) ∧
                  (∀ x ∈ calls.dropLast, x.2 = .ok false) ∧
                  (calls.length < ((key, v) :: rest).length →
                    ∃ x, calls.getLast? = some x ∧ x.2 ≠ .ok false) ∧
                  calls.filterMap (fun x => x.2.toOption)
                    = (evictedTotals unreserveBatch r0.cbState.db r0.cbState.totalEvicted
                        (calls.map (fun x => x.1))).map
                        (fun t => decide (Batchstore.subU64 start t ≤ target ∨
                          t ≥ reserveEvictionBatch)) ∧
                  (((Batchstore.store.UnreserveIterate
                      (evictReserveCallback unreserveBatch start target) rest r1).err = r0.err ∧
                      ∀ x ∈ calls, ∃ stop, x.2 = .ok stop) ∨
                    ∃ err, (Batchstore.store.UnreserveIterate
                        (evictReserveCallback unreserveBatch start target) rest r1).err
                        = some err ∧
                      ∃ x, calls.getLast? = some x ∧ x.2 = .error err) := by
              intro r1 e1 e2 e3 e4 e5
              obtain ⟨calls, c1, c2, c3, c4, c5, c6, c7, c8⟩ := ih r1
              rw [e1] at c1
              rw [e2, e3, e4] at c2
              rw [e3, e4] at c7
              refine ⟨(v, .ok false) :: calls, ?_, ?_, ?_, by simp, ?_, ?_, ?_, ?_⟩
              · rw [c1]
                simp
              · rw [c2]
                simp [evictedTotals, hu, htt]
              · simp only [List.map_cons, List.length_cons, List.take_succ_cons]
                rw [← c3]
              · intro x hx
                cases calls with
                | nil => simp at hx
                | cons y ys =>
                  rw [List.dropLast_cons₂] at hx
                  rcases List.mem_cons.1 hx with hx | hx
                  · rw [hx]
                  · exact c5 x hx
              · intro hlen
                simp only [List.length_cons, Nat.add_lt_add_iff_right] at hlen
                obtain ⟨x, hx1, hx2⟩ := c6 hlen
                refine ⟨x, ?_, hx2⟩
                cases calls with
                | nil => simp at hx1
                | cons y ys =>
                  rw [List.getLast?_cons_cons]
                  exact hx1
              · have hf : List.filterMap (fun x : Batchstore.UnreserveItem × Except ε Bool =>
                    x.2.toOption) ((v, .ok false) :: calls)
                    = false :: List.filterMap (fun x => x.2.toOption) calls := rfl
                rw [hf, c7]
                simp [evictedTotals, hu, htt, h1, h2]
              · rcases c8 with ⟨c8, c9⟩ | ⟨err, c8, x, c9, c10⟩
                · refine Or.inl ⟨by rw [c8, e5], ?_⟩
                  intro x hx
                  rcases List.mem_cons.1 hx with hx | hx
                  · exact ⟨false, by rw [hx]⟩
                  · exact c9 x hx
                · refine Or.inr ⟨err, c8, x, ?_, c10⟩
                  cases calls with
                  | nil => simp at c9
                  | cons y ys =>
                    rw [List.getLast?_cons_cons]
                    exact c9
            exact step _ rfl rfl rfl rfl rfl

/-- C23: `evictReserve` returns `done = true` with no error exactly when the reserve size at
the start equals the target, or the callback was invoked zero times, or some callback observed
`reserveSizeStart − totalEvicted ≤ target` (a `uint64` subtraction); and whenever its
`UnreserveBatch` call succeeds, the callback asks the queue to stop exactly when that condition
holds or `totalEvicted ≥ reserveEvictionBatch`. The callbacks and the totals they observe are
those of the queue of the batch store: unless the run returns at once at
`reserveSizeStart == target`, the callback is invoked on the items of the queue in queue order,
on none exactly when the queue is empty, and on the next item exactly when it answered
`stop = false`; the totals observed are the running totals of what `UnreserveBatch` evicted
from these items; the answers are the stop condition at each total; and an error returned is
that of the last callback, with `done = false` and `totalEvicted = 0`. -/
theorem C23_evict_reserve_done {ε : Type}
    (unreserveBatch : DB → Bytes → Nat → DB × Except ε Nat) (db : DB) (bs : Batchstore.store) :
    (((db.evictReserve unreserveBatch bs).done = true ∧
        (db.evictReserve unreserveBatch bs).err = none) ↔
      (db.reserveSize = db.reserveEvictionTarget ∨
        (db.evictReserve unreserveBatch bs).called = [] ∨
        ∃ t ∈ (db.evictReserve unreserveBatch bs).observed,
          Batchstore.subU64 db.reserveSize t ≤ db.reserveEvictionTarget)) ∧
    (∀ (start target : Nat) (st st1 : EvictState) (id : Bytes) (rad : Nat) (stop : Bool),
      evictReserveCallback unreserveBatch start target st id rad = (st1, .ok stop) →
      (stop = true ↔ (Batchstore.subU64 start st1.totalEvicted ≤ target ∨
        st1.totalEvicted ≥ reserveEvictionBatch))) ∧
    ((db.evictReserve unreserveBatch bs).called.map (fun x => x.1)
      = (bs.backend.queue.map (fun x => x.2)).take
          (db.evictReserve unreserveBatch bs).called.length) ∧
    ((db.evictReserve unreserveBatch bs).called = [] ↔
      (db.reserveSize = db.reserveEvictionTarget ∨ bs.backend.queue = [])) ∧
    (∀ x ∈ (db.evictReserve unreserveBatch bs).called.dropLast, x.2 = .ok false) ∧
    (db.reserveSize ≠ db.reserveEvictionTarget →
      (db.evictReserve unreserveBatch bs).called.length < bs.backend.queue.length →
      ∃ x, (db.evictReserve unreserveBatch bs).called.getLast? = some x ∧ x.2 ≠ .ok false) ∧
    ((db.evictReserve unreserveBatch bs).observed
      = evictedTotals unreserveBatch db 0
          ((db.evictReserve unreserveBatch bs).called.map (fun x => x.1))) ∧
    ((db.evictReserve unreserveBatch bs).called.filterMap (fun x => x.2.toOption)
      = (db.evictReserve unreserveBatch bs).observed.map
          (fun t => decide (Batchstore.subU64 db.reserveSize t ≤ db.reserveEvictionTarget ∨
            t ≥ reserveEvictionBatch))) ∧
    (((db.evictReserve unreserveBatch bs).err = none ∧
        ∀ x ∈ (db.evictReserve unreserveBatch bs).called, ∃ stop, x.2 = .ok stop) ∨
      ∃ err, (db.evictReserve unreserveBatch bs).err = some err ∧
        (db.evictReserve unreserveBatch bs).done = false ∧
        (db.evictReserve unreserveBatch bs).totalEvicted = 0 ∧
        ∃ x, (db.evictReserve unreserveBatch bs).called.getLast? = some x ∧
          x.2 = .error err) := by
  have hcb : ∀ (start target : Nat) (st st1 : EvictState) (id : Bytes) (rad : Nat) (stop : Bool),
      evictReserveCallback unreserveBatch start target st id rad = (st1, .ok stop) →
      (stop = true ↔ (Batchstore.subU64 start st1.totalEvicted ≤ target ∨
        st1.totalEvicted ≥ reserveEvictionBatch)) := by
    intro start target st st1 id rad stop h
    simp only [evictReserveCallback] at h
    cases hu : unreserveBatch st.db id rad with
    | mk db1 res =>
      rw [hu] at h
      cases res with
      | error err => simp at h
      | ok e =>
        simp only [] at h
        by_cases h1 : Batchstore.subU64 start ((st.totalEvicted + e) % 18446744073709551616) ≤ target
        · simp only [if_pos h1, Prod.mk.injEq, Except.ok.injEq] at h
          obtain ⟨hs, hstop⟩ := h
          subst hs
          simp [← hstop, h1]
        · by_cases h2 : (st.totalEvicted + e) % 18446744073709551616 ≥ reserveEvictionBatch
          · simp only [if_neg h1, if_pos h2, Prod.mk.injEq, Except.ok.injEq] at h
            obtain ⟨hs, hstop⟩ := h
            subst hs
            simp [← hstop, h2]
          · simp only [if_neg h1, if_neg h2, Prod.mk.injEq, Except.ok.injEq] at h
            obtain ⟨hs, hstop⟩ := h
            subst hs
            simp [← hstop, h1, h2]
  refine ⟨?_, hcb, ?_⟩
  · unfold DB.evictReserve
    simp only []
    by_cases h0 : db.reserveSize = db.reserveEvictionTarget
    · simp [h0]
    · simp only [if_neg h0]
      simp only [h0, false_or]
      have h := evictReserve_iterate unreserveBatch db.reserveSize db.reserveEvictionTarget
        bs.backend.queue
        { s := bs, cbState := { db := db, totalCallbacks := 0, totalEvicted := 0, done := false,
                                observed := [] },
          entries := [], called := [], err := none }
        rfl rfl (by simp) rfl (by simp)
      simp only [Batchstore.store.Unreserve]
      obtain ⟨h1, _, h3, h4, _, h6⟩ := h
      generalize Batchstore.store.UnreserveIterate
        (evictReserveCallback unreserveBatch db.reserveSize db.reserveEvictionTarget)
        bs.backend.queue _ = r at h1 h3 h4 h6
      cases he : r.err with
      | some err =>
        simp only []
        have hc : r.called ≠ [] := h6 (by simp [he])
        have ho := h3 (by simp [he])
        constructor
        · rintro ⟨h, _⟩; cases h
        · rintro (h | ⟨t, ht1, ht2⟩)
          · exact absurd h hc
          · exact absurd ht2 (ho t ht1)
      | none =>
        simp only [and_true]
        have hd := h4 he
        by_cases hz : r.cbState.totalCallbacks = 0
        · have hcal : r.called = [] := by
            rw [hz] at h1
            exact List.length_eq_zero.1 h1.symm
          simp [hz, hcal]
        · have hcal : r.called ≠ [] := by
            intro hcal
            rw [hcal] at h1
            exact hz h1
          simp only [if_neg hz, hcal, false_or]
          exact hd
  · unfold DB.evictReserve
    simp only []
    by_cases h0 : db.reserveSize = db.reserveEvictionTarget
    · simp only [if_pos h0]
      refine ⟨?_, ?_, ?_, fun h => absurd h0 h, ?_, ?_, Or.inl ⟨?_, ?_⟩⟩ <;>
        simp [h0, evictedTotals]
    · simp only [if_neg h0]
      obtain ⟨calls, t1, t2, t3, t4, t5, t6, t7, t8⟩ := evictReserve_trace unreserveBatch
        db.reserveSize db.reserveEvictionTarget bs.backend.queue
        { s := bs, cbState := { db := db, totalCallbacks := 0, totalEvicted := 0, done := false,
                                observed := [] },
          entries := [], called := [], err := none }
      simp only [Batchstore.store.Unreserve]
      generalize Batchstore.store.UnreserveIterate
        (evictReserveCallback unreserveBatch db.reserveSize db.reserveEvictionTarget)
        bs.backend.queue _ = r at t1 t2 t8
      simp only [List.nil_append] at t1 t2 t7 t8
      rcases t8 with ⟨t8, t9⟩ | ⟨err, t8, t9⟩
      · simp only [t8, t1, t2]
        exact ⟨t3, by simp [h0, t4], t5, fun _ => t6, trivial, t7, Or.inl ⟨trivial, t9⟩⟩
      · simp only [t8, t1, t2]
        refine ⟨t3, by simp [h0, t4], t5, fun _ => t6, trivial, t7, Or.inr ⟨err, ?_, ?_, ?_, t9⟩⟩
        all_goals simp

/-- C23 at a full reserve of 4194304 chunks (target 3774874) and a queue of five batches of
1000 chunks each: the callback is invoked on the first item of the queue only, observes
`totalEvicted = 1000`, which is above the batch limit and leaves the reserve above the target,
and the run does not return `done = true`. -/
theorem C23_evict_reserve_done_witness :
    Batchstore.storeScenario6.backend.queue.map (fun x => x.2.BatchID)
      = [[1], [2], [3], [4], [5]] ∧
    (dbFullReserve.evictReserve unreserveThousand Batchstore.storeScenario6).called.map
      (fun x => x.1.BatchID) = [[1]] ∧
    (dbFullReserve.evictReserve unreserveThousand Batchstore.storeScenario6).observed = [1000] ∧
    ¬ ((dbFullReserve.evictReserve unreserveThousand Batchstore.storeScenario6).done = true ∧
      (dbFullReserve.evictReserve unreserveThousand Batchstore.storeScenario6).err = none) := by
  have h := (C23_evict_reserve_done unreserveThousand dbFullReserve Batchstore.storeScenario6).1
  have hobs : (dbFullReserve.evictReserve unreserveThousand Batchstore.storeScenario6).observed
      = [1000] := by decide
  have hlen : (dbFullReserve.evictReserve unreserveThousand Batchstore.storeScenario6
      ).called.length = 1 := by decide
  refine ⟨by decide, by decide, hobs, ?_⟩
  rw [h]
  rintro (h1 | h2 | ⟨t, ht, hle⟩)
  · exact absurd h1 (by decide)
  · rw [h2] at hlen
    exact absurd hlen (by decide)
  · rw [hobs, List.mem_singleton] at ht
    rw [ht] at hle
    exact absurd hle (by decide)

/-- At a full reserve and a queue of five batches of 1000 chunks each, the first callback
reaches the batch limit without reaching the target: the run is not done. -/
theorem evictReserve_full_reserve :
    (dbFullReserve.evictReserve unreserveThousand Batchstore.storeScenario6).done = false ∧
    (dbFullReserve.evictReserve unreserveThousand Batchstore.storeScenario6).err = none ∧
    (dbFullReserve.evictReserve unreserveThousand Batchstore.storeScenario6).observed = [1000] ∧
    dbFullReserve.reserveEvictionTarget = 3774874 := by
  decide

/-- C24: `reserveEvictionBatch = 200` is to limit the chunks evicted in a single run of
`evictReserve`, yet with a full reserve and a first batch of 1000 chunks in the queue a single
run makes one callback and returns `totalEvicted = 1000`: the callback adds the whole count of
`UnreserveBatch` before it compares the total with the limit. -/
theorem C24_batch_limit_exceeded :
    (dbFullReserve.evictReserve unreserveThousand Batchstore.storeScenario6).totalEvicted = 1000 ∧
    (dbFullReserve.evictReserve unreserveThousand Batchstore.storeScenario6).err = none ∧
    (dbFullReserve.evictReserve unreserveThousand Batchstore.storeScenario6).called.length = 1 ∧
    ¬ (dbFullReserve.evictReserve unreserveThousand Batchstore.storeScenario6).totalEvicted
        ≤ reserveEvictionBatch := by
  decide

/-- What the limit does give: a run of `evictReserve` stops at the first callback after which
`totalEvicted ≥ reserveEvictionBatch = 200`: every value of `totalEvicted` observed before the
last callback is below 200, and when no `UnreserveBatch` call evicts more than `m` chunks the
`totalEvicted` returned is at most `199 + m`. -/
theorem evictReserve_batch_bound {ε : Type}
    (unreserveBatch : DB → Bytes → Nat → DB × Except ε Nat) (db : DB) (bs : Batchstore.store)
    (m : Nat) (hm : ∀ db id rad e, (unreserveBatch db id rad).2 = .ok e → e ≤ m) :
    (db.evictReserve unreserveBatch bs).totalEvicted ≤ 199 + m ∧
    ∀ t ∈ (db.evictReserve unreserveBatch bs).observed.dropLast, t < reserveEvictionBatch := by
  unfold DB.evictReserve
  simp only []
  by_cases h0 : db.reserveSize = db.reserveEvictionTarget
  · simp [h0]
  · simp only [if_neg h0]
    have h := evictReserve_iterate unreserveBatch db.reserveSize db.reserveEvictionTarget
      bs.backend.queue
      { s := bs, cbState := { db := db, totalCallbacks := 0, totalEvicted := 0, done := false,
                              observed := [] },
        entries := [], called := [], err := none }
      rfl rfl (by simp) rfl (by simp)
    simp only [Batchstore.store.Unreserve]
    obtain ⟨_, h2, _, _, h5, _⟩ := h
    generalize Batchstore.store.UnreserveIterate
      (evictReserveCallback unreserveBatch db.reserveSize db.reserveEvictionTarget)
      bs.backend.queue _ = r at h2 h5
    have hb := h5 m hm
    cases he : r.err with
    | some err => exact ⟨by simp, fun t ht => (h2 t ht).2⟩
    | none => exact ⟨hb, fun t ht => (h2 t ht).2⟩

/-- At the full reserve with batches of 1000 chunks a run evicts at most 1199 chunks. -/
theorem evictReserve_batch_bound_full_reserve :
    (dbFullReserve.evictReserve unreserveThousand Batchstore.storeScenario6).totalEvicted
      ≤ 199 + 1000 ∧
    ∀ t ∈ (dbFullReserve.evictReserve unreserveThousand Batchstore.storeScenario6
      ).observed.dropLast, t < reserveEvictionBatch :=
  evictReserve_batch_bound unreserveThousand dbFullReserve Batchstore.storeScenario6 1000
    (by
      intro db id rad e h
      simp only [unreserveThousand, Except.ok.injEq] at h
      omega)

/-! ## Push subscription -/

/-- A visit moves the cursor to the entry visited. -/
theorem visit_cursor (skip : Bytes → Bool) (db : PushDB) (sub : PushSub) (k : Nat × Bytes) :
    (sub.visit skip db k).cursor = some k := by
  unfold PushSub.visit
  split
  · split <;> rfl
  · rfl

/-- The chunks a sequence of visits emits: those of the entries visited that `skip` does not
hold of, in the order of the visits. -/
theorem foldl_visit_stream (skip : Bytes → Bool) (db : PushDB) (l : List (Nat × Bytes)) :
    ∀ sub : PushSub, (l.foldl (PushSub.visit skip db) sub).stream
      = sub.stream ++ (l.filter (fun k => !skip k.2)).filterMap (fun k => db.get k.2) := by
  induction l with
  | nil => intro sub; simp
  | cons k t ih =>
    intro sub
    rw [List.foldl_cons, ih]
    unfold PushSub.visit
    cases hk : skip k.2 <;> cases hg : db.get k.2 <;> simp [hk, hg]

/-- The cursor after a sequence of visits is the last entry visited. -/
theorem foldl_visit_cursor (skip : Bytes → Bool) (db : PushDB) (l : List (Nat × Bytes))
    (sub : PushSub) :
    (l.foldl (PushSub.visit skip db) sub).cursor
      = match l.getLast? with
        | some k => some k
        | none => sub.cursor := by
  rcases List.eq_nil_or_concat l with h | ⟨t, k, h⟩
  · subst h; rfl
  · subst h
    rw [List.concat_eq_append, List.foldl_append, List.foldl_cons, List.foldl_nil, visit_cursor]
    simp

/-- The pass after a restart visits every entry of the push index. -/
theorem pass_restart (skip : Bytes → Bool) (db : PushDB) (sub : PushSub) :
    (sub.restart.pass skip db).stream
      = sub.stream ++ (db.push.filter (fun k => !skip k.2)).filterMap (fun k => db.get k.2) := by
  unfold PushSub.pass PushSub.restart
  simp only [List.filter_true]
  rw [foldl_visit_stream]

/-- C27: the pass that follows `restart` emits, from the beginning of the push index and in
key order, exactly the chunks of the entries whose address does not satisfy `skip` at that
pass; with an unchanged `skip` a second restart emits the same sequence again; and an entry
that `skip` held of in one pass is emitted by the pass after a later restart at which `skip`
does not hold of it. -/
theorem C27_push_restart (skip skip2 : Bytes → Bool) (db : PushDB) (sub : PushSub) :
    (sub.restart.pass skip db).stream
      = sub.stream ++ (db.push.filter (fun k => !skip k.2)).filterMap (fun k => db.get k.2) ∧
    ((sub.restart.pass skip db).restart.pass skip db).stream
      = (sub.restart.pass skip db).stream
        ++ (db.push.filter (fun k => !skip k.2)).filterMap (fun k => db.get k.2) ∧
    (∀ k c, k ∈ db.push → db.get k.2 = some c → skip k.2 = true → skip2 k.2 = false →
      c ∈ ((sub.restart.pass skip db).restart.pass skip2 db).stream.drop
        (sub.restart.pass skip db).stream.length) := by
  refine ⟨pass_restart skip db sub, pass_restart skip db _, ?_⟩
  intro k c hk hg _ h2
  rw [pass_restart skip2 db, List.drop_left]
  rw [List.mem_filterMap]
  exact ⟨k, List.mem_filter.2 ⟨hk, by simp [h2]⟩, hg⟩

set_option maxRecDepth 100000 in
/-- C27 at three uploaded chunks: with `skip` holding of the first address the pass after a
restart emits the second and third chunk; after `skip` is changed to always false, the pass
after the next restart emits all three, the first included. -/
theorem C27_push_restart_witness :
    (pushStart.2.restart.pass skipFirst pushThree).stream = [chunkOf 1, chunkOf 2] ∧
    ((pushStart.2.restart.pass skipFirst pushThree).restart.pass skipNone pushThree).stream
      = [chunkOf 1, chunkOf 2, chunkOf 0, chunkOf 1, chunkOf 2] ∧
    chunkOf 0 ∈ ((pushStart.2.restart.pass skipFirst pushThree).restart.pass skipNone
      pushThree).stream.drop (pushStart.2.restart.pass skipFirst pushThree).stream.length :=
  ⟨by decide, by decide,
    (C27_push_restart skipFirst skipNone pushThree pushStart.2).2.2 (1, [0]) (chunkOf 0)
      (by decide) (by decide) (by decide) (by decide)⟩
/-- A key whose store time is later than every store time of the push index goes to the end of
the index. -/
theorem insertPush_append (k : Nat × Bytes) :
    ∀ l : List (Nat × Bytes), (∀ h ∈ l, h.1 < k.1) → insertPush k l = l ++ [k]
  | [], _ => rfl
  | h :: t, hl => by
    have hh : h.1 < k.1 := hl h (List.mem_cons_self _ _)
    have h1 : pushKeyLt k h = false := by
      simp only [pushKeyLt, Bool.or_eq_false_iff, decide_eq_false_iff_not, Bool.and_eq_false_imp,
        beq_iff_eq]
      exact ⟨by omega, fun he => by omega⟩
    have h2 : k ≠ h := by
      intro he
      rw [he] at hh
      exact Nat.lt_irrefl _ hh
    simp only [insertPush, h1, if_neg h2, Bool.false_eq_true, if_false, List.cons_append]
    rw [insertPush_append k t (fun x hx => hl x (List.mem_cons_of_mem _ hx))]

/-- The lookup of an address after an upload: the uploaded chunk at its own address, the
chunk stored before at every other address. -/
theorem get_putUpload (db : PushDB) (storeTs : Nat) (c : Chunk) (a : Bytes) :
    (db.putUpload storeTs c).get a = if c.Address = a then some c else db.get a := by
  unfold PushDB.putUpload PushDB.get
  by_cases h : c.Address = a
  · simp [h]
  · simp only [if_neg h]
    rw [List.find?_cons_of_neg _ (by simpa using h)]
    induction db.retrievalData with
    | nil => rfl
    | cons x t ih =>
      by_cases hx : x.Address = c.Address
      · have hxa : ¬ x.Address = a := fun e => h (hx ▸ e)
        rw [List.filter_cons_of_neg (by simpa using hx), ih,
          List.find?_cons_of_neg _ (by simpa using hxa)]
      · rw [List.filter_cons_of_pos (by simpa using hx)]
        by_cases hxa : x.Address = a
        · rw [List.find?_cons_of_pos _ (by simpa using hxa),
            List.find?_cons_of_pos _ (by simpa using hxa)]
        · rw [List.find?_cons_of_neg _ (by simpa using hxa),
            List.find?_cons_of_neg _ (by simpa using hxa), ih]

/-- The lexicographic order is irreflexive. -/
theorem bytesLt_irrefl (s : Bytes) : Batchstore.bytesLt s s = false := by
  cases h : Batchstore.bytesLt s s with
  | false => rfl
  | true => exact absurd (Batchstore.bytesLt_asymm s s h) (by simp [h])

/-- With store times strictly increasing along the uploads `A ++ B` and the cursor at the key
of the last upload of `A`, the entries after the cursor are the keys of `B`. -/
theorem filter_after_cursor (A B : List (Nat × Chunk))
    (hs : ((A ++ B).map (fun u => u.1)).Pairwise (fun x y => x < y)) :
    ((A ++ B).map uploadKey).filter (fun k =>
      match (A.map uploadKey).getLast? with
      | none => true
      | some c => pushKeyLt c k) = B.map uploadKey := by
  rcases List.eq_nil_or_concat A with h | ⟨t, a, h⟩
  · subst h
    simp
  · subst h
    rw [List.concat_eq_append] at hs ⊢
    have hlast : ((t ++ [a]).map uploadKey).getLast? = some (uploadKey a) := by simp
    simp only [hlast]
    rw [List.map_append, List.pairwise_append] at hs
    obtain ⟨hA, _, hAB⟩ := hs
    rw [List.map_append, List.pairwise_append] at hA
    obtain ⟨_, _, htA⟩ := hA
    rw [List.map_append, List.filter_append]
    have e1 : ((t ++ [a]).map uploadKey).filter (fun k => pushKeyLt (uploadKey a) k) = [] := by
      rw [List.filter_eq_nil_iff]
      intro k hk
      rw [List.mem_map] at hk
      obtain ⟨u, hu, rfl⟩ := hk
      rcases List.mem_append.1 hu with hu | hu
      · have := htA u.1 (List.mem_map_of_mem _ hu) a.1 (by simp)
        simp only [pushKeyLt, uploadKey, Bool.or_eq_true, decide_eq_true_eq, Bool.and_eq_true,
          beq_iff_eq, not_or, not_and]
        exact ⟨by omega, fun he => by omega⟩
      · rw [List.mem_singleton.1 hu]
        simp [pushKeyLt, uploadKey, bytesLt_irrefl]
    have e2 : (B.map uploadKey).filter (fun k => pushKeyLt (uploadKey a) k) = B.map uploadKey := by
      rw [List.filter_eq_self]
      intro k hk
      rw [List.mem_map] at hk
      obtain ⟨u, hu, rfl⟩ := hk
      have := hAB a.1 (by simp) u.1 (List.mem_map_of_mem _ hu)
      simp [pushKeyLt, uploadKey, this]
    rw [e1, e2, List.nil_append]
/-- A pass with `skip` always false emits the chunks uploaded since the last pass. -/
theorem pass_inv (st : PushDB × PushSub) (A B : List (Nat × Chunk)) (h : PushInv st A B)
    (hs : ((A ++ B).map (fun u => u.1)).Pairwise (fun x y => x < y)) :
    PushInv ((PushEvent.pass skipNone).apply st) (A ++ B) [] := by
  obtain ⟨db, sub⟩ := st
  obtain ⟨h1, h2, h3, h4⟩ := h
  simp only at h1 h2 h3 h4
  have hf : db.push.filter (fun k =>
      match sub.cursor with
      | none => true
      | some c => pushKeyLt c k) = B.map uploadKey := by
    rw [h1, h4]
    exact filter_after_cursor A B hs
  refine ⟨by simpa using h1, by simpa using h2, ?_, ?_⟩
  · show (sub.pass skipNone db).stream = (A ++ B).map (fun u => u.2)
    unfold PushSub.pass
    rw [hf, foldl_visit_stream, h3, List.map_append]
    congr 1
    have hB : ∀ u ∈ B, db.get u.2.Address = some u.2 :=
      fun u hu => h2 u (List.mem_append_right _ hu)
    clear hf h1 h2 hs
    induction B with
    | nil => rfl
    | cons b t ih =>
      simp only [List.map_cons, skipNone, Bool.not_false, List.filter_cons_of_pos,
        List.filterMap_cons, uploadKey, hB b (List.mem_cons_self _ _)]
      congr 1
      have := ih (fun u hu => hB u (List.mem_cons_of_mem _ hu))
      simpa [skipNone] using this
  · show (sub.pass skipNone db).cursor = ((A ++ B).map uploadKey).getLast?
    unfold PushSub.pass
    rw [hf, foldl_visit_cursor, h4]
    rcases List.eq_nil_or_concat B with hB | ⟨t, b, hB⟩
    · subst hB; simp
    · subst hB
      simp

/-- An upload at a later store time and a new address adds its key at the end of the push
index and leaves the subscription as it is. -/
theorem upload_inv (st : PushDB × PushSub) (A B : List (Nat × Chunk)) (h : PushInv st A B)
    (storeTs : Nat) (c : Chunk) (hts : ∀ u ∈ A ++ B, u.1 < storeTs)
    (hnd : ∀ u ∈ A ++ B, u.2.Address ≠ c.Address) :
    PushInv ((PushEvent.upload storeTs c).apply st) A (B ++ [(storeTs, c)]) := by
  obtain ⟨db, sub⟩ := st
  obtain ⟨h1, h2, h3, h4⟩ := h
  simp only at h1 h2 h3 h4
  refine ⟨?_, ?_, h3, h4⟩
  · show (db.putUpload storeTs c).push = (A ++ (B ++ [(storeTs, c)])).map uploadKey
    unfold PushDB.putUpload
    simp only
    rw [h1, insertPush_append]
    · simp [uploadKey]
    · intro k hk
      rw [List.mem_map] at hk
      obtain ⟨u, hu, rfl⟩ := hk
      exact hts u hu
  · intro u hu
    show (db.putUpload storeTs c).get u.2.Address = some u.2
    rw [get_putUpload]
    rw [← List.append_assoc] at hu
    rcases List.mem_append.1 hu with hu | hu
    · rw [if_neg (fun e => hnd u hu e.symm)]
      exact h2 u hu
    · rw [List.mem_singleton.1 hu]
      simp

/-- A run of uploads and of passes with `skip` always false, the store times of the uploads
strictly increasing and their addresses distinct: the stream is at every time the sequence of
chunks uploaded up to the last pass. -/
theorem runPush_inv : ∀ (evs : List PushEvent) (st : PushDB × PushSub)
    (A B : List (Nat × Chunk)), PushInv st A B →
    (∀ e ∈ evs, e = PushEvent.pass skipNone ∨ ∃ storeTs c, e = PushEvent.upload storeTs c) →
    ((A ++ B ++ uploadsOf evs).map (fun u => u.1)).Pairwise (fun x y => x < y) →
    ((A ++ B ++ uploadsOf evs).map (fun u => u.2.Address)).Nodup →
    ∃ A1 B1, A1 ++ B1 = A ++ B ++ uploadsOf evs ∧ PushInv (runPush evs st) A1 B1
  | [], st, A, B, h, _, _, _ => ⟨A, B, by simp [uploadsOf], h⟩
  | e :: rest, st, A, B, h, hev, hs, hnd => by
    have hrest : ∀ e ∈ rest,
        e = PushEvent.pass skipNone ∨ ∃ storeTs c, e = PushEvent.upload storeTs c :=
      fun x hx => hev x (List.mem_cons_of_mem _ hx)
    rcases hev e (List.mem_cons_self _ _) with he | ⟨storeTs, c, he⟩
    · subst he
      have hu : uploadsOf (PushEvent.pass skipNone :: rest) = uploadsOf rest := rfl
      rw [hu] at hs hnd
      have hsAB : ((A ++ B).map (fun u => u.1)).Pairwise (fun x y => x < y) := by
        rw [List.map_append] at hs
        exact (List.pairwise_append.1 hs).1
      have h1 := pass_inv st A B h hsAB
      obtain ⟨A1, B1, e1, h2⟩ := runPush_inv rest _ (A ++ B) [] h1 hrest
        (by simpa using hs) (by simpa using hnd)
      exact ⟨A1, B1, by rw [e1, hu]; simp, h2⟩
    · subst he
      have hu : uploadsOf (PushEvent.upload storeTs c :: rest) = (storeTs, c) :: uploadsOf rest :=
        rfl
      rw [hu] at hs hnd
      have hts : ∀ u ∈ A ++ B, u.1 < storeTs := by
        intro u hu2
        rw [List.map_append] at hs
        exact (List.pairwise_append.1 hs).2.2 u.1 (List.mem_map_of_mem _ hu2) storeTs (by simp)
      have hne : ∀ u ∈ A ++ B, u.2.Address ≠ c.Address := by
        intro u hu2
        rw [List.map_append, List.nodup_append] at hnd
        intro e
        exact hnd.2.2 (List.mem_map_of_mem (fun u => u.2.Address) hu2) (by simp [e])
      have h1 := upload_inv st A B h storeTs c hts hne
      obtain ⟨A1, B1, e1, h2⟩ := runPush_inv rest _ A (B ++ [(storeTs, c)]) h1 hrest
        (by simpa using hs) (by simpa using hnd)
      exact ⟨A1, B1, by rw [e1, hu]; simp, h2⟩

/-- C26 is refuted as stated: the keys of the push index are `storeTs ‖ address`, so two chunks
stored at the same store time are ordered by address. Uploaded in the order `[2]`, `[1]` they
are emitted in the order `[1]`, `[2]`, which is key order but not the order of upload; and when
the iterator has passed the chunk of address `[2]` before the chunk of address `[1]` is
uploaded, the new key lies before the cursor and that chunk is never emitted, though it is in
the push index. -/
theorem C26_push_emits_all_counterexample :
    (uploadsOf eventsSameTime).map (fun u => u.2) = [chunkOf 2, chunkOf 1] ∧
    (runPush eventsSameTime pushStart).2.stream = [chunkOf 1, chunkOf 2] ∧
    (uploadsOf eventsSameTimePass).map (fun u => u.2) = [chunkOf 2, chunkOf 1] ∧
    (runPush eventsSameTimePass pushStart).2.stream = [chunkOf 2] ∧
    (runPush eventsSameTimePass pushStart).1.push = [(1, [1]), (1, [2])] := by
  decide

/-- C26 (amended): in a run of uploads and passes from the empty database, the subscription
with `skip` always false, the store times of the uploads strictly increasing and their
addresses distinct, after a closing pass the stream holds every uploaded chunk exactly once,
with its data and stamp, in the order of upload, which is the key order of the push index,
whether the chunk was uploaded before the first pass or after it. -/
theorem C26_push_emits_all (evs : List PushEvent)
    (hev : ∀ e ∈ evs, e = PushEvent.pass skipNone ∨ ∃ storeTs c, e = PushEvent.upload storeTs c)
    (hs : ((uploadsOf evs).map (fun u => u.1)).Pairwise (fun x y => x < y))
    (hnd : ((uploadsOf evs).map (fun u => u.2.Address)).Nodup) :
    (runPush (evs ++ [PushEvent.pass skipNone]) pushStart).2.stream
      = (uploadsOf evs).map (fun u => u.2) ∧
    (runPush (evs ++ [PushEvent.pass skipNone]) pushStart).1.push
      = (uploadsOf evs).map uploadKey := by
  have h0 : PushInv pushStart [] [] := ⟨rfl, by simp, rfl, rfl⟩
  obtain ⟨A1, B1, e1, h1⟩ := runPush_inv evs pushStart [] [] h0 hev (by simpa using hs)
    (by simpa using hnd)
  simp only [List.nil_append] at e1
  have h2 := pass_inv _ A1 B1 h1 (by rw [e1]; exact hs)
  have hr : runPush (evs ++ [PushEvent.pass skipNone]) pushStart
      = (PushEvent.pass skipNone).apply (runPush evs pushStart) := by
    simp [runPush, List.foldl_append]
  rw [hr]
  obtain ⟨p1, _, p3, _⟩ := h2
  rw [p3, p1, e1]
  simp

set_option maxRecDepth 100000 in
/-- C26 (amended) at ten uploads before the first pass, five after it and three after the
second pass:
the closing pass leaves all eighteen chunks on the stream, in upload order. -/
theorem C26_push_emits_all_witness :
    (runPush (eventsUpload ++ [PushEvent.pass skipNone]) pushStart).2.stream
      = (List.range 18).map chunkOf ∧
    (uploadsOf eventsUpload).map (fun u => u.2) = (List.range 18).map chunkOf := by
  have h := (C26_push_emits_all eventsUpload
    (by
      intro e he
      simp only [eventsUpload, List.mem_append, List.mem_map, List.mem_singleton] at he
      rcases he with (((⟨a, _, rfl⟩ | rfl) | ⟨a, _, rfl⟩) | rfl) | ⟨a, _, rfl⟩
      · exact Or.inr ⟨_, _, rfl⟩
      · exact Or.inl rfl
      · exact Or.inr ⟨_, _, rfl⟩
      · exact Or.inl rfl
      · exact Or.inr ⟨_, _, rfl⟩)
    (by decide) (by decide)).1
  have e : (uploadsOf eventsUpload).map (fun u => u.2) = (List.range 18).map chunkOf := by
    decide
  exact ⟨h.trans e, e⟩

/-! ## Size counters -/

/-- C34 is refuted as stated: at a size of `2^64 − 1` a change of `+1` writes 0, for `gcSize`
and for `reserveSize`, since the `uint64` addition wraps around. -/
theorem C34_size_counters_counterexample :
    dbMaxSize.incGCSizeInBatch 1 = ([.putGCSize 0], false) ∧
    dbMaxSize.incReserveSizeInBatch 1 = ([.putReserveSize 0], false) ∧
    dbMaxSize.gcSize + 1 = 18446744073709551616 := by
  decide

/-- C34 (amended): for a current size `s` (of `uint64`) and a change `c` (of `int64`),
`incGCSizeInBatch` and `incReserveSizeInBatch` write `s + c` when `c > 0` and
`s + c < 2^64`, write `s − |c|` when `c < 0` and `|c| ≤ s`, and write nothing and trigger no
worker when `c = 0` or `c < 0` and `|c| > s`; the trigger is requested exactly when a size is
written that is at least `cacheCapacity`, respectively `reserveCapacity`. -/
theorem C34_size_counters (db : DB) (c : Int)
    (hc1 : -9223372036854775808 ≤ c) (hc2 : c < 9223372036854775808)
    (hg : db.gcSize < 18446744073709551616) (hr : db.reserveSize < 18446744073709551616) :
    (c = 0 → db.incGCSizeInBatch c = ([], false) ∧ db.incReserveSizeInBatch c = ([], false)) ∧
    (0 < c → db.gcSize + c.toNat < 18446744073709551616 →
      db.incGCSizeInBatch c
        = ([.putGCSize (db.gcSize + c.toNat)], decide (db.gcSize + c.toNat ≥ db.cacheCapacity))) ∧
    (0 < c → db.reserveSize + c.toNat < 18446744073709551616 →
      db.incReserveSizeInBatch c
        = ([.putReserveSize (db.reserveSize + c.toNat)],
            decide (db.reserveSize + c.toNat ≥ db.reserveCapacity))) ∧
    (c < 0 → c.natAbs ≤ db.gcSize →
      db.incGCSizeInBatch c
        = ([.putGCSize (db.gcSize - c.natAbs)],
            decide (db.gcSize - c.natAbs ≥ db.cacheCapacity))) ∧
    (c < 0 → c.natAbs ≤ db.reserveSize →
      db.incReserveSizeInBatch c
        = ([.putReserveSize (db.reserveSize - c.natAbs)],
            decide (db.reserveSize - c.natAbs ≥ db.reserveCapacity))) ∧
    (c < 0 → db.gcSize < c.natAbs → db.incGCSizeInBatch c = ([], false)) ∧
    (c < 0 → db.reserveSize < c.natAbs → db.incReserveSizeInBatch c = ([], false)) := by
  have habs : c < 0 →
      (Batchstore.wrapInt64 (-c) % 18446744073709551616).toNat = c.natAbs := by
    intro h
    unfold Batchstore.wrapInt64
    omega
  have hpos : 0 < c → (c % 18446744073709551616).toNat = c.toNat := by
    intro h
    omega
  refine ⟨?_, ?_, ?_, ?_, ?_, ?_, ?_⟩
  · intro h
    simp [DB.incGCSizeInBatch, DB.incReserveSizeInBatch, h]
  · intro h hlt
    have h0 : c ≠ 0 := by omega
    simp only [DB.incGCSizeInBatch, if_neg h0, gt_iff_lt, if_pos h, hpos h,
      Nat.mod_eq_of_lt hlt]
  · intro h hlt
    have h0 : c ≠ 0 := by omega
    simp only [DB.incReserveSizeInBatch, if_neg h0, gt_iff_lt, if_pos h, hpos h,
      Nat.mod_eq_of_lt hlt]
  · intro h hle
    have h0 : c ≠ 0 := by omega
    have hn : ¬ 0 < c := by omega
    have hs : Batchstore.subU64 db.gcSize c.natAbs = db.gcSize - c.natAbs := by
      unfold Batchstore.subU64
      omega
    simp only [DB.incGCSizeInBatch, if_neg h0, gt_iff_lt, if_neg hn, habs h,
      if_neg (Nat.not_lt.2 hle), hs]
  · intro h hle
    have h0 : c ≠ 0 := by omega
    have hn : ¬ 0 < c := by omega
    have hs : Batchstore.subU64 db.reserveSize c.natAbs = db.reserveSize - c.natAbs := by
      unfold Batchstore.subU64
      omega
    simp only [DB.incReserveSizeInBatch, if_neg h0, gt_iff_lt, if_neg hn, habs h,
      if_neg (Nat.not_lt.2 hle), hs]
  · intro h hlt
    have h0 : c ≠ 0 := by omega
    have hn : ¬ 0 < c := by omega
    simp only [DB.incGCSizeInBatch, if_neg h0, gt_iff_lt, if_neg hn, habs h, if_pos hlt]
  · intro h hlt
    have h0 : c ≠ 0 := by omega
    have hn : ¬ 0 < c := by omega
    simp only [DB.incReserveSizeInBatch, if_neg h0, gt_iff_lt, if_neg hn, habs h, if_pos hlt]

/-- C34 (amended) at a cache of 90 chunks of capacity 100 and a reserve of 50 chunks of
capacity 60: a change of `+10` writes 100, respectively 60, and requests the trigger; a change
of `−95` writes nothing. -/
theorem C34_size_counters_witness :
    dbSmall.incGCSizeInBatch 10 = ([.putGCSize 100], true) ∧
    dbSmall.incReserveSizeInBatch 10 = ([.putReserveSize 60], true) ∧
    dbSmall.incGCSizeInBatch (-95) = ([], false) :=
  ⟨(C34_size_counters dbSmall 10 (by decide) (by decide) (by decide) (by decide)).2.1
      (by decide) (by decide),
    (C34_size_counters dbSmall 10 (by decide) (by decide) (by decide) (by decide)).2.2.1
      (by decide) (by decide),
    (C34_size_counters dbSmall (-95) (by decide) (by decide) (by decide) (by decide)).2.2.2.2.2.1
      (by decide) (by decide)⟩

/-! ## Bounds of the reserve eviction target -/

/-- C36 (code at the failing input): with a cache capacity of 1000 and a reserve capacity of
100, `targetCache = 100 − 500` wraps around on `uint64` to `2^64 − 400`, which is larger
than `targetCeiling = 90` and is returned: the target exceeds the reserve capacity. -/
theorem C36_target_wraps_around :
    (dbOfCapacity 1000 100).reserveEvictionTarget = 18446744073709551216 ∧
    ¬ (dbOfCapacity 1000 100).reserveEvictionTarget ≤ (dbOfCapacity 1000 100).reserveCapacity ∧
    ((Float64.ofUint64 1000).mul reserveCollectionRatio).toUint64 = 500 ∧
    ((Float64.ofUint64 100).mul maxPurgeablePercentageOfReserve).toUint64 = 10 := by
  decide

/-- When half the cache capacity does not exceed the reserve capacity, no subtraction of
`reserveEvictionTarget` wraps around and the target lies between the reserve capacity less
a tenth of it and the reserve capacity. -/
theorem reserveEvictionTarget_bounds (db : DB) (hr : db.reserveCapacity < 2 ^ 64)
    (hw : ((Float64.ofUint64 db.cacheCapacity).mul reserveCollectionRatio).toUint64
      ≤ db.reserveCapacity) :
    db.reserveEvictionTarget ≤ db.reserveCapacity ∧
    db.reserveCapacity
        - ((Float64.ofUint64 db.reserveCapacity).mul maxPurgeablePercentageOfReserve).toUint64
      ≤ db.reserveEvictionTarget := by
  have h1 : ((Float64.ofUint64 db.reserveCapacity).mul maxPurgeablePercentageOfReserve).toUint64
      ≤ db.reserveCapacity := by
    simp only [Float64.toUint64, Float64.mul, Float64.ofUint64, maxPurgeablePercentageOfReserve,
      Nat.zero_add]
    generalize db.reserveCapacity = c at hr
    have h1 := roundFloat64_le c (Nat.lt_trans hr (by norm_num))
    have hp : roundFloat64 c * 3602879701896397 < 2 ^ 128 := by
      norm_num at hr h1 ⊢
      omega
    have h2 := roundFloat64_le _ hp
    apply Nat.div_le_of_le_mul
    generalize roundFloat64 (roundFloat64 c * 3602879701896397) = R at h2
    generalize roundFloat64 c = F at h1 h2
    norm_num at h1 h2 ⊢
    omega
  simp only [DB.reserveEvictionTarget, Batchstore.subU64]
  generalize ((Float64.ofUint64 db.cacheCapacity).mul reserveCollectionRatio).toUint64 = a
    at hw
  generalize ((Float64.ofUint64 db.reserveCapacity).mul maxPurgeablePercentageOfReserve).toUint64
    = b at h1
  norm_num at hr
  split <;> omega

end Localstore

namespace Node
/-! ## Overlay check -/

/-- C25: `CheckOverlayWithStore` returns an error exactly when an overlay is stored under
`non-mineable-overlay` and differs from the supplied one; when it returns no error the
overlay stored afterwards is the supplied one; the legacy key `overlay` is absent after every
call, and no other key is touched. -/
theorem C25_check_overlay (overlay : Bytes) (storer : StateStorer) :
    ((CheckOverlayWithStore overlay storer).2 ≠ none ↔
      ∃ stored, storer.Get secureOverlayKey = .ok stored ∧ stored ≠ overlay) ∧
    ((CheckOverlayWithStore overlay storer).2 = none →
      (CheckOverlayWithStore overlay storer).1.Get secureOverlayKey = .ok overlay) ∧
    (CheckOverlayWithStore overlay storer).1.Get overlayKey = .error .notFound ∧
    (∀ k, k ≠ overlayKey → k ≠ secureOverlayKey →
      (CheckOverlayWithStore overlay storer).1.Get k = storer.Get k) := by
  have hk : secureOverlayKey ≠ overlayKey := by decide
  have hk2 : overlayKey ≠ secureOverlayKey := by decide
  have hd : (storer.Delete overlayKey).2 = none ∨ (storer.Delete overlayKey).2 = some .notFound := by
    unfold StateStorer.Delete
    cases (storer.data overlayKey) <;> simp
  have hc : ¬ ((storer.Delete overlayKey).2 ≠ none ∧ (storer.Delete overlayKey).2 ≠ some .notFound) := by
    rcases hd with h | h <;> simp [h]
  have hg : (storer.Delete overlayKey).1.Get secureOverlayKey = storer.Get secureOverlayKey := by
    simp [StateStorer.Delete, StateStorer.Get, hk]
  unfold CheckOverlayWithStore
  simp only [if_neg hc, hg]
  cases hs : storer.data secureOverlayKey with
  | none =>
    have : storer.Get secureOverlayKey = .error .notFound := by simp [StateStorer.Get, hs]
    simp only [this]
    refine ⟨by simp, ?_, ?_, ?_⟩
    · intro _; simp [StateStorer.Put, StateStorer.Get]
    · simp [StateStorer.Put, StateStorer.Get, StateStorer.Delete, hk2]
    · intro k h1 h2; simp [StateStorer.Put, StateStorer.Get, StateStorer.Delete, h1, h2]
  | some v =>
    have : storer.Get secureOverlayKey = .ok v := by simp [StateStorer.Get, hs]
    simp only [this]
    by_cases hv : v = overlay
    · subst hv
      refine ⟨by simp, ?_, ?_, ?_⟩
      · intro _; simp [StateStorer.Get, StateStorer.Delete, hk, hs]
      · simp [StateStorer.Get, StateStorer.Delete]
      · intro k h1 h2; simp [StateStorer.Get, StateStorer.Delete, h1]
    · refine ⟨by simp [hv], ?_, ?_, ?_⟩
      · simp [hv]
      · simp [hv, StateStorer.Get, StateStorer.Delete]
      · intro k h1 h2; simp [hv, StateStorer.Get, StateStorer.Delete, h1]

/-- On a store with only a legacy overlay the check succeeds, removes the legacy key and
stores the supplied overlay under the new key. -/
theorem CheckOverlayWithStore_legacy :
    (CheckOverlayWithStore [7] storeLegacy).2 = none ∧
    ((CheckOverlayWithStore [7] storeLegacy).1.Get secureOverlayKey).toOption = some [7] ∧
    ((CheckOverlayWithStore [7] storeLegacy).1.Get overlayKey).toOption = none ∧
    (CheckOverlayWithStore [8] (CheckOverlayWithStore [7] storeLegacy).1).2
      = some (.overlayChanged [7] [8]) :=
  ⟨by decide, by decide, by decide, by decide⟩

end Node

namespace Contextstore
/-! ## Context store -/

/-- C38 (code at the failing input): `modeWrapper.Put` panics exactly when the underlying
`Put` returns an empty slice of exists flags, whatever the error returned with it; otherwise
it returns the first flag and the error. When the underlying `Put` fails with no flags, the
error is not returned. -/
theorem C38_put_panics_on_empty {χ ε : Type} (lsPut : χ → List Bool × Option ε) (ch : χ) :
    (modeWrapper.Put lsPut ch = none ↔ (lsPut ch).1 = []) ∧
    (∀ e0 rest, (lsPut ch).1 = e0 :: rest → modeWrapper.Put lsPut ch = some (e0, (lsPut ch).2)) ∧
    modeWrapper.Put putFails 0 = none := by
  unfold modeWrapper.Put
  refine ⟨?_, ?_, rfl⟩
  · cases h : (lsPut ch).1 <;> simp [h]
  · intro e0 rest h
    simp [h]

end Contextstore

namespace Retrieval
/-! ## Skip list -/

/-- Every element of a list is among its first insertions and conversely. -/
theorem mem_firstInsertions : ∀ (l : List Address) (a : Address),
    a ∈ firstInsertions l ↔ a ∈ l
  | [], a => by simp [firstInsertions]
  | b :: l, a => by
    simp only [firstInsertions, List.mem_cons, List.mem_filter, mem_firstInsertions l a]
    by_cases h : a = b <;> simp [h]

/-- The first insertions of a list hold no element twice. -/
theorem nodup_firstInsertions : ∀ l : List Address, (firstInsertions l).Nodup
  | [] => by simp [firstInsertions]
  | a :: l => by
    simp only [firstInsertions, List.nodup_cons, List.mem_filter]
    exact ⟨fun h => by simp at h, (nodup_firstInsertions l).filter _⟩

/-- Appending the addresses of a list one by one, each unless it is already there, appends
the first insertions of the list that are not there at the start. -/
theorem foldl_append_new : ∀ (l A : List Address),
    l.foldl (fun A a => if A.any (fun x => x == a) then A else A ++ [a]) A
      = A ++ (firstInsertions l).filter (fun x => x ∉ A)
  | [], A => by simp [firstInsertions]
  | a :: l, A => by
    rw [List.foldl_cons]
    by_cases h : a ∈ A
    · have hany : (A.any fun x => x == a) = true := by simpa using h
      rw [if_pos hany, foldl_append_new l A]
      simp only [firstInsertions, List.filter_cons, h, not_true_eq_false, decide_False,
        Bool.false_eq_true, if_false, List.filter_filter]
      congr 1
      apply List.filter_congr
      intro x _
      by_cases hx : x ∈ A
      · simp [hx]
      · have : x ≠ a := fun e => hx (e ▸ h)
        simp [hx, this]
    · have hany : ¬ (A.any fun x => x == a) = true := by simpa using h
      rw [if_neg hany, foldl_append_new l (A ++ [a])]
      simp only [firstInsertions, List.filter_cons, h, not_false_eq_true, decide_True, if_true,
        List.filter_filter, List.append_assoc, List.singleton_append]
      congr 2
      apply List.filter_congr
      intro x _
      by_cases hx : x ∈ A <;> by_cases hxa : x = a <;> simp [hx, hxa]

/-- The addresses after a sequence of calls from the fresh list are the first insertions of
the addresses passed to `Add`, the overdraft addresses those of the addresses passed to
`AddOverdraft`. -/
theorem runSkip_lists : ∀ (calls : List SkipCall) (s : skipPeers),
    (runSkip calls s).addresses
      = (addedOf calls).foldl (fun A a => if A.any (fun x => x == a) then A else A ++ [a])
          s.addresses ∧
    (runSkip calls s).overdraftAddresses
      = (overdraftOf calls).foldl (fun A a => if A.any (fun x => x == a) then A else A ++ [a])
          s.overdraftAddresses
  | [], s => ⟨rfl, rfl⟩
  | .add a :: rest, s => by
    have ih := runSkip_lists rest (s.Add a)
    have e : runSkip (.add a :: rest) s = runSkip rest (s.Add a) := rfl
    rw [e, ih.1, ih.2]
    simp only [addedOf, overdraftOf, List.foldl_cons, skipPeers.Add]
    split <;> exact ⟨rfl, rfl⟩
  | .addOverdraft a :: rest, s => by
    have ih := runSkip_lists rest (s.AddOverdraft a)
    have e : runSkip (.addOverdraft a :: rest) s = runSkip rest (s.AddOverdraft a) := rfl
    rw [e, ih.1, ih.2]
    simp only [addedOf, overdraftOf, List.foldl_cons, skipPeers.AddOverdraft]
    split <;> exact ⟨rfl, rfl⟩

/-- C40: for every sequence of `Add` and `AddOverdraft` calls on a fresh skip list, `All()`
is the addresses passed to `Add`, each once in first-insertion order, followed by the
addresses passed to `AddOverdraft`, each once in first-insertion order; after `Reset`,
`All()` is the first list alone and `Saturated()` is true; and `Saturated()` is true exactly
when the overdraft list is empty. -/
theorem C40_skip_peers (calls : List SkipCall) :
    (runSkip calls newSkipPeers).All
      = firstInsertions (addedOf calls) ++ firstInsertions (overdraftOf calls) ∧
    (runSkip calls newSkipPeers).Reset.All = firstInsertions (addedOf calls) ∧
    (runSkip calls newSkipPeers).Reset.addresses = (runSkip calls newSkipPeers).addresses ∧
    (runSkip calls newSkipPeers).Reset.Saturated = true ∧
    ((runSkip calls newSkipPeers).Saturated = true ↔
      (runSkip calls newSkipPeers).overdraftAddresses = []) ∧
    (firstInsertions (addedOf calls)).Nodup ∧
    (firstInsertions (overdraftOf calls)).Nodup ∧
    (∀ a, a ∈ firstInsertions (addedOf calls) ↔ a ∈ addedOf calls) ∧
    (∀ a, a ∈ firstInsertions (overdraftOf calls) ↔ a ∈ overdraftOf calls) := by
  have h := runSkip_lists calls newSkipPeers
  have h1 : (runSkip calls newSkipPeers).addresses = firstInsertions (addedOf calls) := by
    rw [h.1, foldl_append_new]
    simp [newSkipPeers]
  have h2 : (runSkip calls newSkipPeers).overdraftAddresses
      = firstInsertions (overdraftOf calls) := by
    rw [h.2, foldl_append_new]
    simp [newSkipPeers]
  refine ⟨?_, ?_, rfl, rfl, ?_, nodup_firstInsertions _, nodup_firstInsertions _,
    mem_firstInsertions _, mem_firstInsertions _⟩
  · simp [skipPeers.All, h1, h2]
  · simp [skipPeers.All, skipPeers.Reset, h1]
  · simp [skipPeers.Saturated]

/-- The skip list after the calls `Add [1]`, `AddOverdraft [3]`, `Add [2]`,
`AddOverdraft [1]`, `Add [1]`, `AddOverdraft [3]`, before and after `Reset`. -/
theorem runSkip_example :
    (runSkip callsSkip newSkipPeers).All = [[1], [2], [3], [1]] ∧
    (runSkip callsSkip newSkipPeers).Saturated = false ∧
    (runSkip callsSkip newSkipPeers).Reset.All = [[1], [2]] ∧
    (runSkip callsSkip newSkipPeers).Reset.Saturated = true := by
  decide

end Retrieval
